import Mathlib

/-!
# The persistent block cache, the histogram and the hexadecimal conversions

A shallow embedding of three parts of the repository, with the properties proved
about each:

* `cache/blockcache.cc` and `blkcache/blkcache_cachefile.h`, namespace `BlockCache`:
  the facade `BlockCacheImpl` (`Insert`, `InsertImpl`, `Lookup`, `Erase`,
  `NewCacheFile`, `Reserve`) and `WriteableCacheFile::Read`;
* `util/histogram.cc`, namespace `leveldb`: `HistogramBucketMapper` and `Histogram`;
* `util/ldb_cmd.h`, namespace `leveldb`: `LDBCommand::HexToString` and
  `LDBCommand::StringToHex`.

Conventions:

* The cache is a value of type `BlockCacheImpl`; every member function takes the
  state and returns the new state next to its C++ result.
* `assert` is modelled by `check`: with `ndebug = false` a failed assertion stops
  the call with `Abort.assertion line`, with `ndebug = true` it is compiled out.
* `size_t` / `uint64_t` are natural numbers reduced modulo `2 ^ 64`, `uint32_t` and
  `unsigned int` modulo `2 ^ 32`.
* The `double` expression of the cache, `cache_size * 0.9`, is modelled exactly by
  integer arithmetic (`exceeds90`). The `double` members of the histogram are
  rational numbers and every operation on them is followed by the rounding of an
  `Arith`: none for `Arith.exact`, IEEE-754 binary64 for `Arith.binary64`.
* Loops that may not end carry a fuel argument; a result `diverged` says that it
  ran out.
* The metadata index, the write buffers, `Append`, `ReadImpl`, the on-disk reader
  and the record format are not among the sources; their definitions follow the
  specification and say so. `util/histogram.h` is not among the sources either.
* The flusher thread is a step of its own (`Step.flush`) that can come between the
  calls of the facade. Locks, logging and the insert thread are not part of the
  model.
-/

namespace BlockCache

/-! ## Machine arithmetic -/

/-- Reduction of a natural number to `uint64_t` / `size_t`. -/
def wrap64 (n : Nat) : Nat := n % 2 ^ 64

/-- Reduction of a natural number to `uint32_t`. -/
def wrap32 (n : Nat) : Nat := n % 2 ^ 32

/-- How many low bits have to be dropped from `n` to leave at most 53 significant
bits; `fuel` bounds the search (128 covers every product of two 64-bit values). -/
def shiftAux : Nat → Nat → Nat
  | 0, _ => 0
  | fuel + 1, n => if n < 2 ^ 53 then 0 else shiftAux fuel (n / 2) + 1

/-- Conversion of an integer to IEEE-754 binary64 (53-bit significand, round to
nearest, ties to even). The result is the value of the double, which is again an
integer because only integers of at least 54 bits are rounded. -/
def roundToDouble (n : Nat) : Nat :=
  let e := shiftAux 128 n
  let q := n / 2 ^ e
  let r := n % 2 ^ e
  if 2 * r < 2 ^ e then q * 2 ^ e
  else if 2 ^ e < 2 * r then (q + 1) * 2 ^ e
  else if q % 2 = 0 then q * 2 ^ e
  else (q + 1) * 2 ^ e

/-- The double literal `0.9` is `dbl_0_9 / 2 ^ 53`. -/
def dbl_0_9 : Nat := 8106479329266893

/-- The C++ comparison `x > cache_size * 0.9` for 64-bit unsigned `x` and
`cache_size`: both operands are converted to double, the product
`double(cache_size) * 0.9` is rounded once, and the comparison is exact. Scaled by
`2 ^ 53` every quantity is an integer. -/
def exceeds90 (x cache_size : Nat) : Bool :=
  decide (roundToDouble (roundToDouble cache_size * dbl_0_9) < roundToDouble x * 2 ^ 53)

/-! ## Outcomes -/

/-- Why a call did not return. -/
inductive Abort where
  /-- An `assert` failed at the given line of `cache/blockcache.cc`. -/
  | assertion (line : Nat)
  /-- The null `cacheFile_` was dereferenced. -/
  | nullFile
  /-- The fuel of a loop ran out. -/
  | diverged
  deriving DecidableEq

/-- The C `assert(c)` at `line`, followed by the rest of the function `k`. -/
def check {α : Type} (ndebug : Bool) (line : Nat) (c : Bool) (k : Except Abort α) :
    Except Abort α :=
  if ndebug || c then k else Except.error (Abort.assertion line)

/-- The values of `rocksdb::Status` that the facade returns. -/
inductive Status where
  | OK
  | TryAgain
  deriving DecidableEq

/-! ## Records and logical block addresses -/

abbrev Byte := Fin 256

abbrev Slice := List Byte

/-- The low byte of a number. -/
def byteOf (n : Nat) : Byte := ⟨n % 256, Nat.mod_lt n (by decide)⟩

/-- Little-endian encoding of a `uint32_t`. -/
def EncodeFixed32 (n : Nat) : Slice :=
  [byteOf n, byteOf (n / 2 ^ 8), byteOf (n / 2 ^ 16), byteOf (n / 2 ^ 24)]

/-- Little-endian decoding of the first four bytes. -/
def DecodeFixed32 : Slice → Nat
  | a :: b :: c :: d :: _ => a.val + 2 ^ 8 * b.val + 2 ^ 16 * c.val + 2 ^ 24 * d.val
  | _ => 0

/-- One shift step of the reflected CRC-32C polynomial. -/
def crcStep (crc : Nat) : Nat :=
  if crc % 2 = 1 then (crc / 2) ^^^ 0x82F63B78 else crc / 2

/-- Feeds one byte into the running CRC. -/
def crcByte (crc : Nat) (b : Byte) : Nat :=
  crcStep (crcStep (crcStep (crcStep (crcStep (crcStep (crcStep (crcStep (crc ^^^ b.val))))))))

/-- Modelled from the spec: `util/crc32c` is not among the sources; the spec names
the checksum of a record `crc32c`, here the standard CRC-32C (Castagnoli). -/
def crc32c (data : Slice) : Nat :=
  (data.foldl crcByte 0xFFFFFFFF) ^^^ 0xFFFFFFFF

/-- Logical block address of a record: file, offset in the file, encoded length. -/
structure LBA where
  cache_id_ : Nat
  off_ : Nat
  size_ : Nat
  deriving DecidableEq

/-- Entry of the key index. -/
structure BlockInfo where
  key_ : Slice
  lba_ : LBA
  deriving DecidableEq

/-- Encoded length of a record: two length words, key, value, checksum. -/
def recordSize (key val : Slice) : Nat := 8 + key.length + val.length + 4

/-- Modelled from the spec: the serialized form of a record (section 3),
`key_len | val_len | key | value | crc32c` with the checksum over what precedes it. -/
def encodeRecord (key val : Slice) : Slice :=
  let body := EncodeFixed32 key.length ++ EncodeFixed32 val.length ++ key ++ val
  body ++ EncodeFixed32 (crc32c body)

/-- Modelled from the spec: `RandomAccessCacheFile::ParseRec` is declared in the
header only. Parses the `lba.size_` bytes of `scratch` as a record and verifies
lengths and checksum. -/
def ParseRec (lba : LBA) (scratch : Slice) : Option (Slice × Slice) :=
  let klen := DecodeFixed32 scratch
  let vlen := DecodeFixed32 (scratch.drop 4)
  if scratch.length = lba.size_ ∧ 8 + klen + vlen + 4 = lba.size_ then
    if (scratch.drop (8 + klen + vlen)).take 4
        = EncodeFixed32 (crc32c (scratch.take (8 + klen + vlen))) then
      some ((scratch.drop 8).take klen, (scratch.drop (8 + klen)).take vlen)
    else none
  else none

/-! ## Write buffers and their allocator -/

/-- Modelled from the spec: a fixed-capacity write buffer (section 4.1);
`data_` is the used part. -/
structure CacheWriteBuffer where
  size_ : Nat
  data_ : Slice
  deriving DecidableEq

/-- Modelled from the spec: the bounded pool of write buffers (section 4.1);
`free_` buffers of `buffer_size_` bytes can still be issued. -/
structure CacheWriteBufferAllocator where
  buffer_size_ : Nat
  free_ : Nat
  deriving DecidableEq

/-- Modelled from the spec: `Allocate() -> Buffer | NoBuffer`. -/
def CacheWriteBufferAllocator.Allocate (a : CacheWriteBufferAllocator) :
    Option (CacheWriteBuffer × CacheWriteBufferAllocator) :=
  if a.free_ = 0 then none
  else some ({ size_ := a.buffer_size_, data_ := [] }, { a with free_ := a.free_ - 1 })

/-- Modelled from the spec: `Release(Buffer)` returns a buffer to the pool
(section 4.1). -/
def CacheWriteBufferAllocator.Release (a : CacheWriteBufferAllocator) :
    CacheWriteBufferAllocator :=
  { a with free_ := a.free_ + 1 }


/-! ## The filesystem -/

/-- Modelled from the spec: the filesystem abstraction `Env`, reduced to which
operations fail; a file is named by its cache id. -/
structure Env where
  create_fails_ : List Nat
  read_fails_ : List Nat
  delete_fails_ : List Nat
  deriving DecidableEq

/-! ## Cache files -/

/-- The data members of `WriteableCacheFile` and of its bases. `disk_` is the
content of the backing file, `block_infos_` the per-file list filled by `Add`,
`finalized_` the time at which the file became read-only (its place in the LRU). -/
structure WriteableCacheFile where
  cache_id_ : Nat
  refs_ : Nat
  size_ : Nat
  max_size_ : Nat
  eof_ : Bool
  disk_woff_ : Nat
  buf_woff_ : Nat
  buf_doff_ : Nat
  is_io_pending_ : Bool
  bufs_ : List CacheWriteBuffer
  disk_ : Slice
  block_infos_ : List BlockInfo
  finalized_ : Option Nat
  deriving DecidableEq

/-- The constructor of `WriteableCacheFile`. -/
def WriteableCacheFile.new (cache_id max_size : Nat) : WriteableCacheFile :=
  { cache_id_ := cache_id, refs_ := 0, size_ := 0, max_size_ := max_size, eof_ := false,
    disk_woff_ := 0, buf_woff_ := 0, buf_doff_ := 0, is_io_pending_ := false,
    bufs_ := [], disk_ := [], block_infos_ := [], finalized_ := none }

/-- The accessor `Eof()`. -/
def WriteableCacheFile.Eof (f : WriteableCacheFile) : Bool := f.eof_

/-- Modelled from the spec: `WriteableCacheFile::Create` creates the backing file
and fails when the filesystem does. -/
def WriteableCacheFile.Create (env : Env) (f : WriteableCacheFile) : Bool :=
  !(env.create_fails_.contains f.cache_id_)

/-- Modelled from the spec: `BlockCacheFile::Delete(&file_size)` deletes the backing
file and reports its byte count; `none` is a filesystem failure. -/
def WriteableCacheFile.Delete (env : Env) (f : WriteableCacheFile) : Option Nat :=
  if env.delete_fails_.contains f.cache_id_ then none else some f.disk_.length

/-- Modelled from the spec: `cacheFile.Add(info)` attaches the block info to the
per-file list used at eviction. -/
def WriteableCacheFile.Add (f : WriteableCacheFile) (info : BlockInfo) : WriteableCacheFile :=
  { f with block_infos_ := info :: f.block_infos_ }

/-- The increment `++file->refs_`. -/
def WriteableCacheFile.ref (f : WriteableCacheFile) : WriteableCacheFile :=
  { f with refs_ := f.refs_ + 1 }

/-- The decrement `--file->refs_`. -/
def WriteableCacheFile.unref (f : WriteableCacheFile) : WriteableCacheFile :=
  { f with refs_ := f.refs_ - 1 }

/-- Whether the tail (last) buffer can take `needed` more bytes. -/
def tailHasRoom : List CacheWriteBuffer → Nat → Bool
  | [], _ => false
  | [b], needed => decide (b.data_.length + needed ≤ b.size_)
  | _ :: rest, needed => tailHasRoom rest needed

/-- Appends `bytes` to the tail (last) buffer. -/
def writeTail : List CacheWriteBuffer → Slice → List CacheWriteBuffer
  | [], _ => []
  | [b], bytes => [{ b with data_ := b.data_ ++ bytes }]
  | b :: rest, bytes => b :: writeTail rest bytes

/-- Whether the tail (last) buffer is used up. -/
def tailFull : List CacheWriteBuffer → Bool
  | [] => false
  | [b] => decide (b.size_ ≤ b.data_.length)
  | _ :: rest => tailFull rest

/-- Modelled from the spec: `WriteableCacheFile::ExpandBuffer` makes sure the tail
buffer has room for `needed` bytes, taking one more buffer from the allocator when
it has not; the result is false when the allocator has no buffer or the record
does not fit a whole buffer. -/
def WriteableCacheFile.ExpandBuffer (f : WriteableCacheFile) (alloc : CacheWriteBufferAllocator)
    (needed : Nat) : Bool × WriteableCacheFile × CacheWriteBufferAllocator :=
  if tailHasRoom f.bufs_ needed then (true, f, alloc)
  else
    match alloc.Allocate with
    | none => (false, f, alloc)
    | some (b, alloc1) =>
      (decide (needed ≤ b.size_), { f with bufs_ := f.bufs_ ++ [b] }, alloc1)

/-- Modelled from the spec: `WriteableCacheFile::DispatchBuffer` hands the buffer at
`buf_doff_` to the flusher and advances the cursor. -/
def WriteableCacheFile.DispatchBuffer (f : WriteableCacheFile) : WriteableCacheFile :=
  { f with buf_doff_ := f.buf_doff_ + 1, is_io_pending_ := true }

/-- Modelled from the spec: `WriteableCacheFile::Append` (section 4.2). A record that
would pass `max_size_` sets `eof_` and is rejected; a record for which no buffer
room can be found is rejected without `eof_`; otherwise the encoded record goes to
the tail buffer and its address is `(cache_id, size before, needed)`. -/
def WriteableCacheFile.Append (f : WriteableCacheFile) (alloc : CacheWriteBufferAllocator)
    (key val : Slice) : Option LBA × WriteableCacheFile × CacheWriteBufferAllocator :=
  let needed := recordSize key val
  if f.size_ + needed > f.max_size_ then (none, { f with eof_ := true }, alloc)
  else
    match f.ExpandBuffer alloc needed with
    | (false, f1, alloc1) => (none, f1, alloc1)
    | (true, f1, alloc1) =>
      let lba : LBA := { cache_id_ := f1.cache_id_, off_ := f1.size_, size_ := needed }
      let f2 := { f1 with bufs_ := writeTail f1.bufs_ (encodeRecord key val),
                          size_ := f1.size_ + needed }
      if tailFull f2.bufs_ then
        (some lba, WriteableCacheFile.DispatchBuffer { f2 with buf_woff_ := f2.buf_woff_ + 1 },
          alloc1)
      else (some lba, f2, alloc1)

/-- Modelled from the spec: one step of the flusher on a file (sections 4.2 and
4.4). The first buffer of the list is written when it has been dispatched
(`buf_doff_` is past it) or when the file has refused an append (`eof_`; the file
becomes read-only once all its buffers are flushed, section 3): its used bytes are
appended to the backing file, and `BufferWriteDone` advances `disk_woff_`, a
`uint32_t`, by their number and removes the buffer from the list, so that the two
cursors into the list move down by one; at `eof_` with an empty list the file
becomes read-only at the time `now`. The result is `none` when there is nothing to
write. -/
def WriteableCacheFile.Flush (f : WriteableCacheFile) (now : Nat) : Option WriteableCacheFile :=
  match f.bufs_ with
  | [] => none
  | b :: rest =>
    if 0 < f.buf_doff_ ∨ f.eof_ = true then
      some { f with disk_ := f.disk_ ++ b.data_,
                    disk_woff_ := wrap32 (f.disk_woff_ + b.data_.length),
                    bufs_ := rest,
                    buf_woff_ := f.buf_woff_ - 1,
                    buf_doff_ := f.buf_doff_ - 1,
                    finalized_ := if f.eof_ = true ∧ rest = [] then some now else f.finalized_ }
    else none


/-- Modelled from the spec: `WriteableCacheFile::ReadBuffer` finds the byte range
`[off, off + size)` in the resident buffers, `off` counted from the start of the
first one; a range that is not inside one buffer is not found. -/
def ReadBuffer : List CacheWriteBuffer → Nat → Nat → Option Slice
  | [], _, _ => none
  | b :: rest, off, size =>
    if off < b.data_.length then
      if off + size ≤ b.data_.length then some ((b.data_.drop off).take size) else none
    else ReadBuffer rest (off - b.data_.length) size

/-- Positional read of `lba.size_` bytes at `lba.off_` from the backing file,
parsed as a record; a filesystem error or a short read gives `none`. -/
def diskRead (env : Env) (f : WriteableCacheFile) (lba : LBA) : Option (Slice × Slice) :=
  if env.read_fails_.contains f.cache_id_ then none
  else
    let scratch := (f.disk_.drop lba.off_).take lba.size_
    if scratch.length = lba.size_ then ParseRec lba scratch else none

/-- Modelled from the spec: `RandomAccessCacheFile::Read` (section 4.3). -/
def RandomAccessCacheFile.Read (env : Env) (f : WriteableCacheFile) (lba : LBA) :
    Option (Slice × Slice) :=
  diskRead env f lba

/-- Modelled from the spec: `WriteableCacheFile::ReadImpl` (section 4.2): offsets
below `disk_woff_` are read from disk, later ones from the resident buffers. -/
def WriteableCacheFile.ReadImpl (env : Env) (f : WriteableCacheFile) (lba : LBA) :
    Option (Slice × Slice) :=
  if lba.off_ < f.disk_woff_ then diskRead env f lba
  else
    match ReadBuffer f.bufs_ (lba.off_ - f.disk_woff_) lba.size_ with
    | none => none
    | some scratch => ParseRec lba scratch

/-- The inline `WriteableCacheFile::Read` of the header: a closed file is read
through `RandomAccessCacheFile::Read`, any other through `ReadImpl`. -/
def WriteableCacheFile.Read (env : Env) (f : WriteableCacheFile) (lba : LBA) :
    Option (Slice × Slice) :=
  let closed := f.eof_ && f.bufs_.isEmpty
  if closed then RandomAccessCacheFile.Read env f lba
  else f.ReadImpl env lba

/-! ## The metadata index -/

/-- Modelled from the spec: `BlockCacheMetadata` (section 4.7). `block_index_` is
the key index, `cache_file_index_` the file index without the file that
`cacheFile_` points to, which the facade state holds itself. -/
structure BlockCacheMetadata where
  block_index_ : List BlockInfo
  cache_file_index_ : List WriteableCacheFile
  deriving DecidableEq

/-- Modelled from the spec: `metadata_.Lookup(key, &lba)`, the key index lookup. -/
def BlockCacheMetadata.Lookup (m : BlockCacheMetadata) (key : Slice) : Option LBA :=
  (m.block_index_.find? (fun i => decide (i.key_ = key))).map BlockInfo.lba_

/-- Modelled from the spec: `metadata_.Insert(info)`; keys are unique, so an
insert of a present key fails. -/
def BlockCacheMetadata.Insert (m : BlockCacheMetadata) (info : BlockInfo) :
    Bool × BlockCacheMetadata :=
  match m.Lookup info.key_ with
  | some _ => (false, m)
  | none => (true, { m with block_index_ := info :: m.block_index_ })

/-- Modelled from the spec: `metadata_.Remove(key)` removes the key index entry and
returns its block info, null when the key is absent. -/
def BlockCacheMetadata.Remove (m : BlockCacheMetadata) (key : Slice) :
    Option BlockInfo × BlockCacheMetadata :=
  (m.block_index_.find? (fun i => decide (i.key_ = key)),
    { m with block_index_ := m.block_index_.filter (fun i => !decide (i.key_ = key)) })

/-- Whether `f` is evicted before `g`: earlier finalization first, lowest cache id
on a tie; a file that is not finalized is never preferred. -/
def evictsBefore (f g : WriteableCacheFile) : Bool :=
  match f.finalized_, g.finalized_ with
  | some tf, some tg => decide (tf < tg ∨ (tf = tg ∧ f.cache_id_ ≤ g.cache_id_))
  | some _, none => true
  | none, _ => false

/-- The eviction victim of a list of files: the least recently finalized
read-only file, `none` when no file is finalized. -/
def victim : List WriteableCacheFile → Option WriteableCacheFile
  | [] => none
  | f :: rest =>
    match victim rest with
    | none => if f.finalized_.isSome then some f else none
    | some g => if evictsBefore f g then some f else some g

/-- Modelled from the spec: `metadata_.Evict()` detaches the victim from the file
index and removes the block infos on its per-file list from the key index. -/
def BlockCacheMetadata.Evict (m : BlockCacheMetadata) :
    Option (WriteableCacheFile × BlockCacheMetadata) :=
  match victim m.cache_file_index_ with
  | none => none
  | some f =>
    some (f, { block_index_ := m.block_index_.filter (fun i => !(f.block_infos_.contains i)),
               cache_file_index_ := m.cache_file_index_.erase f })

/-! ## The facade state -/

/-- The fields of `BlockCacheOptions` that the facade reads. -/
structure BlockCacheOptions where
  env : Env
  cache_size : Nat
  cache_file_size : Nat
  pipeline_writes_ : Bool
  deriving DecidableEq

/-- An element of the insert queue. -/
structure InsertOp where
  key_ : Slice
  data_ : Slice
  size_ : Nat
  exit_loop_ : Bool
  deriving DecidableEq

/-- The counters of `stats_`; a histogram is the list of the values added to it. -/
structure Stats where
  bytes_pipelined_ : List Nat
  bytes_written_ : List Nat
  bytes_read_ : List Nat
  cache_hits_ : Nat
  cache_misses_ : Nat
  deriving DecidableEq

/-- The data members of `BlockCacheImpl`. `cacheFile_` holds the object that the
pointer `cacheFile_` refers to; `cacheFile_indexed_` tells whether the file index
refers to that same object (it does when `metadata_.Insert(cacheFile_)` succeeded). -/
structure BlockCacheImpl where
  opt_ : BlockCacheOptions
  metadata_ : BlockCacheMetadata
  cacheFile_ : Option WriteableCacheFile
  cacheFile_indexed_ : Bool
  writerCacheId_ : Nat
  size_ : Nat
  bufferAllocator_ : CacheWriteBufferAllocator
  insert_ops_ : List InsertOp
  stats_ : Stats
  deriving DecidableEq

/-- Applies `g` to the first file of the list with the given cache id. -/
def modifyFirst (g : WriteableCacheFile → WriteableCacheFile) (cache_id : Nat) :
    List WriteableCacheFile → List WriteableCacheFile
  | [] => []
  | f :: rest =>
    if f.cache_id_ = cache_id then g f :: rest else f :: modifyFirst g cache_id rest

/-- The file that the file index holds for `cache_id`. -/
def BlockCacheImpl.findFile (c : BlockCacheImpl) (cache_id : Nat) : Option WriteableCacheFile :=
  match c.metadata_.cache_file_index_.find? (fun f => decide (f.cache_id_ = cache_id)) with
  | some f => some f
  | none =>
    match c.cacheFile_ with
    | some f => if c.cacheFile_indexed_ ∧ f.cache_id_ = cache_id then some f else none
    | none => none

/-- Applies `g` in place to the file that the file index holds for `cache_id`. -/
def BlockCacheImpl.modifyFile (c : BlockCacheImpl) (cache_id : Nat)
    (g : WriteableCacheFile → WriteableCacheFile) : BlockCacheImpl :=
  match c.metadata_.cache_file_index_.find? (fun f => decide (f.cache_id_ = cache_id)) with
  | some _ =>
    { c with metadata_ := { c.metadata_ with
        cache_file_index_ := modifyFirst g cache_id c.metadata_.cache_file_index_ } }
  | none =>
    match c.cacheFile_ with
    | some f =>
      if c.cacheFile_indexed_ ∧ f.cache_id_ = cache_id then { c with cacheFile_ := some (g f) }
      else c
    | none => c

/-- Modelled from the spec: `metadata_.Lookup(cache_id)`, the file index lookup,
which takes a reference on the file it returns (section 4.6). -/
def BlockCacheImpl.LookupFile (c : BlockCacheImpl) (cache_id : Nat) :
    Option (WriteableCacheFile × BlockCacheImpl) :=
  match c.findFile cache_id with
  | none => none
  | some f =>
    some (f.ref, c.modifyFile cache_id WriteableCacheFile.ref)

/-! ## The member functions of `BlockCacheImpl` -/

/-- `BlockCacheImpl::NewCacheFile`: the next cache id, a new writable file for it,
`Create`, and the insert into the file index. The file that `cacheFile_` pointed to
stays in the file index if it was there. -/
def BlockCacheImpl.NewCacheFile (ndebug : Bool) (c : BlockCacheImpl) :
    Except Abort BlockCacheImpl :=
  let id := wrap32 (c.writerCacheId_ + 1)
  let f := WriteableCacheFile.new id (wrap32 c.opt_.cache_file_size)
  let index :=
    match c.cacheFile_ with
    | some old =>
      if c.cacheFile_indexed_ then c.metadata_.cache_file_index_ ++ [old]
      else c.metadata_.cache_file_index_
    | none => c.metadata_.cache_file_index_
  check ndebug 199 (f.Create c.opt_.env) <|
  let status := index.all (fun g => !decide (g.cache_id_ = id))
  check ndebug 204 status <|
  Except.ok { c with writerCacheId_ := id, cacheFile_ := some f, cacheFile_indexed_ := status,
                     metadata_ := { c.metadata_ with cache_file_index_ := index } }

/-- The `while (!cacheFile_->Append(...))` loop of `InsertImpl`: the address of the
appended record, or `none` for `Status::TryAgain`. -/
def BlockCacheImpl.appendLoop (ndebug : Bool) (key data : Slice) :
    Nat → BlockCacheImpl → Except Abort (Option LBA × BlockCacheImpl)
  | 0, _ => Except.error Abort.diverged
  | fuel + 1, c =>
    match c.cacheFile_ with
    | none => Except.error Abort.nullFile
    | some f =>
      match f.Append c.bufferAllocator_ key data with
      | (some lba, f1, alloc1) =>
        Except.ok (some lba, { c with cacheFile_ := some f1, bufferAllocator_ := alloc1 })
      | (none, f1, alloc1) =>
        let c1 := { c with cacheFile_ := some f1, bufferAllocator_ := alloc1 }
        if !f1.Eof then Except.ok (none, c1)
        else
          check ndebug 115 f1.Eof <|
          match c1.NewCacheFile ndebug with
          | Except.error e => Except.error e
          | Except.ok c2 => BlockCacheImpl.appendLoop ndebug key data fuel c2

/-- `BlockCacheImpl::InsertImpl` on the first `size` bytes of `buf`. The assertion
`assert(buf)` of line 95 has no counterpart: the buffer is always allocated. -/
def BlockCacheImpl.InsertImpl (ndebug : Bool) (fuel : Nat) (c : BlockCacheImpl) (key buf : Slice)
    (size : Nat) : Except Abort (Status × BlockCacheImpl) :=
  check ndebug 96 (decide (size ≠ 0)) <|
  check ndebug 97 c.cacheFile_.isSome <|
  match c.metadata_.Lookup key with
  | some _ => Except.ok (Status.OK, c)
  | none =>
    match BlockCacheImpl.appendLoop ndebug key (buf.take size) fuel c with
    | Except.error e => Except.error e
    | Except.ok (none, c1) => Except.ok (Status.TryAgain, c1)
    | Except.ok (some lba, c1) =>
      match c1.cacheFile_ with
      | none => Except.error Abort.nullFile
      | some f =>
        let info : BlockInfo := { key_ := key, lba_ := lba }
        let c2 := { c1 with cacheFile_ := some (f.Add info) }
        let r := c2.metadata_.Insert info
        check ndebug 124 r.1 <|
        Except.ok (Status.OK,
          { c2 with metadata_ := r.2,
                    stats_ := { c2.stats_ with
                      bytes_written_ := c2.stats_.bytes_written_ ++ [size] } })

/-- `BlockCacheImpl::Insert`: the first `size` bytes of `data` are copied; with
`pipeline_writes_` the copy is queued, otherwise `InsertImpl` runs at once. -/
def BlockCacheImpl.Insert (ndebug : Bool) (fuel : Nat) (c : BlockCacheImpl) (key data : Slice)
    (size : Nat) : Except Abort (Status × BlockCacheImpl) :=
  let c1 := { c with stats_ := { c.stats_ with
                bytes_pipelined_ := c.stats_.bytes_pipelined_ ++ [size] } }
  let tmp := data.take size
  if c1.opt_.pipeline_writes_ then
    Except.ok (Status.OK,
      { c1 with insert_ops_ := c1.insert_ops_ ++
          [{ key_ := key, data_ := tmp, size_ := size, exit_loop_ := false }] })
  else
    check ndebug 75 (!c1.opt_.pipeline_writes_) <|
    c1.InsertImpl ndebug fuel key tmp size

/-- `BlockCacheImpl::Lookup`: the value and its size on a hit. -/
def BlockCacheImpl.Lookup (ndebug : Bool) (c : BlockCacheImpl) (key : Slice) :
    Except Abort (Bool × Option (Slice × Nat) × BlockCacheImpl) :=
  match c.metadata_.Lookup key with
  | none => Except.ok (false, none, c)
  | some lba =>
    match c.LookupFile lba.cache_id_ with
    | none =>
      Except.ok (false, none,
        { c with stats_ := { c.stats_ with cache_misses_ := c.stats_.cache_misses_ + 1 } })
    | some (file, c1) =>
      check ndebug 153 (decide (file.refs_ ≠ 0)) <|
      let status := file.Read c.opt_.env lba
      let c2 := c1.modifyFile lba.cache_id_ WriteableCacheFile.unref
      match status with
      | none =>
        check ndebug 162 false <|
        Except.ok (false, none,
          { c2 with stats_ := { c2.stats_ with cache_misses_ := c2.stats_.cache_misses_ + 1 } })
      | some (blk_key, blk_val) =>
        check ndebug 167 (decide (blk_key = key)) <|
        Except.ok (true, some (blk_val, blk_val.length),
          { c2 with stats_ := { c2.stats_ with
                      bytes_read_ := c2.stats_.bytes_read_ ++ [blk_val.length],
                      cache_hits_ := c2.stats_.cache_hits_ + 1 } })

/-- `BlockCacheImpl::Erase`. -/
def BlockCacheImpl.Erase (ndebug : Bool) (c : BlockCacheImpl) (key : Slice) :
    Except Abort (Bool × BlockCacheImpl) :=
  let r := c.metadata_.Remove key
  check ndebug 182 r.1.isSome <|
  Except.ok (true, { c with metadata_ := r.2 })

/-- The result of `Reserve`: the returned flag, the new state, and the files that
`metadata_.Evict()` handed out, in order (kept for the statements only). -/
structure Reserved where
  admitted : Bool
  cache : BlockCacheImpl
  evicted : List WriteableCacheFile

/-- The `while (size + size_ > opt_.cache_size * 0.9)` loop of `Reserve` and what
follows it. -/
def BlockCacheImpl.reserveLoop (ndebug : Bool) (size : Nat) :
    Nat → BlockCacheImpl → List WriteableCacheFile → Except Abort Reserved
  | 0, _, _ => Except.error Abort.diverged
  | fuel + 1, c, ev =>
    if exceeds90 (wrap64 (size + c.size_)) c.opt_.cache_size then
      match c.metadata_.Evict with
      | none => Except.ok { admitted := false, cache := c, evicted := ev }
      | some (f, m) =>
        let c1 := { c with metadata_ := m }
        check ndebug 227 (decide (f.refs_ = 0)) <|
        match f.Delete c.opt_.env with
        | none => Except.ok { admitted := false, cache := c1, evicted := ev ++ [f] }
        | some file_size =>
          check ndebug 234 (decide (file_size ≤ c1.size_)) <|
          BlockCacheImpl.reserveLoop ndebug size fuel
            { c1 with size_ := wrap64 (c1.size_ + 2 ^ 64 - wrap64 file_size) } (ev ++ [f])
    else
      let c1 := { c with size_ := wrap64 (c.size_ + size) }
      check ndebug 239 (!exceeds90 c1.size_ c1.opt_.cache_size) <|
      Except.ok { admitted := true, cache := c1, evicted := ev }

/-- `BlockCacheImpl::Reserve`. Every turn of its loop takes a file out of the file
index, so one more turn than the index has files is enough fuel. -/
def BlockCacheImpl.Reserve (ndebug : Bool) (c : BlockCacheImpl) (size : Nat) :
    Except Abort Reserved :=
  check ndebug 209 (decide (c.size_ ≤ c.opt_.cache_size)) <|
  if wrap64 (size + c.size_) ≤ c.opt_.cache_size then
    Except.ok { admitted := true, cache := { c with size_ := wrap64 (c.size_ + size) },
                evicted := [] }
  else
    check ndebug 217 (decide (c.opt_.cache_size ≤ wrap64 (size + c.size_))) <|
    BlockCacheImpl.reserveLoop ndebug size (c.metadata_.cache_file_index_.length + 1) c []

/-! ## The flusher -/

/-- One step of the flusher thread on the file that the file index holds for
`cache_id`; the buffer written goes back to the allocator. Nothing changes when the
file index holds no such file or the file has nothing to write. -/
def BlockCacheImpl.Flush (c : BlockCacheImpl) (cache_id now : Nat) : BlockCacheImpl :=
  match c.findFile cache_id with
  | none => c
  | some f =>
    match f.Flush now with
    | none => c
    | some _ =>
      { c.modifyFile cache_id (fun g => (g.Flush now).getD g) with
        bufferAllocator_ := c.bufferAllocator_.Release }


/-! ## Quantities used in the statements -/

/-- Total size on disk of a list of files. -/
def fileBytes (fs : List WriteableCacheFile) : Nat :=
  (fs.map (fun f => f.disk_.length)).sum

/-- Total of the byte counts that `Delete` reports for the files of a list; a file
whose `Delete` fails counts for nothing. -/
def debited (env : Env) (fs : List WriteableCacheFile) : Nat :=
  (fs.map (fun f => (f.Delete env).getD 0)).sum

/-- Runs `metadata_.Evict()` once for every file of the list and checks that the
files come out in this order; the result is the metadata that remains. -/
def evictAll : BlockCacheMetadata → List WriteableCacheFile → Option BlockCacheMetadata
  | m, [] => some m
  | m, f :: fs =>
    match m.Evict with
    | none => none
    | some (g, m1) => if g = f then evictAll m1 fs else none

/-- Number of bytes in the resident buffers. -/
def bufBytes (bufs : List CacheWriteBuffer) : Nat :=
  (bufs.map (fun b => b.data_.length)).sum

/-- The state with another reserved byte count and another budget. -/
def BlockCacheImpl.withBudget (c : BlockCacheImpl) (reserved cache_size : Nat) : BlockCacheImpl :=
  { c with size_ := reserved, opt_ := { c.opt_ with cache_size := cache_size } }

/-! ## Well-formed states -/

/-- A writable file is consistent when `size_` counts the flushed bytes and the
bytes of the resident buffers, `max_size_` is a `uint32_t`, and the file has not
refused an append yet. Files made by the constructor are consistent and `Append`
keeps a file that it does not close so. -/
def WriteableCacheFile.consistent (f : WriteableCacheFile) : Prop :=
  f.size_ = f.disk_woff_ + bufBytes f.bufs_ ∧ f.max_size_ < 2 ^ 32 ∧ f.eof_ = false

instance (f : WriteableCacheFile) : Decidable f.consistent := by
  unfold WriteableCacheFile.consistent
  exact inferInstance

/-- The facade state is well formed when `cacheFile_` points to a consistent file
that the file index holds under a cache id of its own. `Open` makes such a state. -/
def BlockCacheImpl.wellFormed (c : BlockCacheImpl) : Prop :=
  match c.cacheFile_ with
  | none => False
  | some f => f.consistent ∧ c.cacheFile_indexed_ = true ∧
      ∀ g ∈ c.metadata_.cache_file_index_, g.cache_id_ ≠ f.cache_id_

instance (c : BlockCacheImpl) : Decidable c.wellFormed := by
  unfold BlockCacheImpl.wellFormed
  split <;> exact inferInstance

/-- The backing file of a cache file holds the bytes that were flushed and no other:
the `disk_woff_` bytes before the resident buffers, which together make up the
`size_` bytes accepted, within `max_size_`, a `uint32_t`. Files made by the
constructor are so and `Append` and the flusher keep them so. -/
def WriteableCacheFile.synced (f : WriteableCacheFile) : Prop :=
  f.disk_.length = f.disk_woff_ ∧ f.size_ = f.disk_woff_ + bufBytes f.bufs_ ∧
  f.size_ ≤ f.max_size_ ∧ f.max_size_ < 2 ^ 32

instance (f : WriteableCacheFile) : Decidable f.synced := by
  unfold WriteableCacheFile.synced
  exact inferInstance

/-- Every file of the file index, and the file that `cacheFile_` points to, is
`synced`. -/
def BlockCacheImpl.filesSynced (c : BlockCacheImpl) : Prop :=
  (∀ g ∈ c.metadata_.cache_file_index_, g.synced) ∧
  (match c.cacheFile_ with
   | none => True
   | some f => f.synced)

instance (c : BlockCacheImpl) : Decidable c.filesSynced := by
  unfold BlockCacheImpl.filesSynced
  have : Decidable (match c.cacheFile_ with
      | none => True
      | some f => f.synced) := by
    split <;> exact inferInstance
  exact inferInstance


/-- No cache id in use is issued again by the next `fuel` calls of `NewCacheFile`:
the ids in use are at most `writerCacheId_` and the counter does not wrap. -/
def BlockCacheImpl.idsFresh (c : BlockCacheImpl) (fuel : Nat) : Prop :=
  (∀ g ∈ c.metadata_.cache_file_index_, g.cache_id_ ≤ c.writerCacheId_) ∧
  (match c.cacheFile_ with
   | none => True
   | some f => f.cache_id_ ≤ c.writerCacheId_) ∧
  c.writerCacheId_ + fuel < 2 ^ 32

instance (c : BlockCacheImpl) (fuel : Nat) : Decidable (c.idsFresh fuel) := by
  unfold BlockCacheImpl.idsFresh
  have : Decidable (match c.cacheFile_ with
      | none => True
      | some f => f.cache_id_ ≤ c.writerCacheId_) := by
    split <;> exact inferInstance
  exact inferInstance

/-- Every block info on the per-file list of a file carries the cache id of that
file; `InsertImpl` adds to the list of the file that `Append` wrote to. -/
def BlockCacheImpl.infosOwned (c : BlockCacheImpl) : Prop :=
  (∀ g ∈ c.metadata_.cache_file_index_, ∀ i ∈ g.block_infos_, i.lba_.cache_id_ = g.cache_id_) ∧
  (match c.cacheFile_ with
   | none => True
   | some f => ∀ i ∈ f.block_infos_, i.lba_.cache_id_ = f.cache_id_)

instance (c : BlockCacheImpl) : Decidable c.infosOwned := by
  unfold BlockCacheImpl.infosOwned
  have : Decidable (match c.cacheFile_ with
      | none => True
      | some f => ∀ i ∈ f.block_infos_, i.lba_.cache_id_ = f.cache_id_) := by
    split <;> exact inferInstance
  exact inferInstance

/-- The key index holds `key` at `lba`, the file index holds a file for the cache
id of `lba`, and `key` with `val` reads back from that file at `lba`. -/
def BlockCacheImpl.stores (c : BlockCacheImpl) (key val : Slice) (lba : LBA) : Prop :=
  c.metadata_.block_index_.find? (fun i => decide (i.key_ = key))
    = some { key_ := key, lba_ := lba } ∧
  ∃ f, c.findFile lba.cache_id_ = some f ∧ f.Read c.opt_.env lba = some (key, val)

/-- The file that `cacheFile_` points to has not refused an append. -/
def BlockCacheImpl.fileOpen (c : BlockCacheImpl) : Prop :=
  match c.cacheFile_ with
  | none => True
  | some f => f.eof_ = false

/-- The cache ids of the files that the file index holds, in the order in which
`NewCacheFile` inserted the files: those of `cache_file_index_`, then the one of the
file that `cacheFile_` points to. -/
def BlockCacheImpl.fileIds (c : BlockCacheImpl) : List Nat :=
  c.metadata_.cache_file_index_.map WriteableCacheFile.cache_id_ ++
    (match c.cacheFile_ with
     | some f => if c.cacheFile_indexed_ then [f.cache_id_] else []
     | none => [])

/-- The cache ids of the file index increase strictly in the order of creation, none
is above `writerCacheId_`, and the file that `cacheFile_` points to, the last one
created, is in the file index under the cache id `writerCacheId_`. -/
def BlockCacheImpl.idsOrdered (c : BlockCacheImpl) : Prop :=
  c.fileIds.Pairwise (· < ·) ∧ (∀ i ∈ c.fileIds, i ≤ c.writerCacheId_) ∧
  (match c.cacheFile_ with
   | some f => f.cache_id_ = c.writerCacheId_ ∧ c.cacheFile_indexed_ = true
   | none => True)

instance (c : BlockCacheImpl) : Decidable c.idsOrdered := by
  unfold BlockCacheImpl.idsOrdered
  have : Decidable (match c.cacheFile_ with
      | some f => f.cache_id_ = c.writerCacheId_ ∧ c.cacheFile_indexed_ = true
      | none => True) := by
    split <;> exact inferInstance
  exact inferInstance

/-! ## Sequences of calls -/

/-- A call of the facade. -/
inductive Call where
  | insert (key data : Slice) (size fuel : Nat)
  | lookup (key : Slice)
  | erase (key : Slice)
  | reserve (size : Nat)
  deriving DecidableEq

/-- Runs one call of the facade; next to the new state come the files that the
call evicted. -/
def BlockCacheImpl.call (ndebug : Bool) (c : BlockCacheImpl) :
    Call → Except Abort (BlockCacheImpl × List WriteableCacheFile)
  | Call.insert key data size fuel =>
    match c.Insert ndebug fuel key data size with
    | Except.error e => Except.error e
    | Except.ok r => Except.ok (r.2, [])
  | Call.lookup key =>
    match c.Lookup ndebug key with
    | Except.error e => Except.error e
    | Except.ok r => Except.ok (r.2.2, [])
  | Call.erase key =>
    match c.Erase ndebug key with
    | Except.error e => Except.error e
    | Except.ok r => Except.ok (r.2, [])
  | Call.reserve size =>
    match c.Reserve ndebug size with
    | Except.error e => Except.error e
    | Except.ok r => Except.ok (r.cache, r.evicted)

/-- Runs a sequence of calls; next to the last state come the files evicted on
the way. -/
def BlockCacheImpl.run (ndebug : Bool) :
    List Call → BlockCacheImpl → Except Abort (BlockCacheImpl × List WriteableCacheFile)
  | [], c => Except.ok (c, [])
  | op :: ops, c =>
    match c.call ndebug op with
    | Except.error e => Except.error e
    | Except.ok r =>
      match BlockCacheImpl.run ndebug ops r.1 with
      | Except.error e => Except.error e
      | Except.ok r2 => Except.ok (r2.1, r.2 ++ r2.2)

/-- A step of the cache: a call of the facade or a step of the flusher thread on
the file of a cache id at a time. -/
inductive Step where
  | call (op : Call)
  | flush (cache_id now : Nat)
  deriving DecidableEq

/-- Runs one step; next to the new state come the files that the step evicted. -/
def BlockCacheImpl.step (ndebug : Bool) (c : BlockCacheImpl) :
    Step → Except Abort (BlockCacheImpl × List WriteableCacheFile)
  | Step.call op => c.call ndebug op
  | Step.flush cache_id now => Except.ok (c.Flush cache_id now, [])

/-- Runs a sequence of steps; next to the last state come the files evicted on the
way. -/
def BlockCacheImpl.steps (ndebug : Bool) :
    List Step → BlockCacheImpl → Except Abort (BlockCacheImpl × List WriteableCacheFile)
  | [], c => Except.ok (c, [])
  | s :: rest, c =>
    match c.step ndebug s with
    | Except.error e => Except.error e
    | Except.ok r =>
      match BlockCacheImpl.steps ndebug rest r.1 with
      | Except.error e => Except.error e
      | Except.ok r2 => Except.ok (r2.1, r.2 ++ r2.2)


/-- The number of turns that a call lets the loop of `InsertImpl` take; every turn
but the last creates a cache file. -/
def Call.turns : Call → Nat
  | Call.insert _ _ _ fuel => fuel
  | _ => 0

/-! ## Sample states -/

/-- A filesystem on which nothing fails. -/
def demoEnv : Env := { create_fails_ := [], read_fails_ := [], delete_fails_ := [] }

/-- A finalized cache file with `bytes` bytes on disk. -/
def demoFile (cache_id bytes finalized : Nat) : WriteableCacheFile :=
  { WriteableCacheFile.new cache_id 64 with
    size_ := bytes, eof_ := true, disk_woff_ := bytes, disk_ := List.replicate bytes 0,
    finalized_ := some finalized }

/-- A cache of 100 bytes that holds two finalized files and has 95 bytes reserved. -/
def demoCache : BlockCacheImpl :=
  { opt_ := { env := demoEnv, cache_size := 100, cache_file_size := 64,
              pipeline_writes_ := false },
    metadata_ := { block_index_ := [],
                   cache_file_index_ := [demoFile 1 30 1, demoFile 2 40 2] },
    cacheFile_ := some (WriteableCacheFile.new 3 64), cacheFile_indexed_ := true,
    writerCacheId_ := 3, size_ := 95,
    bufferAllocator_ := { buffer_size_ := 32, free_ := 4 },
    insert_ops_ := [],
    stats_ := { bytes_pipelined_ := [], bytes_written_ := [], bytes_read_ := [],
                cache_hits_ := 0, cache_misses_ := 0 } }

/-- The cache `demoCache` on a filesystem that cannot delete the file of cache id 1. -/
def stuckCache : BlockCacheImpl :=
  { demoCache with opt_ := { demoCache.opt_ with
      env := { demoEnv with delete_fails_ := [1] } } }

/-- The cache `demoCache` without any file to evict. -/
def bareCache : BlockCacheImpl :=
  { demoCache with metadata_ := { block_index_ := [], cache_file_index_ := [] } }

/-- A cache whose key index holds an entry for the key `[1]` at an address of the
file of cache id 1 at which no record is stored: thirteen zero bytes do not parse. -/
def damagedCache : BlockCacheImpl :=
  { demoCache with metadata_ := { demoCache.metadata_ with
      block_index_ := [{ key_ := [1], lba_ := { cache_id_ := 1, off_ := 0, size_ := 13 } }] } }

/-- The key `a`. -/
def keyA : Slice := [97]

/-- The value `alpha`. -/
def valAlpha : Slice := [97, 108, 112, 104, 97]

/-- The state of `demoCache` after `Insert("a", "alpha", 5)`. -/
def alphaCache : BlockCacheImpl :=
  match demoCache.Insert false 2 keyA valAlpha 5 with
  | Except.ok r => r.2
  | Except.error _ => demoCache

/-- Calls that follow the insert: a reservation that evicts the file of cache id 1,
an insert of another key, a lookup, and the erase of the other key. -/
def laterCalls : List Call :=
  [Call.reserve 20, Call.insert [98] [1, 2, 3] 3 2, Call.lookup keyA, Call.erase [98]]

/-- A cache whose counter of cache ids has reached the largest `uint32_t`; the files
created before the current one have been evicted. -/
def wrapCache : BlockCacheImpl :=
  { demoCache with
    metadata_ := { block_index_ := [], cache_file_index_ := [] },
    cacheFile_ := some (WriteableCacheFile.new 4294967295 64),
    writerCacheId_ := 4294967295 }

/-- A value of seventeen bytes; with a key of one byte its record has 30 bytes. -/
def valSeventeen : Slice := List.replicate 17 7

/-- The state of `demoCache`, with two write buffers left in the pool, after the
inserts of the keys `[1]` and `[2]` with the value `valSeventeen`: the current file
of 64 bytes holds 60 bytes and the pool has no buffer left. -/
def pressedCache : BlockCacheImpl :=
  match BlockCacheImpl.run false
      [Call.insert [1] valSeventeen 17 2, Call.insert [2] valSeventeen 17 2]
      { demoCache with bufferAllocator_ := { buffer_size_ := 32, free_ := 2 } } with
  | Except.ok r => r.1
  | Except.error _ => demoCache

/-- The file that `cacheFile_` of `pressedCache` points to. -/
def pressedFile : WriteableCacheFile :=
  pressedCache.cacheFile_.getD (WriteableCacheFile.new 0 0)

/-- The state of `pressedCache` after `InsertImpl` of the key `[3]` with the value
`valSeventeen`. -/
def retryCache : BlockCacheImpl :=
  match pressedCache.InsertImpl false 2 [3] valSeventeen 17 with
  | Except.ok r => r.2
  | Except.error _ => pressedCache

/-- The calls of `laterCalls`, two inserts that fill the file of cache id 3 and make
the facade rotate to a new file, and three steps of the flusher that write the three
buffers of the file of cache id 3 to disk. -/
def laterSteps : List Step :=
  laterCalls.map Step.call ++
    [Step.call (Call.insert [99] valSeventeen 17 2),
     Step.call (Call.insert [100] valSeventeen 17 2),
     Step.flush 3 5, Step.flush 3 6, Step.flush 3 7]

/-- The state of `alphaCache` after `laterSteps`. -/
def laterCache : BlockCacheImpl :=
  match alphaCache.steps false laterSteps with
  | Except.ok r => r.1
  | Except.error _ => alphaCache

/-- A cache whose counter of cache ids has reached the largest `uint32_t` while the
file index still holds a file of cache id 0. -/
def crowdedStart : BlockCacheImpl :=
  { wrapCache with
    metadata_ := { block_index_ := [], cache_file_index_ := [WriteableCacheFile.new 0 64] } }

/-- The state of `crowdedStart` after the inserts of the keys `[1]` and `[2]` with the
value `valSeventeen`: the current file of 64 bytes holds 60 bytes. -/
def crowdedCache : BlockCacheImpl :=
  match BlockCacheImpl.run false
      [Call.insert [1] valSeventeen 17 2, Call.insert [2] valSeventeen 17 2] crowdedStart with
  | Except.ok r => r.1
  | Except.error _ => crowdedStart

/-- The state of `crowdedCache` after `Insert` of the key `[3]` with the value
`valSeventeen`, assertions compiled out. -/
def collidedCache : BlockCacheImpl :=
  match crowdedCache.Insert true 2 [3] valSeventeen 17 with
  | Except.ok r => r.2
  | Except.error _ => crowdedCache

/-- The cache `demoCache` on a filesystem that cannot read the file of cache id 3. -/
def blindCache : BlockCacheImpl :=
  { demoCache with opt_ := { demoCache.opt_ with
      env := { demoEnv with read_fails_ := [3] } } }

/-- The state of `blindCache` after `Insert("a", "alpha", 5)` and `laterSteps`. -/
def blindLater : BlockCacheImpl :=
  match blindCache.Insert false 2 keyA valAlpha 5 with
  | Except.error _ => blindCache
  | Except.ok r =>
    match r.2.steps false laterSteps with
    | Except.ok q => q.1
    | Except.error _ => blindCache


/-- The cache `demoCache` with 10 bytes reserved, fewer than its two finalized files
hold. -/
def slackCache : BlockCacheImpl := { demoCache with size_ := 10 }


/-- A finalized cache file of cache id `i + 1` with 4294967295 bytes on disk, the
largest size of a cache file, finalized at time `i + 1`. -/
def bulkFile (i : Nat) : WriteableCacheFile :=
  { WriteableCacheFile.new (i + 1) 4294967295 with
    size_ := 4294967295, eof_ := true, disk_woff_ := 4294967295,
    disk_ := List.replicate 4294967295 0, finalized_ := some (i + 1) }

/-- A cache of 2251799813685251 bytes, all of them reserved, that holds 52429
finalized files of 4294967295 bytes. -/
def bulkCache : BlockCacheImpl :=
  { opt_ := { env := demoEnv, cache_size := 2251799813685251, cache_file_size := 4294967295,
              pipeline_writes_ := false },
    metadata_ := { block_index_ := [],
                   cache_file_index_ := (List.range' 0 52429).map bulkFile },
    cacheFile_ := some (WriteableCacheFile.new 52430 4294967295), cacheFile_indexed_ := true,
    writerCacheId_ := 52430, size_ := 2251799813685251,
    bufferAllocator_ := { buffer_size_ := 32, free_ := 4 },
    insert_ops_ := [],
    stats_ := { bytes_pipelined_ := [], bytes_written_ := [], bytes_read_ := [],
                cache_hits_ := 0, cache_misses_ := 0 } }


end BlockCache

namespace leveldb



/-! ## The arithmetic of `double` -/

/-- How the arithmetic of `double` is read: `exact` is the arithmetic of the rational
numbers, `binary64` rounds the result of every operation and conversion to IEEE-754
binary64 (round to nearest, ties to even). -/
inductive Arith where
  | exact
  | binary64
  deriving DecidableEq

/-- The integer nearest to `x`, the even one of the two when `x` is half way. -/
def roundHalfEven (x : ℚ) : ℤ :=
  let f := ⌊x⌋
  let r := x - f
  if r < 1 / 2 then f
  else if 1 / 2 < r then f + 1
  else if f % 2 = 0 then f
  else f + 1

/-- The binary64 number nearest to `x`: `x` is scaled by a power of two to a
significand of 53 bits, which is rounded to an integer. The exponent is not bounded,
so overflow to infinity and subnormal numbers are outside the model. -/
def roundBinary64 (x : ℚ) : ℚ :=
  if x = 0 then 0
  else
    let e : ℤ := Int.log 2 |x| - 52
    (roundHalfEven (x / (2 : ℚ) ^ e) : ℚ) * (2 : ℚ) ^ e

/-- The rounding applied to the exact result of an operation on `double`. -/
def Arith.fl : Arith → ℚ → ℚ
  | Arith.exact, x => x
  | Arith.binary64, x => roundBinary64 x

/-- Conversion of a `uint64_t` to `double`. -/
def toDouble (a : Arith) (n : Nat) : ℚ := a.fl (n : ℚ)

/-! ## `HistogramBucketMapper` -/

/-- The bucket limits of the constructor of `HistogramBucketMapper`. -/
def bucketValues_ : List Nat :=
  [1, 2, 3, 4, 5, 6, 7, 8, 9, 10, 12, 14, 16, 18, 20, 25, 30, 35, 40, 45,
   50, 60, 70, 80, 90, 100, 120, 140, 160, 180, 200, 250, 300, 350, 400, 450,
   500, 600, 700, 800, 900, 1000, 1200, 1400, 1600, 1800, 2000, 2500, 3000,
   3500, 4000, 4500, 5000, 6000, 7000, 8000, 9000, 10000, 12000, 14000,
   16000, 18000, 20000, 25000, 30000, 35000, 40000, 45000, 50000, 60000,
   70000, 80000, 90000, 100000, 120000, 140000, 160000, 180000, 200000,
   250000, 300000, 350000, 400000, 450000, 500000, 600000, 700000, 800000,
   900000, 1000000, 1200000, 1400000, 1600000, 1800000, 2000000, 2500000,
   3000000, 3500000, 4000000, 4500000, 5000000, 6000000, 7000000, 8000000,
   9000000, 10000000, 12000000, 14000000, 16000000, 18000000, 20000000,
   25000000, 30000000, 35000000, 40000000, 45000000, 50000000, 60000000,
   70000000, 80000000, 90000000, 100000000, 120000000, 140000000, 160000000,
   180000000, 200000000, 250000000, 300000000, 350000000, 400000000,
   450000000, 500000000, 600000000, 700000000, 800000000, 900000000,
   1000000000]

/-- The member `maxBucketValue_`, `bucketValues_.back()`. -/
def maxBucketValue_ : Nat := bucketValues_.getLastD 0

/-- The member `minBucketValue_`, `bucketValues_.front()`. -/
def minBucketValue_ : Nat := bucketValues_.headD 0

/-- The assignment `m[k] = v` of a `std::map`, kept as a list ordered by key with
one entry for a key. -/
def mapSet (k v : Nat) : List (Nat × Nat) → List (Nat × Nat)
  | [] => [(k, v)]
  | e :: rest =>
    if k < e.1 then (k, v) :: e :: rest
    else if k = e.1 then (k, v) :: rest
    else e :: mapSet k v rest

/-- The loop of the constructor, `valueIndexMap_[bucketValues_[i]] = i` from index
`i` on. -/
def fillMap : List Nat → Nat → List (Nat × Nat) → List (Nat × Nat)
  | [], _, m => m
  | x :: rest, i, m => fillMap rest (i + 1) (mapSet x i m)

/-- The member `valueIndexMap_` after the constructor. -/
def valueIndexMap_ : List (Nat × Nat) := fillMap bucketValues_ 0 []

/-- The call `m.lower_bound(value)` of a `std::map`: the first entry whose key is
not less than `value`, `none` for `end()`. -/
def lower_bound (m : List (Nat × Nat)) (value : Nat) : Option (Nat × Nat) :=
  m.find? (fun e => decide (value ≤ e.1))

/-- `HistogramBucketMapper::IndexForValue`. -/
def IndexForValue (value : Nat) : Nat :=
  if value ≥ maxBucketValue_ then bucketValues_.length - 1
  else if value ≥ minBucketValue_ then
    match lower_bound valueIndexMap_ value with
    | some lowerBound => lowerBound.2
    | none => 0
  else 0

/-- Modelled from the spec: `util/histogram.h` is not among the sources and the
specification leaves the histogram out; `BucketCount()` is read as it is used in
`histogram.cc`, the number of bucket limits. -/
def BucketCount : Nat := bucketValues_.length

/-- Modelled from the spec: the header accessor `LastValue()`, read as it is used
in `histogram.cc`: the largest bucket limit. -/
def LastValue : Nat := maxBucketValue_

/-- Modelled from the spec: the header accessor `BucketLimit(b)`, read as it is
used in `histogram.cc`: the limit of bucket `b`. -/
def BucketLimit (b : Nat) : Nat := bucketValues_.getD b 0

/-! ## `Histogram` -/

/-- The data members of `Histogram`: five of type `double` and the bucket counts,
a `std::vector<uint64_t>`. -/
structure Histogram where
  min_ : ℚ
  max_ : ℚ
  num_ : ℚ
  sum_ : ℚ
  sum_squares_ : ℚ
  buckets_ : List Nat
  deriving DecidableEq

/-- The constructor `Histogram::Histogram`. -/
def Histogram.new (a : Arith) : Histogram :=
  { min_ := toDouble a LastValue, max_ := 0, num_ := 0, sum_ := 0, sum_squares_ := 0,
    buckets_ := List.replicate BucketCount 0 }

/-- The call `v.resize(n, x)` of a `std::vector`: the first `n` elements are kept
and `x` fills what is missing up to `n`. -/
def resize (v : List Nat) (n x : Nat) : List Nat :=
  v.take n ++ List.replicate (n - v.length) x

/-- `Histogram::Clear`. -/
def Histogram.Clear (a : Arith) (h : Histogram) : Histogram :=
  { min_ := toDouble a LastValue, max_ := 0, num_ := 0, sum_ := 0, sum_squares_ := 0,
    buckets_ := resize h.buckets_ BucketCount 0 }

/-- `Histogram::Add(uint64_t)`. The count of the bucket and the product
`value * value` are `uint64_t`; the comparisons and sums are on `double`. -/
def Histogram.Add (a : Arith) (h : Histogram) (value : Nat) : Histogram :=
  let index := IndexForValue value
  let v := toDouble a value
  { buckets_ := h.buckets_.set index (BlockCache.wrap64 (h.buckets_.getD index 0 + 1)),
    min_ := if h.min_ > v then v else h.min_,
    max_ := if h.max_ < v then v else h.max_,
    num_ := a.fl (h.num_ + 1),
    sum_ := a.fl (h.sum_ + v),
    sum_squares_ := a.fl (h.sum_squares_ + toDouble a (BlockCache.wrap64 (value * value))) }

/-- The histogram after the values of a list have been added in order. -/
def Histogram.addAll (a : Arith) (h : Histogram) (values : List Nat) : Histogram :=
  values.foldl (Histogram.Add a) h

/-- The `for` loop of `Histogram::Percentile` from bucket `b` on, `n` buckets to
go, with the running `sum`; `h.max_` is the `return max_` after the loop. -/
def Histogram.percentileLoop (a : Arith) (h : Histogram) (threshold : ℚ) : Nat → Nat → ℚ → ℚ
  | 0, _, _ => h.max_
  | n + 1, b, sum =>
    let sum1 := a.fl (sum + toDouble a (h.buckets_.getD b 0))
    if sum1 ≥ threshold then
      let left_point := if b = 0 then 0 else toDouble a (BucketLimit (b - 1))
      let right_point := toDouble a (BucketLimit b)
      let left_sum := a.fl (sum1 - toDouble a (h.buckets_.getD b 0))
      let right_sum := sum1
      let right_left_diff := a.fl (right_sum - left_sum)
      let pos :=
        if right_left_diff ≠ 0 then
          a.fl (a.fl (threshold - left_sum) / a.fl (right_sum - left_sum))
        else 0
      let r := a.fl (left_point + a.fl (a.fl (right_point - left_point) * pos))
      let r1 := if r < h.min_ then h.min_ else r
      if r1 > h.max_ then h.max_ else r1
    else Histogram.percentileLoop a h threshold n (b + 1) sum1

/-- `Histogram::Percentile`. -/
def Histogram.Percentile (a : Arith) (h : Histogram) (p : ℚ) : ℚ :=
  let threshold := a.fl (h.num_ * a.fl (p / 100))
  h.percentileLoop a threshold BucketCount 0 0

/-- `Histogram::Median`. -/
def Histogram.Median (a : Arith) (h : Histogram) : ℚ :=
  h.Percentile a 50

/-- `Histogram::Average`. -/
def Histogram.Average (a : Arith) (h : Histogram) : ℚ :=
  if h.num_ = 0 then 0 else a.fl (h.sum_ / h.num_)

/-! ## Quantities used in the statements on the histogram -/

/-- The count of bucket `b`. -/
def Histogram.count (h : Histogram) (b : Nat) : Nat := h.buckets_.getD b 0

/-- The number of values counted in the buckets before bucket `b`. -/
def Histogram.before (h : Histogram) (b : Nat) : Nat := (h.buckets_.take b).sum

/-- The last two statements of the loop body of `Percentile`, which bring `r`
between `min_` and `max_`. -/
def Histogram.clamp (h : Histogram) (r : ℚ) : ℚ :=
  let r1 := if r < h.min_ then h.min_ else r
  if r1 > h.max_ then h.max_ else r1

/-- The value that `Percentile` interpolates in bucket `b` when the sums of the
bucket counts are exact. -/
def Histogram.interpolate (a : Arith) (h : Histogram) (threshold : ℚ) (b : Nat) : ℚ :=
  let left_point : ℚ := if b = 0 then 0 else (BucketLimit (b - 1) : ℚ)
  let right_point : ℚ := (BucketLimit b : ℚ)
  let pos : ℚ :=
    if h.count b ≠ 0 then a.fl (a.fl (threshold - (h.before b : ℚ)) / (h.count b : ℚ)) else 0
  a.fl (left_point + a.fl ((right_point - left_point) * pos))

/-- What `min_` and `max_` record of the values `seen` so far: `max_` is 0 or one of
the values and is at least every value; `min_` is the last bucket limit or one of
the values and is at most every value. -/
def Histogram.tracks (a : Arith) (h : Histogram) (seen : List Nat) : Prop :=
  (h.max_ = 0 ∨ ∃ v ∈ seen, h.max_ = toDouble a v) ∧
  (∀ v ∈ seen, toDouble a v ≤ h.max_) ∧
  (h.min_ = 1000000000 ∨ ∃ v ∈ seen, h.min_ = toDouble a v) ∧
  (∀ v ∈ seen, h.min_ ≤ toDouble a v) ∧
  h.min_ ≤ 1000000000

instance (a : Arith) (h : Histogram) (seen : List Nat) : Decidable (h.tracks a seen) := by
  unfold Histogram.tracks
  exact inferInstance

/-! ## The hexadecimal conversions of `LDBCommand` -/

/-- A `std::string`: a sequence of bytes. -/
abbrev CString := List BlockCache.Byte

/-- The byte of an ASCII character. -/
def ascii (c : Char) : BlockCache.Byte := BlockCache.byteOf c.toNat

/-- The upper-case hexadecimal digit of a value below 16, as `%X` prints it. -/
def upperHexDigit (v : Nat) : BlockCache.Byte :=
  if v < 10 then BlockCache.byteOf ('0'.toNat + v) else BlockCache.byteOf ('A'.toNat + (v - 10))

/-- The value of a hexadecimal digit, of either case; `none` for any other byte. -/
def hexDigitValue (b : BlockCache.Byte) : Option Nat :=
  if '0'.toNat ≤ b.val ∧ b.val ≤ '9'.toNat then some (b.val - '0'.toNat)
  else if 'A'.toNat ≤ b.val ∧ b.val ≤ 'F'.toNat then some (b.val - 'A'.toNat + 10)
  else if 'a'.toNat ≤ b.val ∧ b.val ≤ 'f'.toNat then some (b.val - 'a'.toNat + 10)
  else none

/-- The call `snprintf(buf, 10, "%02X", (unsigned char)c)` of the C library: the two
upper-case hexadecimal digits of the byte. -/
def snprintf_02X (c : BlockCache.Byte) : CString :=
  [upperHexDigit (c.val / 16), upperHexDigit (c.val % 16)]

/-- The call `sscanf(s, "%2X", &c)` of the C library on a string that starts with a
hexadecimal digit: at most two digits are read and `c` is their value. The result is
`none` for every other start of the string: the call stores nothing (no digit), or
it does what the model leaves out (white space, a sign, the prefix `0x`). -/
def sscanf_2X : CString → Option Nat
  | [] => none
  | d1 :: rest =>
    match hexDigitValue d1 with
    | none => none
    | some v1 =>
      match rest with
      | [] => some v1
      | d2 :: _ =>
        match hexDigitValue d2 with
        | some v2 => some (16 * v1 + v2)
        | none => if v1 = 0 ∧ (d2 = ascii 'x' ∨ d2 = ascii 'X') then none else some v1

/-- Why `HexToString` gave no string. -/
inductive HexError where
  /-- The `throw "Invalid hex input"` of line 108. -/
  | invalidHexInput
  /-- A byte was pushed that `sscanf` had not stored, or that the model of `sscanf`
  does not determine. -/
  | uninitialized
  /-- The fuel of the loop ran out. -/
  | diverged
  deriving DecidableEq

/-- The loop of `LDBCommand::HexToString`: while `i < str.length()` the two characters
at `i` are read and `i` advances by two. The index `i` is an `unsigned int`, so the
sum is reduced modulo `2 ^ 32`; `str.length()` is a `size_t`. -/
def LDBCommand.hexLoop (str : CString) : Nat → Nat → CString → Except HexError CString
  | 0, _, _ => Except.error HexError.diverged
  | fuel + 1, i, parsed =>
    if i < str.length then
      match sscanf_2X (str.drop i) with
      | none => Except.error HexError.uninitialized
      | some c =>
        LDBCommand.hexLoop str fuel (BlockCache.wrap32 (i + 2)) (parsed ++ [BlockCache.byteOf c])
    else Except.ok parsed

/-- `LDBCommand::HexToString`; `fuel` bounds the number of turns of its loop. -/
def LDBCommand.HexToString (fuel : Nat) (str : CString) : Except HexError CString :=
  if str.take 2 ≠ [ascii '0', ascii 'x'] then Except.error HexError.invalidHexInput
  else LDBCommand.hexLoop str fuel 2 []

/-- `LDBCommand::StringToHex`. -/
def LDBCommand.StringToHex (str : CString) : CString :=
  str.foldl (fun result c => result ++ snprintf_02X c) [ascii '0', ascii 'x']

/-- The upper-case hexadecimal digits. -/
def upperHexDigits : CString := "0123456789ABCDEF".toList.map ascii

end leveldb

namespace BlockCache

/-! ## Lemmas on the arithmetic -/

theorem shiftAux_spec (fuel : Nat) : ∀ n : Nat, n < 2 ^ (53 + fuel) →
    n / 2 ^ shiftAux fuel n < 2 ^ 53 ∧ (0 < shiftAux fuel n → 2 ^ 52 ≤ n / 2 ^ shiftAux fuel n) := by
  induction fuel with
  | zero =>
    intro n hn
    simp only [shiftAux, pow_zero, Nat.div_one, Nat.lt_irrefl, false_implies, and_true]
    simpa using hn
  | succ k ih =>
    intro n hn
    unfold shiftAux
    by_cases h : n < 2 ^ 53
    · rw [if_pos h]
      simpa using h
    · rw [if_neg h]
      have hn2 : n / 2 < 2 ^ (53 + k) := by
        have : 2 ^ (53 + (k + 1)) = 2 * 2 ^ (53 + k) := by
          rw [← Nat.add_assoc, Nat.pow_succ]; ring
        rw [this] at hn
        omega
      obtain ⟨h1, h2⟩ := ih (n / 2) hn2
      have e : n / 2 ^ (shiftAux k (n / 2) + 1) = n / 2 / 2 ^ shiftAux k (n / 2) := by
        rw [Nat.pow_succ, Nat.mul_comm, Nat.div_div_eq_div_mul]
      rw [e]
      refine ⟨h1, fun _ => ?_⟩
      by_cases h0 : 0 < shiftAux k (n / 2)
      · exact h2 h0
      · have : shiftAux k (n / 2) = 0 := by omega
        rw [this]
        simp only [pow_zero, Nat.div_one]
        have : (2:Nat) ^ 53 = 2 * 2 ^ 52 := by norm_num
        omega

theorem roundToDouble_bounds (n : Nat) (hn : n < 2 ^ 181) :
    roundToDouble n * 2 ^ 53 ≤ n * (2 ^ 53 + 1) ∧ n * 2 ^ 53 ≤ roundToDouble n * (2 ^ 53 + 1) := by
  obtain ⟨_, h2⟩ := shiftAux_spec 128 n (by simpa using hn)
  simp only [roundToDouble]
  generalize shiftAux 128 n = e at h2 ⊢
  rcases Nat.eq_zero_or_pos e with he | he
  · subst he
    simp only [pow_zero, Nat.mod_one, Nat.div_one, Nat.mul_one, Nat.mul_zero, Nat.lt_one_iff,
      if_true]
    constructor <;> omega
  · have hq := h2 he
    have hdm : 2 ^ e * (n / 2 ^ e) + n % 2 ^ e = n := Nat.div_add_mod n (2 ^ e)
    have hr : n % 2 ^ e < 2 ^ e := Nat.mod_lt _ (Nat.pow_pos (by decide))
    have hp : 2 ^ e * 2 ^ 52 ≤ 2 ^ e * (n / 2 ^ e) := Nat.mul_le_mul_left _ hq
    generalize 2 ^ e = a at *
    generalize n % a = r at *
    have hqa : n / a * a = a * (n / a) := Nat.mul_comm _ _
    have hqa1 : (n / a + 1) * a = a * (n / a) + a := by ring
    simp only [hqa, hqa1]
    generalize a * (n / a) = p at *
    norm_num at hp ⊢
    split_ifs <;> constructor <;> omega

theorem roundToDouble_exact (n : Nat) (hn : n < 2 ^ 53) : roundToDouble n = n := by
  have : shiftAux 128 n = 0 := by
    show (if n < 2 ^ 53 then 0 else shiftAux 127 (n / 2) + 1) = 0
    rw [if_pos hn]
  simp [roundToDouble, this, Nat.mod_one]

/-- When `x > cache_size * 0.9` is false for 64-bit values, `x` is at most
`cache_size`. -/
theorem le_of_not_exceeds90 (x c : Nat) (hx : x < 2 ^ 64) (hc : c < 2 ^ 64)
    (h : exceeds90 x c = false) : x ≤ c := by
  simp only [exceeds90, decide_eq_false_iff_not, not_lt] at h
  have hk := (roundToDouble_bounds c (by omega)).1
  have hM : roundToDouble c * dbl_0_9 < 2 ^ 181 := by
    norm_num [dbl_0_9] at hk ⊢
    omega
  have h3 := (roundToDouble_bounds _ hM).1
  have h1 := (roundToDouble_bounds x (by omega)).2
  generalize roundToDouble (roundToDouble c * dbl_0_9) = RM at *
  generalize roundToDouble c = k at *
  generalize roundToDouble x = rx at *
  norm_num [dbl_0_9] at *
  omega

/-- For a cache of at most `2 ^ 49` bytes the double comparison agrees with the
exact bound `x ≤ 0.9 * cache_size`. -/
theorem exact_of_not_exceeds90 (x c : Nat) (hx : x < 2 ^ 64) (hc : c ≤ 2 ^ 49)
    (h : exceeds90 x c = false) : 10 * x ≤ 9 * c := by
  have hxc := le_of_not_exceeds90 x c hx (by omega) h
  simp only [exceeds90, decide_eq_false_iff_not, not_lt] at h
  rw [roundToDouble_exact c (by omega), roundToDouble_exact x (by omega)] at h
  have h3 := (roundToDouble_bounds (c * dbl_0_9) (by norm_num [dbl_0_9]; omega)).1
  generalize roundToDouble (c * dbl_0_9) = RM at *
  norm_num [dbl_0_9] at *
  omega


/-! ## Lemmas on `Reserve` -/

theorem check_eq_ok {α : Type} (nd : Bool) (line : Nat) (b : Bool) (k : Except Abort α) (r : α) :
    check nd line b k = Except.ok r ↔ (nd = true ∨ b = true) ∧ k = Except.ok r := by
  unfold check
  cases nd <;> cases b <;> simp

/-- An assertion that holds, or is compiled out, lets the function go on. -/
theorem check_pass {α : Type} (nd : Bool) (line : Nat) (b : Bool) (k : Except Abort α)
    (h : nd = true ∨ b = true) : check nd line b k = k := by
  unfold check
  rcases h with h | h <;> simp [h]

theorem check_diverged {α : Type} (nd : Bool) (line : Nat) (b : Bool) (k : Except Abort α)
    (h : check nd line b k = Except.error Abort.diverged) : k = Except.error Abort.diverged := by
  unfold check at h
  cases nd <;> cases b <;> simp_all

theorem victim_mem : ∀ (l : List WriteableCacheFile) (f : WriteableCacheFile),
    victim l = some f → f ∈ l := by
  intro l
  induction l with
  | nil => intro f h; simp [victim] at h
  | cons a rest ih =>
    intro f h
    unfold victim at h
    cases hv : victim rest with
    | none =>
      rw [hv] at h
      simp only at h
      split at h
      · simp only [Option.some.injEq] at h; subst h; exact List.mem_cons_self _ _
      · simp at h
    | some g =>
      rw [hv] at h
      simp only at h
      split at h
      · simp only [Option.some.injEq] at h; subst h; exact List.mem_cons_self _ _
      · simp only [Option.some.injEq] at h; subst h
        exact List.mem_cons_of_mem _ (ih g hv)

theorem Evict_some (m m1 : BlockCacheMetadata) (f : WriteableCacheFile)
    (h : m.Evict = some (f, m1)) :
    f ∈ m.cache_file_index_ ∧ m1.cache_file_index_ = m.cache_file_index_.erase f ∧
      m1.block_index_ = m.block_index_.filter (fun i => !(f.block_infos_.contains i)) := by
  unfold BlockCacheMetadata.Evict at h
  cases hv : victim m.cache_file_index_ with
  | none => rw [hv] at h; simp at h
  | some g =>
    rw [hv] at h
    simp only [Option.some.injEq, Prod.mk.injEq] at h
    obtain ⟨h1, h2⟩ := h
    subst h1; subst h2
    exact ⟨victim_mem _ _ hv, rfl, rfl⟩

theorem fileBytes_erase (l : List WriteableCacheFile) (f : WriteableCacheFile) (h : f ∈ l) :
    fileBytes (l.erase f) + f.disk_.length = fileBytes l := by
  induction l with
  | nil => simp at h
  | cons a rest ih =>
    by_cases e : a = f
    · subst e
      simp [fileBytes, List.erase_cons_head]
      omega
    · have hm : f ∈ rest := by
        rcases List.mem_cons.1 h with h | h
        · exact absurd h.symm e
        · exact h
      have := ih hm
      rw [List.erase_cons_tail (by simpa using e)]
      simp only [fileBytes, List.map_cons, List.sum_cons] at this ⊢
      omega


theorem Delete_some (env : Env) (f : WriteableCacheFile) (n : Nat)
    (h : f.Delete env = some n) : n = f.disk_.length := by
  unfold WriteableCacheFile.Delete at h
  split at h
  · simp at h
  · simpa using h.symm

theorem wrap64_sub (a b : Nat) (ha : a < 2 ^ 64) (hb : b ≤ a) :
    wrap64 (a + 2 ^ 64 - wrap64 b) = a - b := by
  unfold wrap64
  norm_num at *
  omega

theorem reserveLoop_spec (nd : Bool) (size : Nat) : ∀ (fuel : Nat) (c : BlockCacheImpl)
    (ev : List WriteableCacheFile) (r : Reserved),
    c.size_ < 2 ^ 64 → (nd = false ∨ fileBytes c.metadata_.cache_file_index_ ≤ c.size_) →
    BlockCacheImpl.reserveLoop nd size fuel c ev = Except.ok r →
    ∃ fs, r.evicted = ev ++ fs ∧ evictAll c.metadata_ fs = some r.cache.metadata_ ∧
      r.cache = { c with metadata_ := r.cache.metadata_, size_ := r.cache.size_ } ∧
      debited c.opt_.env fs ≤ c.size_ ∧
      r.cache.size_ = (if r.admitted then wrap64 (c.size_ - debited c.opt_.env fs + size)
                        else c.size_ - debited c.opt_.env fs) ∧
      (r.admitted = true →
        (∀ f ∈ fs, f.Delete c.opt_.env = some f.disk_.length) ∧
        (∀ k, k < fs.length →
          exceeds90 (wrap64 (size + (c.size_ - fileBytes (fs.take k)))) c.opt_.cache_size = true) ∧
        exceeds90 (wrap64 (size + (c.size_ - fileBytes fs))) c.opt_.cache_size = false) ∧
      (∀ f ∈ fs.dropLast, f.Delete c.opt_.env = some f.disk_.length) := by
  intro fuel
  induction fuel with
  | zero => intro c ev r _ _ h; simp [BlockCacheImpl.reserveLoop] at h
  | succ n ih =>
    intro c ev r hs hfit hrun
    rw [BlockCacheImpl.reserveLoop] at hrun
    by_cases hx : exceeds90 (wrap64 (size + c.size_)) c.opt_.cache_size = true
    · rw [if_pos hx] at hrun
      cases hE : c.metadata_.Evict with
      | none =>
        rw [hE] at hrun
        simp only [Except.ok.injEq] at hrun
        subst hrun
        refine ⟨[], by simp, by simp [evictAll], rfl, by simp [debited], by simp [debited], ?_,
          by simp⟩
        intro h; simp at h
      | some p =>
        obtain ⟨f, m⟩ := p
        obtain ⟨hmem, hidx, _⟩ := Evict_some _ _ _ hE
        rw [hE] at hrun
        simp only at hrun
        rw [check_eq_ok] at hrun
        obtain ⟨_, hrun⟩ := hrun
        cases hD : f.Delete c.opt_.env with
        | none =>
          rw [hD] at hrun
          simp only [Except.ok.injEq] at hrun
          subst hrun
          refine ⟨[f], rfl, by simp [evictAll, hE], rfl, by simp [debited, hD],
            by simp [debited, hD], ?_, by simp⟩
          intro h; simp at h
        | some fsz =>
          rw [hD] at hrun
          simp only at hrun
          rw [check_eq_ok] at hrun
          obtain ⟨h234, hrun⟩ := hrun
          have hlen := Delete_some _ _ _ hD
          have hbytes := fileBytes_erase _ _ hmem
          have hle : fsz ≤ c.size_ := by
            rcases hfit with hnd | hfit
            · subst hnd
              simpa using h234
            · omega
          rw [wrap64_sub _ _ hs hle] at hrun
          obtain ⟨fs, h1, h2, h3, h4, h5, h6, h7⟩ := ih _ _ r (by simp; omega)
            (by
              rcases hfit with hnd | hfit
              · exact Or.inl hnd
              · right; simp only [hidx]; omega) hrun
          simp only at h2 h3 h4 h5 h6 h7
          refine ⟨f :: fs, by simp [h1], by simp [evictAll, hE, h2], ?_, ?_, ?_, ?_, ?_⟩
          · rw [h3]
          · simp only [debited, List.map_cons, List.sum_cons, hD, Option.getD_some] at h4 ⊢
            omega
          · rw [h5]
            simp only [debited, List.map_cons, List.sum_cons, hD, Option.getD_some] at h4 ⊢
            rw [Nat.sub_sub]
          · intro hadm
            obtain ⟨ha, hb, hc⟩ := h6 hadm
            refine ⟨?_, ?_, ?_⟩
            · intro g hg
              rcases List.mem_cons.1 hg with hg | hg
              · subst hg; rw [hD, hlen]
              · exact ha g hg
            · intro k hk
              cases k with
              | zero => simpa [fileBytes] using hx
              | succ k =>
                have := hb k (by simpa using hk)
                simp only [List.take_succ_cons, fileBytes, List.map_cons, List.sum_cons] at this ⊢
                rw [← hlen, ← Nat.sub_sub]
                exact this
            · simp only [fileBytes, List.map_cons, List.sum_cons] at hc ⊢
              rw [← hlen, ← Nat.sub_sub]
              exact hc
          · intro g hg
            cases fs with
            | nil => simp at hg
            | cons a rest =>
              rw [List.dropLast_cons₂] at hg
              rcases List.mem_cons.1 hg with hg | hg
              · subst hg; rw [hD, hlen]
              · exact h7 g hg
    · rw [if_neg hx] at hrun
      simp only at hrun
      rw [check_eq_ok] at hrun
      obtain ⟨_, hrun⟩ := hrun
      simp only [Except.ok.injEq] at hrun
      subst hrun
      refine ⟨[], by simp, by simp [evictAll], rfl, by simp [debited], by simp [debited], ?_,
        by simp⟩
      intro _
      refine ⟨by simp, by simp, ?_⟩
      simpa [fileBytes] using hx

theorem reserveLoop_total (nd : Bool) (size : Nat) : ∀ (fuel : Nat) (c : BlockCacheImpl)
    (ev : List WriteableCacheFile), c.metadata_.cache_file_index_.length < fuel →
    BlockCacheImpl.reserveLoop nd size fuel c ev ≠ Except.error Abort.diverged := by
  intro fuel
  induction fuel with
  | zero => intro c ev h; omega
  | succ n ih =>
    intro c ev hlen hrun
    rw [BlockCacheImpl.reserveLoop] at hrun
    split at hrun
    · cases hE : c.metadata_.Evict with
      | none => rw [hE] at hrun; simp at hrun
      | some p =>
        obtain ⟨f, m⟩ := p
        obtain ⟨hmem, hidx, _⟩ := Evict_some _ _ _ hE
        rw [hE] at hrun
        simp only at hrun
        have hrun := check_diverged _ _ _ _ hrun
        cases hD : f.Delete c.opt_.env with
        | none => rw [hD] at hrun; simp at hrun
        | some fsz =>
          rw [hD] at hrun
          simp only at hrun
          have hrun := check_diverged _ _ _ _ hrun
          refine ih _ _ ?_ hrun
          simp only [hidx]
          rw [List.length_erase_of_mem hmem]
          have : 0 < c.metadata_.cache_file_index_.length := List.length_pos_of_mem hmem
          omega
    · simp only at hrun
      have hrun := check_diverged _ _ _ _ hrun
      simp at hrun


theorem evictAll_perm : ∀ (fs : List WriteableCacheFile) (m m1 : BlockCacheMetadata),
    evictAll m fs = some m1 →
    List.Perm (fs ++ m1.cache_file_index_) m.cache_file_index_ := by
  intro fs
  induction fs with
  | nil => intro m m1 h; simp [evictAll] at h; subst h; simp
  | cons f rest ih =>
    intro m m1 h
    unfold evictAll at h
    cases hE : m.Evict with
    | none => rw [hE] at h; simp at h
    | some p =>
      obtain ⟨g, m2⟩ := p
      rw [hE] at h
      simp only at h
      split at h
      · rename_i hg
        subst hg
        obtain ⟨hmem, hidx, _⟩ := Evict_some _ _ _ hE
        have h1 := ih _ _ h
        rw [hidx] at h1
        exact ((List.Perm.cons g h1).trans (List.perm_cons_erase hmem).symm)
      · simp at h

theorem debited_eq_fileBytes (env : Env) (fs : List WriteableCacheFile)
    (h : ∀ f ∈ fs, f.Delete env = some f.disk_.length) : debited env fs = fileBytes fs := by
  induction fs with
  | nil => rfl
  | cons a rest ih =>
    have h1 := h a (List.mem_cons_self _ _)
    have h2 := ih (fun f hf => h f (List.mem_cons_of_mem _ hf))
    simp only [debited, fileBytes, List.map_cons, List.sum_cons, h1, Option.getD_some] at h2 ⊢
    rw [h2]

/-- The slow path of `Reserve` is its loop, run on the state at entry. -/
theorem Reserve_slow (nd : Bool) (c : BlockCacheImpl) (size : Nat) (r : Reserved)
    (hslow : c.opt_.cache_size < wrap64 (size + c.size_))
    (hret : c.Reserve nd size = Except.ok r) :
    BlockCacheImpl.reserveLoop nd size (c.metadata_.cache_file_index_.length + 1) c []
      = Except.ok r := by
  unfold BlockCacheImpl.Reserve at hret
  rw [check_eq_ok] at hret
  rw [if_neg (by omega)] at hret
  rw [check_eq_ok] at hret
  exact hret.2.2

/-- The fast path of `Reserve`. -/
theorem Reserve_fast (nd : Bool) (c : BlockCacheImpl) (size : Nat)
    (hinv : c.size_ ≤ c.opt_.cache_size)
    (hfast : wrap64 (size + c.size_) ≤ c.opt_.cache_size) :
    c.Reserve nd size = Except.ok
      { admitted := true, cache := { c with size_ := wrap64 (c.size_ + size) }, evicted := [] } := by
  unfold BlockCacheImpl.Reserve check
  simp [hinv, hfast]

/-! ## Lemmas on records and cache files -/

theorem DecodeFixed32_EncodeFixed32 (n : Nat) (rest : Slice) (hn : n < 2 ^ 32) :
    DecodeFixed32 (EncodeFixed32 n ++ rest) = n := by
  simp only [EncodeFixed32, DecodeFixed32, byteOf, List.cons_append, List.nil_append]
  norm_num at hn ⊢
  omega

theorem EncodeFixed32_length (n : Nat) : (EncodeFixed32 n).length = 4 := rfl

theorem encodeRecord_length (key val : Slice) :
    (encodeRecord key val).length = recordSize key val := by
  simp [encodeRecord, recordSize, EncodeFixed32_length]
  omega

/-- A record that was encoded parses back to its key and value. -/
theorem ParseRec_encodeRecord (cache_id off : Nat) (key val : Slice)
    (hk : key.length < 2 ^ 32) (hv : val.length < 2 ^ 32) :
    ParseRec { cache_id_ := cache_id, off_ := off, size_ := recordSize key val }
      (encodeRecord key val) = some (key, val) := by
  have hlen := encodeRecord_length key val
  have e1 : encodeRecord key val
      = EncodeFixed32 key.length ++ (EncodeFixed32 val.length ++ (key ++ (val ++
          EncodeFixed32 (crc32c (EncodeFixed32 key.length ++ EncodeFixed32 val.length
            ++ key ++ val))))) := by
    simp [encodeRecord, List.append_assoc]
  have d1 : DecodeFixed32 (encodeRecord key val) = key.length := by
    rw [e1]; exact DecodeFixed32_EncodeFixed32 _ _ hk
  have d2 : DecodeFixed32 ((encodeRecord key val).drop 4) = val.length := by
    rw [e1, List.drop_left' (EncodeFixed32_length _)]
    exact DecodeFixed32_EncodeFixed32 _ _ hv
  have bl : (EncodeFixed32 key.length ++ EncodeFixed32 val.length ++ key ++ val).length
      = 8 + key.length + val.length := by
    simp [EncodeFixed32_length]; omega
  unfold ParseRec
  simp only [d1, d2, hlen]
  rw [if_pos ⟨trivial, rfl⟩]
  have t1 : (encodeRecord key val).take (8 + key.length + val.length)
      = EncodeFixed32 key.length ++ EncodeFixed32 val.length ++ key ++ val := by
    unfold encodeRecord
    exact List.take_left' bl
  have t2 : ((encodeRecord key val).drop (8 + key.length + val.length)).take 4
      = EncodeFixed32 (crc32c (EncodeFixed32 key.length ++ EncodeFixed32 val.length
          ++ key ++ val)) := by
    unfold encodeRecord
    simp only []
    rw [List.drop_left' bl]
    exact List.take_of_length_le (by simp [EncodeFixed32_length])
  have t3 : ((encodeRecord key val).drop 8).take key.length = key := by
    rw [e1, ← List.append_assoc (EncodeFixed32 key.length),
      List.drop_left' (by simp [EncodeFixed32_length])]
    exact List.take_left' rfl
  have t4 : ((encodeRecord key val).drop (8 + key.length)).take val.length = val := by
    rw [e1, ← List.append_assoc (EncodeFixed32 key.length), ← List.append_assoc _ key,
      List.drop_left' (by simp [EncodeFixed32_length]; omega)]
    exact List.take_left' rfl
  rw [t1, t2, t3, t4]
  simp

/-- The record written last is found at the offset that the buffers held before. -/
theorem ReadBuffer_writeTail : ∀ (bufs : List CacheWriteBuffer) (bytes : Slice),
    bufs ≠ [] → bytes ≠ [] →
    ReadBuffer (writeTail bufs bytes) (bufs.map (fun b => b.data_.length)).sum bytes.length
      = some bytes := by
  intro bufs
  induction bufs with
  | nil => intro _ h; exact absurd rfl h
  | cons b rest ih =>
    intro bytes _ hb
    have hpos : 0 < bytes.length := List.length_pos.2 hb
    cases rest with
    | nil =>
      simp only [writeTail, ReadBuffer, List.map_cons, List.map_nil, List.sum_cons, List.sum_nil,
        Nat.add_zero, List.length_append]
      rw [if_pos (by omega), if_pos (by omega), List.drop_left, List.take_length]
    | cons b2 rest2 =>
      have := ih bytes (by simp) hb
      simp only [writeTail, ReadBuffer, List.map_cons, List.sum_cons] at this ⊢
      rw [if_neg (by omega)]
      rw [Nat.add_sub_cancel_left]
      exact this

theorem tailHasRoom_ne_nil : ∀ (bufs : List CacheWriteBuffer) (n : Nat),
    tailHasRoom bufs n = true → bufs ≠ [] := by
  intro bufs n h hb
  subst hb
  simp [tailHasRoom] at h

theorem writeTail_ne_nil : ∀ (bufs : List CacheWriteBuffer) (bytes : Slice),
    bufs ≠ [] → writeTail bufs bytes ≠ [] := by
  intro bufs bytes h
  cases bufs with
  | nil => exact absurd rfl h
  | cons b rest =>
    cases rest with
    | nil => simp [writeTail]
    | cons b2 rest2 => simp [writeTail]

theorem bufBytes_writeTail : ∀ (bufs : List CacheWriteBuffer) (bytes : Slice),
    bufs ≠ [] → bufBytes (writeTail bufs bytes) = bufBytes bufs + bytes.length := by
  intro bufs
  induction bufs with
  | nil => intro _ h; exact absurd rfl h
  | cons b rest ih =>
    intro bytes _
    cases rest with
    | nil => simp [writeTail, bufBytes]
    | cons b2 rest2 =>
      have := ih bytes (by simp)
      simp only [writeTail, bufBytes, List.map_cons, List.sum_cons] at this ⊢
      omega

theorem bufBytes_append_empty (bufs : List CacheWriteBuffer) (n : Nat) :
    bufBytes (bufs ++ [{ size_ := n, data_ := [] }]) = bufBytes bufs := by
  simp [bufBytes]

theorem ReadBuffer_append : ∀ (bufs : List CacheWriteBuffer) (b : CacheWriteBuffer)
    (off size : Nat) (s : Slice),
    ReadBuffer bufs off size = some s → ReadBuffer (bufs ++ [b]) off size = some s := by
  intro bufs
  induction bufs with
  | nil => intro b off size s h; simp [ReadBuffer] at h
  | cons a rest ih =>
    intro b off size s h
    simp only [ReadBuffer, List.cons_append] at h ⊢
    split
    · rename_i h1; rw [if_pos h1] at h; exact h
    · rename_i h1; rw [if_neg h1] at h; exact ih _ _ _ _ h

theorem ReadBuffer_writeTail_old : ∀ (bufs : List CacheWriteBuffer) (bytes : Slice)
    (off size : Nat) (s : Slice),
    ReadBuffer bufs off size = some s → ReadBuffer (writeTail bufs bytes) off size = some s := by
  intro bufs
  induction bufs with
  | nil => intro bytes off size s h; simp [ReadBuffer] at h
  | cons a rest ih =>
    intro bytes off size s h
    cases rest with
    | nil =>
      simp only [ReadBuffer, writeTail] at h ⊢
      by_cases h1 : off < a.data_.length
      · rw [if_pos h1] at h
        by_cases h2 : off + size ≤ a.data_.length
        · rw [if_pos h2] at h
          rw [if_pos (by simp; omega), if_pos (by simp; omega)]
          rw [← h]
          congr 1
          rw [List.drop_append_of_le_length (by omega),
            List.take_append_of_le_length (by simp; omega)]
        · rw [if_neg h2] at h; simp at h
      · rw [if_neg h1] at h; simp at h
    | cons a2 rest2 =>
      simp only [ReadBuffer, writeTail] at h ⊢
      split
      · rename_i h1; rw [if_pos h1] at h; exact h
      · rename_i h1; rw [if_neg h1] at h; exact ih _ _ _ _ h

/-- What a successful `Append` does to the file. -/
theorem Append_some (f f2 : WriteableCacheFile) (alloc alloc2 : CacheWriteBufferAllocator)
    (key val : Slice) (lba : LBA)
    (h : f.Append alloc key val = (some lba, f2, alloc2)) :
    ∃ bufs1, bufs1 ≠ [] ∧ bufBytes bufs1 = bufBytes f.bufs_ ∧
      (bufs1 = f.bufs_ ∨ ∃ b, bufs1 = f.bufs_ ++ [b]) ∧
      f.size_ + recordSize key val ≤ f.max_size_ ∧
      lba = { cache_id_ := f.cache_id_, off_ := f.size_, size_ := recordSize key val } ∧
      f2.bufs_ = writeTail bufs1 (encodeRecord key val) ∧
      f2.size_ = f.size_ + recordSize key val ∧
      f2.cache_id_ = f.cache_id_ ∧ f2.max_size_ = f.max_size_ ∧ f2.eof_ = f.eof_ ∧
      f2.disk_woff_ = f.disk_woff_ ∧ f2.disk_ = f.disk_ ∧ f2.block_infos_ = f.block_infos_ ∧
      f2.refs_ = f.refs_ ∧ f2.finalized_ = f.finalized_ := by
  unfold WriteableCacheFile.Append at h
  simp only at h
  split at h
  · simp at h
  · rename_i hsz
    unfold WriteableCacheFile.ExpandBuffer at h
    by_cases hroom : tailHasRoom f.bufs_ (recordSize key val) = true
    · rw [if_pos hroom] at h
      simp only at h
      refine ⟨f.bufs_, tailHasRoom_ne_nil _ _ hroom, rfl, Or.inl rfl, by omega, ?_⟩
      split at h <;>
        (simp only [Prod.mk.injEq, Option.some.injEq] at h
         obtain ⟨h1, h2, _⟩ := h
         subst h1; subst h2
         simp [WriteableCacheFile.DispatchBuffer])
    · rw [if_neg hroom] at h
      unfold CacheWriteBufferAllocator.Allocate at h
      by_cases hfree : alloc.free_ = 0
      · rw [if_pos hfree] at h
        simp at h
      · rw [if_neg hfree] at h
        simp only at h
        by_cases hfit : recordSize key val ≤ alloc.buffer_size_
        · simp only [hfit, decide_True] at h
          refine ⟨f.bufs_ ++ [{ size_ := alloc.buffer_size_, data_ := [] }], by simp,
            bufBytes_append_empty _ _, Or.inr ⟨_, rfl⟩, by omega, ?_⟩
          split at h <;>
            (simp only [Prod.mk.injEq, Option.some.injEq] at h
             obtain ⟨h1, h2, _⟩ := h
             subst h1; subst h2
             simp [WriteableCacheFile.DispatchBuffer])
        · simp only [hfit, decide_False] at h
          simp at h

/-- `Read` does not look at the reference count or at the per-file block infos. -/
theorem Read_congr (env : Env) (f g : WriteableCacheFile) (lba : LBA)
    (h1 : g.cache_id_ = f.cache_id_) (h2 : g.eof_ = f.eof_) (h3 : g.bufs_ = f.bufs_)
    (h4 : g.disk_ = f.disk_) (h5 : g.disk_woff_ = f.disk_woff_) :
    g.Read env lba = f.Read env lba := by
  simp only [WriteableCacheFile.Read, RandomAccessCacheFile.Read, WriteableCacheFile.ReadImpl,
    diskRead, h1, h2, h3, h4, h5]

/-- A record that can be read from an open file can still be read after the file
gained buffers or bytes at its tail, whether it was closed meanwhile or not. -/
theorem Read_mono (env : Env) (f g : WriteableCacheFile) (lba : LBA) (r : Slice × Slice)
    (h1 : g.cache_id_ = f.cache_id_) (h4 : g.disk_ = f.disk_)
    (h5 : g.disk_woff_ = f.disk_woff_)
    (hb : ∀ o n s, ReadBuffer f.bufs_ o n = some s → ReadBuffer g.bufs_ o n = some s)
    (hn : g.bufs_ = [] → f.bufs_ = [])
    (hopen : f.eof_ = false) (hr : f.Read env lba = some r) :
    g.Read env lba = some r := by
  simp only [WriteableCacheFile.Read, RandomAccessCacheFile.Read, WriteableCacheFile.ReadImpl,
    diskRead, hopen, Bool.false_and, Bool.false_eq_true, if_false] at hr
  simp only [WriteableCacheFile.Read, RandomAccessCacheFile.Read, WriteableCacheFile.ReadImpl,
    diskRead, h1, h4, h5]
  by_cases hc : (g.eof_ && g.bufs_.isEmpty) = true
  · rw [if_pos hc]
    have hg : g.bufs_ = [] := by
      simp only [Bool.and_eq_true, List.isEmpty_iff] at hc
      exact hc.2
    have hf := hn hg
    by_cases ho : lba.off_ < f.disk_woff_
    · rw [if_pos ho] at hr; exact hr
    · rw [if_neg ho, hf] at hr
      simp [ReadBuffer] at hr
  · rw [if_neg hc]
    by_cases ho : lba.off_ < f.disk_woff_
    · rw [if_pos ho] at hr ⊢; exact hr
    · rw [if_neg ho] at hr ⊢
      cases hrb : ReadBuffer f.bufs_ (lba.off_ - f.disk_woff_) lba.size_ with
      | none => rw [hrb] at hr; simp at hr
      | some s =>
        rw [hrb] at hr
        rw [hb _ _ _ hrb]
        exact hr

/-- What `Append` leaves alone, whatever its result. -/
theorem Append_frame (f : WriteableCacheFile) (alloc : CacheWriteBufferAllocator)
    (key val : Slice) :
    (f.Append alloc key val).2.1.cache_id_ = f.cache_id_ ∧
    (f.Append alloc key val).2.1.disk_ = f.disk_ ∧
    (f.Append alloc key val).2.1.disk_woff_ = f.disk_woff_ ∧
    (f.Append alloc key val).2.1.block_infos_ = f.block_infos_ ∧
    (f.Append alloc key val).2.1.max_size_ = f.max_size_ ∧
    (∀ o n s, ReadBuffer f.bufs_ o n = some s →
      ReadBuffer (f.Append alloc key val).2.1.bufs_ o n = some s) ∧
    ((f.Append alloc key val).2.1.bufs_ = [] → f.bufs_ = []) ∧
    ((f.Append alloc key val).1 = none → (f.Append alloc key val).2.1.eof_ = false →
      (f.Append alloc key val).2.1.size_ = f.size_ ∧
      bufBytes (f.Append alloc key val).2.1.bufs_ = bufBytes f.bufs_) := by
  unfold WriteableCacheFile.Append
  simp only
  split
  · simp
  · unfold WriteableCacheFile.ExpandBuffer
    by_cases hroom : tailHasRoom f.bufs_ (recordSize key val) = true
    · rw [if_pos hroom]
      have hne := tailHasRoom_ne_nil _ _ hroom
      simp only
      split <;>
        (simp only [WriteableCacheFile.DispatchBuffer, true_and]
         refine ⟨fun o n s h => ReadBuffer_writeTail_old _ _ _ _ _ h, ?_, ?_⟩
         · intro h; exact absurd h (writeTail_ne_nil _ _ hne)
         · intro h; simp at h)
    · rw [if_neg hroom]
      unfold CacheWriteBufferAllocator.Allocate
      by_cases hfree : alloc.free_ = 0
      · rw [if_pos hfree]
        simp
      · rw [if_neg hfree]
        simp only
        by_cases hfit : recordSize key val ≤ alloc.buffer_size_
        · simp only [hfit, decide_True]
          split <;>
            (simp only [WriteableCacheFile.DispatchBuffer, true_and]
             refine ⟨fun o n s h =>
               ReadBuffer_writeTail_old _ _ _ _ _ (ReadBuffer_append _ _ _ _ _ h), ?_, ?_⟩
             · intro h; exact absurd h (writeTail_ne_nil _ _ (by simp))
             · intro h; simp at h)
        · simp only [hfit, decide_False, true_and]
          refine ⟨fun o n s h => ReadBuffer_append _ _ _ _ _ h, by simp, ?_⟩
          intro _ _
          exact bufBytes_append_empty _ _

/-- After a successful `Append` to a consistent file the new record reads back. -/
theorem Append_some_Read (env : Env) (f f2 : WriteableCacheFile)
    (alloc alloc2 : CacheWriteBufferAllocator) (key val : Slice) (lba : LBA)
    (hf : f.consistent) (h : f.Append alloc key val = (some lba, f2, alloc2)) :
    f2.consistent ∧ lba.cache_id_ = f2.cache_id_ ∧ f2.Read env lba = some (key, val) := by
  obtain ⟨bufs1, hne, hsum, _, hfit, hlba, hb, hs, hid, hmax, heof, hwoff, _, _, _, _⟩ :=
    Append_some _ _ _ _ _ _ _ h
  obtain ⟨c1, c2, c3⟩ := hf
  refine ⟨⟨?_, by omega, by rw [heof, c3]⟩, by rw [hlba, hid], ?_⟩
  · rw [hs, hb, hwoff, bufBytes_writeTail _ _ hne, hsum, encodeRecord_length]
    omega
  · have hrec : encodeRecord key val ≠ [] := by
      intro h0
      have := encodeRecord_length key val
      rw [h0] at this
      simp [recordSize] at this
    have hk : key.length < 2 ^ 32 := by unfold recordSize at hfit; omega
    have hv : val.length < 2 ^ 32 := by unfold recordSize at hfit; omega
    have hrd := ReadBuffer_writeTail bufs1 (encodeRecord key val) hne hrec
    rw [encodeRecord_length] at hrd
    simp only [WriteableCacheFile.Read, WriteableCacheFile.ReadImpl, heof, c3, Bool.false_and,
      Bool.false_eq_true, if_false, hwoff, hlba, hb]
    rw [if_neg (by omega)]
    have e : f.size_ - f.disk_woff_ = (bufs1.map (fun b => b.data_.length)).sum := by
      unfold bufBytes at hsum c1
      omega
    rw [e, hrd]
    exact ParseRec_encodeRecord _ _ _ _ hk hv


/-! ## Lemmas on the facade -/

/-- What a returning `NewCacheFile` does to the state. -/
theorem NewCacheFile_ok (nd : Bool) (c c2 : BlockCacheImpl)
    (h : c.NewCacheFile nd = Except.ok c2) :
    ∃ index status,
      index = (match c.cacheFile_ with
        | some old =>
          if c.cacheFile_indexed_ then c.metadata_.cache_file_index_ ++ [old]
          else c.metadata_.cache_file_index_
        | none => c.metadata_.cache_file_index_) ∧
      status = index.all (fun g => !decide (g.cache_id_ = wrap32 (c.writerCacheId_ + 1))) ∧
      (nd = true ∨ status = true) ∧
      c2 = { c with writerCacheId_ := wrap32 (c.writerCacheId_ + 1),
                    cacheFile_ := some (WriteableCacheFile.new (wrap32 (c.writerCacheId_ + 1))
                      (wrap32 c.opt_.cache_file_size)),
                    cacheFile_indexed_ := status,
                    metadata_ := { c.metadata_ with cache_file_index_ := index } } := by
  unfold BlockCacheImpl.NewCacheFile at h
  simp only at h
  rw [check_eq_ok, check_eq_ok] at h
  obtain ⟨_, hs, h⟩ := h
  simp only [Except.ok.injEq] at h
  exact ⟨_, _, rfl, rfl, hs, h.symm⟩

/-- Induction over the turns of the append loop: a property that survives every
rotation holds of the state in which the last `Append` ran. -/
theorem appendLoop_last (nd : Bool) (key data : Slice) (P : Nat → BlockCacheImpl → Prop)
    (hrot : ∀ n c f f1 a1 c2, P (n + 1) c → c.cacheFile_ = some f →
      f.Append c.bufferAllocator_ key data = (none, f1, a1) → f1.eof_ = true →
      BlockCacheImpl.NewCacheFile nd { c with cacheFile_ := some f1, bufferAllocator_ := a1 }
        = Except.ok c2 → P n c2) :
    ∀ (fuel : Nat) (c : BlockCacheImpl) (r : Option LBA) (c1 : BlockCacheImpl),
    P fuel c → BlockCacheImpl.appendLoop nd key data fuel c = Except.ok (r, c1) →
    ∃ n c0 f f1 a1, P n c0 ∧ c0.cacheFile_ = some f ∧
      f.Append c0.bufferAllocator_ key data = (r, f1, a1) ∧
      (r = none → f1.eof_ = false) ∧
      c1 = { c0 with cacheFile_ := some f1, bufferAllocator_ := a1 } := by
  intro fuel
  induction fuel with
  | zero => intro c r c1 _ h; simp [BlockCacheImpl.appendLoop] at h
  | succ n ih =>
    intro c r c1 hP h
    rw [BlockCacheImpl.appendLoop] at h
    cases hcf : c.cacheFile_ with
    | none => rw [hcf] at h; simp at h
    | some f =>
      rw [hcf] at h
      simp only at h
      rcases hA : f.Append c.bufferAllocator_ key data with ⟨ra, f1, a1⟩
      rw [hA] at h
      cases ra with
      | some lba =>
        simp only [Except.ok.injEq, Prod.mk.injEq] at h
        obtain ⟨h1, h2⟩ := h
        subst h1; subst h2
        exact ⟨n + 1, c, f, f1, a1, hP, hcf, hA, by simp, rfl⟩
      | none =>
        simp only at h
        by_cases he : f1.eof_ = true
        · simp only [WriteableCacheFile.Eof, he, Bool.not_true, Bool.false_eq_true,
            if_false] at h
          rw [check_eq_ok] at h
          obtain ⟨_, h⟩ := h
          cases hN : BlockCacheImpl.NewCacheFile nd
              { c with cacheFile_ := some f1, bufferAllocator_ := a1 } with
          | error e => rw [hN] at h; simp at h
          | ok c2 =>
            rw [hN] at h
            simp only at h
            exact ih c2 r c1 (hrot n c f f1 a1 c2 hP hcf hA he hN) h
        · have he2 : f1.eof_ = false := by simpa using he
          simp only [WriteableCacheFile.Eof, he2, Bool.not_false, if_true, Except.ok.injEq,
            Prod.mk.injEq] at h
          obtain ⟨h1, h2⟩ := h
          subst h1; subst h2
          exact ⟨n + 1, c, f, f1, a1, hP, hcf, hA, fun _ => he2, rfl⟩

theorem unref_ref (f : WriteableCacheFile) : f.ref.unref = f := by
  cases f
  rfl

theorem modifyFirst_roundtrip : ∀ (l : List WriteableCacheFile) (cache_id : Nat),
    modifyFirst WriteableCacheFile.unref cache_id
      (modifyFirst WriteableCacheFile.ref cache_id l) = l := by
  intro l cache_id
  induction l with
  | nil => rfl
  | cons a rest ih =>
    simp only [modifyFirst]
    by_cases h : a.cache_id_ = cache_id
    · have h2 : a.ref.cache_id_ = cache_id := h
      rw [if_pos h]
      simp only [modifyFirst]
      rw [if_pos h2, unref_ref]
    · rw [if_neg h]
      simp only [modifyFirst]
      rw [if_neg h, ih]

theorem find_modifyFirst : ∀ (l : List WriteableCacheFile) (cache_id : Nat)
    (g : WriteableCacheFile → WriteableCacheFile), (∀ f, (g f).cache_id_ = f.cache_id_) →
    (modifyFirst g cache_id l).find? (fun f => decide (f.cache_id_ = cache_id))
      = (l.find? (fun f => decide (f.cache_id_ = cache_id))).map g := by
  intro l cache_id g hg
  induction l with
  | nil => rfl
  | cons a rest ih =>
    simp only [modifyFirst]
    by_cases h : a.cache_id_ = cache_id
    · simp [h, hg]
    · simp [h, ih]

/-- Taking and dropping a reference on the file of a cache id restores the state. -/
theorem modifyFile_roundtrip (c : BlockCacheImpl) (cache_id : Nat) :
    (c.modifyFile cache_id WriteableCacheFile.ref).modifyFile cache_id
      WriteableCacheFile.unref = c := by
  have e := find_modifyFirst c.metadata_.cache_file_index_ cache_id WriteableCacheFile.ref
    (fun _ => rfl)
  unfold BlockCacheImpl.modifyFile
  cases hf : c.metadata_.cache_file_index_.find? (fun f => decide (f.cache_id_ = cache_id)) with
  | some f =>
    rw [hf] at e
    simp only [e, Option.map_some', modifyFirst_roundtrip]
  | none =>
    simp only
    cases hc : c.cacheFile_ with
    | none => simp only [hf, hc]
    | some cur =>
      simp only
      by_cases hm : c.cacheFile_indexed_ = true ∧ cur.cache_id_ = cache_id
      · have hm2 : c.cacheFile_indexed_ = true ∧ cur.ref.cache_id_ = cache_id := hm
        rw [if_pos hm]
        simp only [hf]
        rw [if_pos hm2, unref_ref, ← hc]
      · rw [if_neg hm]
        simp only [hf, hc]
        rw [if_neg hm]

/-- `Lookup` of a key that the key index does not hold: a miss that touches nothing. -/
theorem Lookup_absent (nd : Bool) (c : BlockCacheImpl) (key : Slice)
    (h : c.metadata_.Lookup key = none) :
    c.Lookup nd key = Except.ok (false, none, c) := by
  unfold BlockCacheImpl.Lookup
  rw [h]

/-- `Lookup` of a key whose record reads back from the file of its address: a hit. -/
theorem Lookup_hit (nd : Bool) (c : BlockCacheImpl) (key val : Slice) (lba : LBA)
    (f : WriteableCacheFile)
    (h1 : c.metadata_.Lookup key = some lba) (h2 : c.findFile lba.cache_id_ = some f)
    (h3 : f.Read c.opt_.env lba = some (key, val)) :
    c.Lookup nd key = Except.ok (true, some (val, val.length),
      { c with stats_ := { c.stats_ with
                 bytes_read_ := c.stats_.bytes_read_ ++ [val.length],
                 cache_hits_ := c.stats_.cache_hits_ + 1 } }) := by
  have hr : f.ref.Read c.opt_.env lba = some (key, val) := by
    rw [Read_congr c.opt_.env f f.ref lba rfl rfl rfl rfl rfl, h3]
  unfold BlockCacheImpl.Lookup
  rw [h1]
  simp only [BlockCacheImpl.LookupFile, h2, hr, modifyFile_roundtrip]
  simp [check, WriteableCacheFile.ref]

/-- `Lookup` of a key whose record does not read back from the file of its address:
the assertion of line 162 when assertions are on, a counted miss when they are off. -/
theorem Lookup_read_failure (nd : Bool) (c : BlockCacheImpl) (key : Slice) (lba : LBA)
    (f : WriteableCacheFile)
    (h1 : c.metadata_.Lookup key = some lba) (h2 : c.findFile lba.cache_id_ = some f)
    (h3 : f.Read c.opt_.env lba = none) :
    c.Lookup nd key =
      (if nd then Except.ok (false, none,
          { c with stats_ := { c.stats_ with cache_misses_ := c.stats_.cache_misses_ + 1 } })
       else Except.error (Abort.assertion 162)) := by
  have hr : f.ref.Read c.opt_.env lba = none := by
    rw [Read_congr c.opt_.env f f.ref lba rfl rfl rfl rfl rfl, h3]
  unfold BlockCacheImpl.Lookup
  rw [h1]
  simp only [BlockCacheImpl.LookupFile, h2, hr, modifyFile_roundtrip]
  cases nd <;> simp [check, WriteableCacheFile.ref]


theorem NewCacheFile_withBudget (nd : Bool) (c : BlockCacheImpl) (n m : Nat) :
    (c.withBudget n m).NewCacheFile nd
      = (c.NewCacheFile nd).map (fun c1 => c1.withBudget n m) := by
  unfold BlockCacheImpl.NewCacheFile check BlockCacheImpl.withBudget
  simp only []
  split_ifs <;> rfl

theorem appendLoop_withBudget (nd : Bool) (key data : Slice) (n m : Nat) :
    ∀ (fuel : Nat) (c : BlockCacheImpl),
    BlockCacheImpl.appendLoop nd key data fuel (c.withBudget n m)
      = (BlockCacheImpl.appendLoop nd key data fuel c).map
          (fun r => (r.1, r.2.withBudget n m)) := by
  intro fuel
  induction fuel with
  | zero => intro c; rfl
  | succ k ih =>
    intro c
    rw [BlockCacheImpl.appendLoop, BlockCacheImpl.appendLoop]
    cases hcf : c.cacheFile_ with
    | none =>
      have : (c.withBudget n m).cacheFile_ = none := hcf
      rw [this]
      rfl
    | some f =>
      have : (c.withBudget n m).cacheFile_ = some f := hcf
      rw [this]
      simp only
      have ha : (c.withBudget n m).bufferAllocator_ = c.bufferAllocator_ := rfl
      rw [ha]
      rcases hA : f.Append c.bufferAllocator_ key data with ⟨ra, f1, a1⟩
      cases ra with
      | some lba => rfl
      | none =>
        simp only
        by_cases he : f1.Eof = true
        · simp only [he, Bool.not_true, Bool.false_eq_true, if_false]
          unfold check
          simp only [Bool.or_true, if_true]
          have e : ({ c.withBudget n m with cacheFile_ := some f1, bufferAllocator_ := a1 }
              : BlockCacheImpl)
              = BlockCacheImpl.withBudget
                  { c with cacheFile_ := some f1, bufferAllocator_ := a1 } n m := rfl
          rw [e, NewCacheFile_withBudget]
          cases hN : BlockCacheImpl.NewCacheFile nd
              { c with cacheFile_ := some f1, bufferAllocator_ := a1 } with
          | error e => rfl
          | ok c2 =>
            simp only [Except.map]
            exact ih c2
        · have he2 : f1.Eof = false := by simpa using he
          simp only [he2, Bool.not_false, if_true]
          rfl

theorem InsertImpl_withBudget (nd : Bool) (fuel : Nat) (c : BlockCacheImpl) (key buf : Slice)
    (size n m : Nat) :
    (c.withBudget n m).InsertImpl nd fuel key buf size
      = (c.InsertImpl nd fuel key buf size).map (fun r => (r.1, r.2.withBudget n m)) := by
  unfold BlockCacheImpl.InsertImpl
  have h1 : (c.withBudget n m).cacheFile_ = c.cacheFile_ := rfl
  have h2 : (c.withBudget n m).metadata_ = c.metadata_ := rfl
  rw [h1, h2, appendLoop_withBudget]
  unfold check
  split_ifs
  · cases hL : c.metadata_.Lookup key with
    | some lba => rfl
    | none =>
      simp only
      cases hA : BlockCacheImpl.appendLoop nd key (buf.take size) fuel c with
      | error e => rfl
      | ok r =>
        obtain ⟨ra, c1⟩ := r
        cases ra with
        | none => rfl
        | some lba =>
          simp only [Except.map]
          have h3 : (c1.withBudget n m).cacheFile_ = c1.cacheFile_ := rfl
          rw [h3]
          cases hcf : c1.cacheFile_ with
          | none => rfl
          | some f =>
            simp only
            have h4 : (c1.withBudget n m).metadata_ = c1.metadata_ := rfl
            rw [h4]
            split_ifs <;> rfl
  · rfl
  · rfl

theorem Insert_withBudget (nd : Bool) (fuel : Nat) (c : BlockCacheImpl) (key data : Slice)
    (size n m : Nat) :
    (c.withBudget n m).Insert nd fuel key data size
      = (c.Insert nd fuel key data size).map (fun r => (r.1, r.2.withBudget n m)) := by
  unfold BlockCacheImpl.Insert
  have h1 : (c.withBudget n m).opt_.pipeline_writes_ = c.opt_.pipeline_writes_ := rfl
  simp only [h1]
  cases hp : c.opt_.pipeline_writes_ with
  | true => rfl
  | false =>
    simp only [Bool.false_eq_true, if_false, check, Bool.not_false, Bool.or_true, if_true]
    exact InsertImpl_withBudget nd fuel
      { c with stats_ := { c.stats_ with
          bytes_pipelined_ := c.stats_.bytes_pipelined_ ++ [size] } } key (data.take size) size n m

/-- `InsertImpl` does not write `size_` or the options. -/
theorem InsertImpl_budget (nd : Bool) (fuel : Nat) (c c1 : BlockCacheImpl) (key buf : Slice)
    (size : Nat) (st : Status) (h : c.InsertImpl nd fuel key buf size = Except.ok (st, c1)) :
    c1.withBudget c.size_ c.opt_.cache_size = c1 := by
  have hc : c.withBudget c.size_ c.opt_.cache_size = c := rfl
  have h2 := InsertImpl_withBudget nd fuel c key buf size c.size_ c.opt_.cache_size
  rw [hc, h] at h2
  simp only [Except.map, Except.ok.injEq, Prod.mk.injEq, true_and] at h2
  exact h2.symm


/-! ## Lemmas on sequences of calls -/

/-- A stored record stays stored when the key index keeps its entry and every
readable record of an indexed file stays readable under the same cache id. -/
theorem stores_transfer (c c1 : BlockCacheImpl) (key val : Slice) (lba : LBA)
    (hidx : c1.metadata_.block_index_.find? (fun i => decide (i.key_ = key))
      = c.metadata_.block_index_.find? (fun i => decide (i.key_ = key)))
    (hfile : ∀ fk, c.findFile lba.cache_id_ = some fk →
      fk.Read c.opt_.env lba = some (key, val) →
      ∃ fk1, c1.findFile lba.cache_id_ = some fk1 ∧ fk1.Read c1.opt_.env lba = some (key, val))
    (h : c.stores key val lba) : c1.stores key val lba := by
  obtain ⟨h1, fk, h2, h3⟩ := h
  exact ⟨hidx.trans h1, hfile fk h2 h3⟩

/-- Replacing the current file by one of the same cache id from which at least the
same records read back keeps every indexed record readable. -/
theorem findFile_current (c c1 : BlockCacheImpl) (f f1 : WriteableCacheFile) (lba : LBA)
    (r : Slice × Slice)
    (hi : c1.metadata_.cache_file_index_ = c.metadata_.cache_file_index_)
    (hfl : c1.cacheFile_indexed_ = c.cacheFile_indexed_) (he : c1.opt_.env = c.opt_.env)
    (hc : c.cacheFile_ = some f) (hc1 : c1.cacheFile_ = some f1)
    (hid : f1.cache_id_ = f.cache_id_)
    (hread : f.Read c.opt_.env lba = some r → f1.Read c.opt_.env lba = some r)
    (fk : WriteableCacheFile) (h2 : c.findFile lba.cache_id_ = some fk)
    (h3 : fk.Read c.opt_.env lba = some r) :
    ∃ fk1, c1.findFile lba.cache_id_ = some fk1 ∧ fk1.Read c1.opt_.env lba = some r := by
  unfold BlockCacheImpl.findFile at h2 ⊢
  rw [hi, hfl, hc1, he]
  rw [hc] at h2
  cases hf : c.metadata_.cache_file_index_.find?
      (fun f => decide (f.cache_id_ = lba.cache_id_)) with
  | some g =>
    rw [hf] at h2
    simp only [Option.some.injEq] at h2
    subst h2
    exact ⟨g, rfl, h3⟩
  | none =>
    rw [hf] at h2
    simp only at h2 ⊢
    by_cases hm : c.cacheFile_indexed_ = true ∧ f.cache_id_ = lba.cache_id_
    · rw [if_pos hm] at h2
      simp only [Option.some.injEq] at h2
      subst h2
      rw [if_pos ⟨hm.1, hid.trans hm.2⟩]
      exact ⟨f1, rfl, hread h3⟩
    · rw [if_neg hm] at h2
      simp at h2

/-- A turn of `Append` on the current file keeps a stored record stored. -/
theorem stores_append (c : BlockCacheImpl) (f f1 : WriteableCacheFile)
    (a1 : CacheWriteBufferAllocator) (r : Option LBA) (key val k d : Slice) (lba : LBA)
    (hopen : c.fileOpen) (hc : c.cacheFile_ = some f)
    (hA : f.Append c.bufferAllocator_ k d = (r, f1, a1))
    (h : c.stores key val lba) :
    BlockCacheImpl.stores { c with cacheFile_ := some f1, bufferAllocator_ := a1 } key val lba := by
  have hfr := Append_frame f c.bufferAllocator_ k d
  rw [hA] at hfr
  obtain ⟨e1, e2, e3, _, _, e6, e7, _⟩ := hfr
  unfold BlockCacheImpl.fileOpen at hopen
  rw [hc] at hopen
  refine stores_transfer c _ key val lba rfl ?_ h
  intro fk h2 h3
  exact findFile_current c _ f f1 lba _ rfl rfl rfl hc rfl e1
    (fun hr => Read_mono c.opt_.env f f1 lba _ e1 e2 e3 e6 e7 hopen hr) fk h2 h3

theorem infosOwned_append (c : BlockCacheImpl) (f f1 : WriteableCacheFile)
    (a1 : CacheWriteBufferAllocator) (r : Option LBA) (k d : Slice)
    (hc : c.cacheFile_ = some f)
    (hA : f.Append c.bufferAllocator_ k d = (r, f1, a1))
    (h : c.infosOwned) :
    BlockCacheImpl.infosOwned { c with cacheFile_ := some f1, bufferAllocator_ := a1 } := by
  have hfr := Append_frame f c.bufferAllocator_ k d
  rw [hA] at hfr
  obtain ⟨e1, _, _, e4, _⟩ := hfr
  unfold BlockCacheImpl.infosOwned at h ⊢
  rw [hc] at h
  simp only at h ⊢
  refine ⟨h.1, ?_⟩
  rw [e4, e1]
  exact h.2

/-- A rotation keeps the per-file lists owned and leaves an open current file. -/
theorem infosOwned_rotate (nd : Bool) (c c2 : BlockCacheImpl)
    (hN : c.NewCacheFile nd = Except.ok c2) (hi : c.infosOwned) :
    c2.infosOwned ∧ c2.fileOpen := by
  obtain ⟨index, status, hidx, _, _, hc2⟩ := NewCacheFile_ok _ _ _ hN
  subst hc2
  refine ⟨?_, rfl⟩
  unfold BlockCacheImpl.infosOwned at hi ⊢
  simp only
  refine ⟨?_, by simp [WriteableCacheFile.new]⟩
  intro g hg
  rw [hidx] at hg
  cases hcf : c.cacheFile_ with
  | none => rw [hcf] at hg; exact hi.1 g hg
  | some f =>
    rw [hcf] at hg hi
    simp only at hg hi
    split at hg
    · rcases List.mem_append.1 hg with hg | hg
      · exact hi.1 g hg
      · simp only [List.mem_singleton] at hg
        rw [hg]; exact hi.2
    · exact hi.1 g hg

/-- A rotation keeps a stored record stored, the per-file lists owned and leaves
an open current file. -/
theorem stores_rotate (nd : Bool) (c c2 : BlockCacheImpl) (key val : Slice) (lba : LBA)
    (hN : c.NewCacheFile nd = Except.ok c2) (hi : c.infosOwned)
    (h : c.stores key val lba) :
    c2.stores key val lba ∧ c2.infosOwned ∧ c2.fileOpen := by
  refine ⟨?_, infosOwned_rotate nd c c2 hN hi⟩
  obtain ⟨index, status, hidx, _, _, hc2⟩ := NewCacheFile_ok _ _ _ hN
  subst hc2
  refine stores_transfer c _ key val lba rfl ?_ h
  intro fk h2 h3
  refine ⟨fk, ?_, h3⟩
  unfold BlockCacheImpl.findFile at h2 ⊢
  simp only
  cases hf : c.metadata_.cache_file_index_.find?
      (fun f => decide (f.cache_id_ = lba.cache_id_)) with
  | some g =>
    rw [hf] at h2
    have : index.find? (fun f => decide (f.cache_id_ = lba.cache_id_)) = some g := by
      rw [hidx]
      split
      · split
        · rw [List.find?_append, hf]; rfl
        · exact hf
      · exact hf
    rw [this]
    exact h2
  | none =>
    rw [hf] at h2
    simp only at h2
    cases hcf : c.cacheFile_ with
    | none => rw [hcf] at h2; simp at h2
    | some f =>
      rw [hcf] at h2
      simp only at h2
      by_cases hm : c.cacheFile_indexed_ = true ∧ f.cache_id_ = lba.cache_id_
      · rw [if_pos hm] at h2
        simp only [Option.some.injEq] at h2
        subst h2
        have : index.find? (fun f => decide (f.cache_id_ = lba.cache_id_)) = some f := by
          rw [hidx, hcf]
          simp only [hm.1, if_true]
          rw [List.find?_append, hf]
          simp [hm.2]
        rw [this]
      · rw [if_neg hm] at h2
        simp at h2

theorem Insert_meta (m : BlockCacheMetadata) (info : BlockInfo) :
    (m.Insert info).2.cache_file_index_ = m.cache_file_index_ ∧
    ((m.Insert info).2.block_index_ = m.block_index_ ∨
      (m.Lookup info.key_ = none ∧ (m.Insert info).2.block_index_ = info :: m.block_index_)) := by
  unfold BlockCacheMetadata.Insert
  cases h : m.Lookup info.key_ with
  | some l => exact ⟨rfl, Or.inl rfl⟩
  | none => exact ⟨rfl, Or.inr ⟨rfl, rfl⟩⟩

/-- `InsertImpl`, whatever it returns, keeps a stored record stored. -/
theorem InsertImpl_keeps (nd : Bool) (fuel : Nat) (c c1 : BlockCacheImpl) (k buf : Slice)
    (size : Nat) (st : Status) (key val : Slice) (lba : LBA)
    (hs : c.stores key val lba) (hi : c.infosOwned) (ho : c.fileOpen)
    (h : c.InsertImpl nd fuel k buf size = Except.ok (st, c1)) :
    c1.stores key val lba ∧ c1.infosOwned ∧ c1.fileOpen := by
  unfold BlockCacheImpl.InsertImpl at h
  rw [check_eq_ok, check_eq_ok] at h
  obtain ⟨_, _, h⟩ := h
  cases hLk : c.metadata_.Lookup k with
  | some l0 =>
    rw [hLk] at h
    simp only [Except.ok.injEq, Prod.mk.injEq] at h
    rw [← h.2]
    exact ⟨hs, hi, ho⟩
  | none =>
    rw [hLk] at h
    simp only at h
    cases hL : BlockCacheImpl.appendLoop nd k (buf.take size) fuel c with
    | error e => rw [hL] at h; simp at h
    | ok r =>
      obtain ⟨ra, cl⟩ := r
      rw [hL] at h
      obtain ⟨n, c0, f, f1, a1, hP, hcf, hA, hnone, hcl⟩ :=
        appendLoop_last nd k (buf.take size)
          (fun _ c' => c'.stores key val lba ∧ c'.infosOwned ∧ c'.fileOpen)
          (by
            intro n c' f f1 a1 c2 hP hcf hA _ hN
            obtain ⟨p1, p2, p3⟩ := hP
            exact stores_rotate nd _ c2 key val lba hN
              (infosOwned_append c' f f1 a1 none k _ hcf hA p2)
              (stores_append c' f f1 a1 none key val k _ lba p3 hcf hA p1))
          fuel c ra cl ⟨hs, hi, ho⟩ hL
      obtain ⟨p1, p2, p3⟩ := hP
      have q1 := stores_append c0 f f1 a1 ra key val k _ lba p3 hcf hA p1
      have q2 := infosOwned_append c0 f f1 a1 ra k _ hcf hA p2
      rw [← hcl] at q1 q2
      cases ra with
      | none =>
        simp only [Except.ok.injEq, Prod.mk.injEq] at h
        rw [← h.2]
        refine ⟨q1, q2, ?_⟩
        rw [hcl]
        exact hnone rfl
      | some lba1 =>
        have hcur : cl.cacheFile_ = some f1 := by rw [hcl]
        simp only [hcur] at h
        rw [check_eq_ok] at h
        obtain ⟨_, h⟩ := h
        simp only [Except.ok.injEq, Prod.mk.injEq, true_and] at h
        obtain ⟨_, _, _, _, _, hlba, _, _, hid, _, heof, _, _, hbi, _, _⟩ :=
          Append_some _ _ _ _ _ _ _ hA
        unfold BlockCacheImpl.fileOpen at p3
        rw [hcf] at p3
        simp only at p3
        have hidx : (BlockCacheMetadata.Insert cl.metadata_ { key_ := k, lba_ := lba1 }).2.block_index_.find?
              (fun i => decide (i.key_ = key))
            = cl.metadata_.block_index_.find? (fun i => decide (i.key_ = key)) := by
          rcases (Insert_meta cl.metadata_ { key_ := k, lba_ := lba1 }).2 with e | ⟨e0, e⟩
          · rw [e]
          · rw [e]
            have hkk : ¬ k = key := by
              intro hkk
              subst hkk
              have hq := q1.1
              unfold BlockCacheMetadata.Lookup at e0
              simp only at e0
              rw [hq] at e0
              simp at e0
            simp [List.find?, hkk]
        have hfi := (Insert_meta cl.metadata_ { key_ := k, lba_ := lba1 }).1
        rw [← h.2]
        refine ⟨?_, ?_, ?_⟩
        · refine stores_transfer cl _ key val lba hidx ?_ q1
          intro fk h2 h3
          exact findFile_current cl _ f1 (f1.Add { key_ := k, lba_ := lba1 }) lba _ hfi rfl rfl
            hcur rfl rfl
            (fun hr => by
              rw [Read_congr cl.opt_.env f1 (f1.Add { key_ := k, lba_ := lba1 }) lba
                rfl rfl rfl rfl rfl]
              exact hr) fk h2 h3
        · unfold BlockCacheImpl.infosOwned at q2 ⊢
          rw [hcur] at q2
          simp only at q2 ⊢
          rw [hfi]
          refine ⟨q2.1, ?_⟩
          intro i hi2
          simp only [WriteableCacheFile.Add, List.mem_cons] at hi2 ⊢
          rcases hi2 with hi2 | hi2
          · rw [hi2, hlba]
            exact hid.symm
          · exact q2.2 i hi2
        · show (f1.Add { key_ := k, lba_ := lba1 }).eof_ = false
          show f1.eof_ = false
          rw [heof]
          exact p3

/-- The three properties that a sequence of calls keeps. -/
theorem keeps_congr (c c1 : BlockCacheImpl) (key val : Slice) (lba : LBA)
    (hm : c1.metadata_ = c.metadata_) (hc : c1.cacheFile_ = c.cacheFile_)
    (hf : c1.cacheFile_indexed_ = c.cacheFile_indexed_) (he : c1.opt_ = c.opt_)
    (h : c.stores key val lba ∧ c.infosOwned ∧ c.fileOpen) :
    c1.stores key val lba ∧ c1.infosOwned ∧ c1.fileOpen := by
  unfold BlockCacheImpl.stores BlockCacheImpl.infosOwned BlockCacheImpl.fileOpen
    BlockCacheImpl.findFile at *
  rw [hm, hc, hf, he]
  exact h

/-- `Insert`, whatever it returns, keeps a stored record stored. -/
theorem Insert_keeps (nd : Bool) (fuel : Nat) (c c1 : BlockCacheImpl) (k data : Slice)
    (size : Nat) (st : Status) (key val : Slice) (lba : LBA)
    (h0 : c.stores key val lba ∧ c.infosOwned ∧ c.fileOpen)
    (h : c.Insert nd fuel k data size = Except.ok (st, c1)) :
    c1.stores key val lba ∧ c1.infosOwned ∧ c1.fileOpen := by
  unfold BlockCacheImpl.Insert at h
  simp only at h
  cases hp : c.opt_.pipeline_writes_ with
  | true =>
    rw [hp] at h
    simp only [if_true, Except.ok.injEq, Prod.mk.injEq] at h
    rw [← h.2]
    exact keeps_congr c _ key val lba rfl rfl rfl rfl h0
  | false =>
    rw [hp] at h
    simp only [Bool.false_eq_true, if_false] at h
    rw [check_eq_ok] at h
    have h1 := keeps_congr c
      { c with stats_ := { c.stats_ with
          bytes_pipelined_ := c.stats_.bytes_pipelined_ ++ [size] } } key val lba
      rfl rfl rfl rfl h0
    exact InsertImpl_keeps nd fuel _ c1 k _ size st key val lba h1.1 h1.2.1 h1.2.2 h.2

/-- `Lookup` changes the counters of `stats_` only. -/
theorem Lookup_frame (nd : Bool) (c : BlockCacheImpl) (key : Slice)
    (r : Bool × Option (Slice × Nat) × BlockCacheImpl)
    (h : c.Lookup nd key = Except.ok r) :
    r.2.2 = { c with stats_ := r.2.2.stats_ } := by
  cases h1 : c.metadata_.Lookup key with
  | none =>
    rw [Lookup_absent nd c key h1] at h
    simp only [Except.ok.injEq] at h
    rw [← h]
  | some lba =>
    cases h2 : c.findFile lba.cache_id_ with
    | none =>
      unfold BlockCacheImpl.Lookup BlockCacheImpl.LookupFile at h
      simp only [h1, h2, Except.ok.injEq] at h
      rw [← h]
    | some f =>
      cases h3 : f.Read c.opt_.env lba with
      | none =>
        rw [Lookup_read_failure nd c key lba f h1 h2 h3] at h
        cases nd with
        | false => simp at h
        | true =>
          simp only [if_true, Except.ok.injEq] at h
          rw [← h]
      | some kv =>
        obtain ⟨k, v⟩ := kv
        have hr : f.ref.Read c.opt_.env lba = some (k, v) := by
          rw [Read_congr c.opt_.env f f.ref lba rfl rfl rfl rfl rfl, h3]
        unfold BlockCacheImpl.Lookup BlockCacheImpl.LookupFile at h
        simp only [h1, h2, hr, modifyFile_roundtrip] at h
        rw [check_eq_ok, check_eq_ok] at h
        obtain ⟨_, _, h⟩ := h
        simp only [Except.ok.injEq] at h
        rw [← h]

theorem find_filter_keep (p q : BlockInfo → Bool) : ∀ (l : List BlockInfo) (i : BlockInfo),
    l.find? p = some i → q i = true → (l.filter q).find? p = some i := by
  intro l
  induction l with
  | nil => intro i h; simp at h
  | cons a rest ih =>
    intro i h hq
    by_cases hp : p a = true
    · simp only [List.find?, hp] at h
      simp only [Option.some.injEq] at h
      subst h
      simp [List.filter, hq, List.find?, hp]
    · have hp2 : p a = false := by simpa using hp
      simp only [List.find?, hp2] at h
      have := ih i h hq
      by_cases hqa : q a = true
      · simp [List.filter, hqa, List.find?, hp2, this]
      · have hqa2 : q a = false := by simpa using hqa
        simp [List.filter, hqa2, this]

/-- `Erase` of another key keeps a stored record stored. -/
theorem Erase_keeps (nd : Bool) (c c1 : BlockCacheImpl) (k : Slice) (b : Bool)
    (key val : Slice) (lba : LBA) (hk : k ≠ key)
    (h0 : c.stores key val lba ∧ c.infosOwned ∧ c.fileOpen)
    (h : c.Erase nd k = Except.ok (b, c1)) :
    c1.stores key val lba ∧ c1.infosOwned ∧ c1.fileOpen := by
  unfold BlockCacheImpl.Erase BlockCacheMetadata.Remove at h
  simp only at h
  rw [check_eq_ok] at h
  obtain ⟨_, h⟩ := h
  simp only [Except.ok.injEq, Prod.mk.injEq] at h
  rw [← h.2]
  obtain ⟨⟨s1, s2⟩, s3, s4⟩ := h0
  refine ⟨⟨?_, s2⟩, s3, s4⟩
  refine find_filter_keep _ _ _ _ s1 ?_
  simp only [Bool.not_eq_true', decide_eq_false_iff_not]
  exact fun e => hk e.symm

theorem find_erase_ne (p : WriteableCacheFile → Bool) (g : WriteableCacheFile)
    (hg : p g = false) : ∀ (l : List WriteableCacheFile), (l.erase g).find? p = l.find? p := by
  intro l
  induction l with
  | nil => rfl
  | cons a rest ih =>
    by_cases e : a = g
    · subst e
      rw [List.erase_cons_head]
      simp [List.find?, hg]
    · rw [List.erase_cons_tail (by simpa using e)]
      simp only [List.find?, ih]

/-- One eviction of a file with another cache id keeps a stored record stored. -/
theorem Evict_keeps (c : BlockCacheImpl) (g : WriteableCacheFile) (m : BlockCacheMetadata)
    (key val : Slice) (lba : LBA) (hE : c.metadata_.Evict = some (g, m))
    (hid : g.cache_id_ ≠ lba.cache_id_)
    (h0 : c.stores key val lba ∧ c.infosOwned ∧ c.fileOpen) :
    BlockCacheImpl.stores { c with metadata_ := m } key val lba ∧
      BlockCacheImpl.infosOwned { c with metadata_ := m } ∧
      BlockCacheImpl.fileOpen { c with metadata_ := m } := by
  obtain ⟨hmem, hidx, hblk⟩ := Evict_some _ _ _ hE
  obtain ⟨⟨s1, fk, s2, s3⟩, s4, s5⟩ := h0
  refine ⟨⟨?_, fk, ?_, s3⟩, ?_, s5⟩
  · show m.block_index_.find? _ = _
    rw [hblk]
    refine find_filter_keep _ _ _ _ s1 ?_
    simp only [Bool.not_eq_true', List.contains_eq_any_beq, List.any_eq_false, beq_iff_eq]
    intro i hi e
    have := s4.1 g hmem i hi
    rw [← e] at this
    exact hid this.symm
  · unfold BlockCacheImpl.findFile at s2 ⊢
    simp only
    rw [hidx, find_erase_ne _ g (by simpa using hid)]
    exact s2
  · unfold BlockCacheImpl.infosOwned at s4 ⊢
    simp only
    rw [hidx]
    exact ⟨fun f hf => s4.1 f (List.mem_of_mem_erase hf), s4.2⟩

theorem evictAll_keeps (key val : Slice) (lba : LBA) : ∀ (fs : List WriteableCacheFile)
    (c : BlockCacheImpl) (m1 : BlockCacheMetadata),
    evictAll c.metadata_ fs = some m1 → (∀ g ∈ fs, g.cache_id_ ≠ lba.cache_id_) →
    c.stores key val lba ∧ c.infosOwned ∧ c.fileOpen →
    BlockCacheImpl.stores { c with metadata_ := m1 } key val lba ∧
      BlockCacheImpl.infosOwned { c with metadata_ := m1 } ∧
      BlockCacheImpl.fileOpen { c with metadata_ := m1 } := by
  intro fs
  induction fs with
  | nil =>
    intro c m1 h _ h0
    simp only [evictAll, Option.some.injEq] at h
    subst h
    exact h0
  | cons g rest ih =>
    intro c m1 h hne h0
    unfold evictAll at h
    cases hE : c.metadata_.Evict with
    | none => rw [hE] at h; simp at h
    | some p =>
      obtain ⟨g2, m2⟩ := p
      rw [hE] at h
      simp only at h
      split at h
      · rename_i hg
        subst hg
        have h1 := Evict_keeps c g2 m2 key val lba hE (hne g2 (List.mem_cons_self _ _)) h0
        exact ih { c with metadata_ := m2 } m1 h
          (fun g hg => hne g (List.mem_cons_of_mem _ hg)) h1
      · simp at h

/-- What the loop of `Reserve` changes: the metadata, by successive evictions, and
`size_`. -/
theorem reserveLoop_frame (nd : Bool) (size : Nat) : ∀ (fuel : Nat) (c : BlockCacheImpl)
    (ev : List WriteableCacheFile) (r : Reserved),
    BlockCacheImpl.reserveLoop nd size fuel c ev = Except.ok r →
    ∃ fs, r.evicted = ev ++ fs ∧ evictAll c.metadata_ fs = some r.cache.metadata_ ∧
      r.cache = { c with metadata_ := r.cache.metadata_, size_ := r.cache.size_ } := by
  intro fuel
  induction fuel with
  | zero => intro c ev r h; simp [BlockCacheImpl.reserveLoop] at h
  | succ n ih =>
    intro c ev r hrun
    rw [BlockCacheImpl.reserveLoop] at hrun
    split at hrun
    · cases hE : c.metadata_.Evict with
      | none =>
        rw [hE] at hrun
        simp only [Except.ok.injEq] at hrun
        subst hrun
        exact ⟨[], by simp, by simp [evictAll], rfl⟩
      | some p =>
        obtain ⟨f, m⟩ := p
        rw [hE] at hrun
        simp only at hrun
        rw [check_eq_ok] at hrun
        obtain ⟨_, hrun⟩ := hrun
        cases hD : f.Delete c.opt_.env with
        | none =>
          rw [hD] at hrun
          simp only [Except.ok.injEq] at hrun
          subst hrun
          exact ⟨[f], rfl, by simp [evictAll, hE], rfl⟩
        | some fsz =>
          rw [hD] at hrun
          simp only at hrun
          rw [check_eq_ok] at hrun
          obtain ⟨_, hrun⟩ := hrun
          obtain ⟨fs, h1, h2, h3⟩ := ih _ _ r hrun
          simp only at h2 h3
          exact ⟨f :: fs, by simp [h1], by simp [evictAll, hE, h2], by rw [h3]⟩
    · simp only at hrun
      rw [check_eq_ok] at hrun
      obtain ⟨_, hrun⟩ := hrun
      simp only [Except.ok.injEq] at hrun
      subst hrun
      exact ⟨[], by simp, by simp [evictAll], rfl⟩

/-- `Reserve` keeps a stored record stored when it evicts no file of its cache id. -/
theorem Reserve_keeps (nd : Bool) (c : BlockCacheImpl) (size : Nat) (r : Reserved)
    (key val : Slice) (lba : LBA)
    (h0 : c.stores key val lba ∧ c.infosOwned ∧ c.fileOpen)
    (h : c.Reserve nd size = Except.ok r)
    (hne : ∀ g ∈ r.evicted, g.cache_id_ ≠ lba.cache_id_) :
    r.cache.stores key val lba ∧ r.cache.infosOwned ∧ r.cache.fileOpen := by
  have key1 : ∃ fs, r.evicted = [] ++ fs ∧ evictAll c.metadata_ fs = some r.cache.metadata_ ∧
      r.cache = { c with metadata_ := r.cache.metadata_, size_ := r.cache.size_ } := by
    unfold BlockCacheImpl.Reserve at h
    rw [check_eq_ok] at h
    obtain ⟨_, h⟩ := h
    split at h
    · simp only [Except.ok.injEq] at h
      subst h
      exact ⟨[], rfl, rfl, rfl⟩
    · rw [check_eq_ok] at h
      exact reserveLoop_frame nd size _ c [] r h.2
  obtain ⟨fs, h1, h2, h3⟩ := key1
  simp only [List.nil_append] at h1
  subst h1
  have h4 := evictAll_keeps key val lba r.evicted c r.cache.metadata_ h2 hne h0
  rw [h3]
  exact keeps_congr { c with metadata_ := r.cache.metadata_ } _ key val lba rfl rfl rfl rfl h4


/-- A rotation keeps the state well formed. -/
theorem wellFormed_rotation (nd : Bool) (key data : Slice) (n : Nat) (c c2 : BlockCacheImpl)
    (f f1 : WriteableCacheFile) (a1 : CacheWriteBufferAllocator)
    (hwf : c.wellFormed) (hid : nd = false ∨ c.idsFresh (n + 1))
    (hcf : c.cacheFile_ = some f)
    (hA : f.Append c.bufferAllocator_ key data = (none, f1, a1))
    (hN : BlockCacheImpl.NewCacheFile nd { c with cacheFile_ := some f1, bufferAllocator_ := a1 }
      = Except.ok c2) :
    c2.wellFormed ∧ (nd = false ∨ c2.idsFresh n) ∧
      c2.metadata_.block_index_ = c.metadata_.block_index_ ∧ c2.opt_ = c.opt_ := by
  obtain ⟨index, status, hidx, hst, hchk, hc2⟩ := NewCacheFile_ok _ _ _ hN
  have hf1id : f1.cache_id_ = f.cache_id_ := by
    have := (Append_frame f c.bufferAllocator_ key data).1
    rw [hA] at this
    exact this
  unfold BlockCacheImpl.wellFormed at hwf
  rw [hcf] at hwf
  obtain ⟨_, hflag, _⟩ := hwf
  simp only [hflag, if_true] at hidx
  have hstatus : status = true := by
    rcases hchk with hnd | hs
    · rcases hid with h | h
      · rw [hnd] at h; simp at h
      · obtain ⟨i1, i2, i3⟩ := h
        rw [hcf] at i2
        simp only at i2
        rw [hst, List.all_eq_true]
        intro g hg
        have hw : wrap32 (c.writerCacheId_ + 1) = c.writerCacheId_ + 1 :=
          Nat.mod_eq_of_lt (by omega)
        have hle : g.cache_id_ ≤ c.writerCacheId_ := by
          rw [hidx] at hg
          rcases List.mem_append.1 hg with hg | hg
          · exact i1 g hg
          · simp only [List.mem_singleton] at hg
            rw [hg, hf1id]; exact i2
        simp only [Bool.not_eq_true', decide_eq_false_iff_not, hw]
        omega
    · exact hs
  have hall : ∀ g ∈ index, g.cache_id_ ≠ wrap32 (c.writerCacheId_ + 1) := by
    intro g hg
    have := hstatus
    rw [hst, List.all_eq_true] at this
    simpa using this g hg
  subst hc2
  refine ⟨?_, ?_, rfl, rfl⟩
  · unfold BlockCacheImpl.wellFormed
    simp only
    refine ⟨⟨rfl, Nat.mod_lt _ (by norm_num), rfl⟩, hstatus, hall⟩
  · rcases hid with h | h
    · exact Or.inl h
    · right
      obtain ⟨i1, i2, i3⟩ := h
      rw [hcf] at i2
      simp only at i2
      have hw : wrap32 (c.writerCacheId_ + 1) = c.writerCacheId_ + 1 :=
        Nat.mod_eq_of_lt (by omega)
      unfold BlockCacheImpl.idsFresh
      simp only [hw]
      refine ⟨?_, by simp [WriteableCacheFile.new], by omega⟩
      intro g hg
      rw [hidx] at hg
      rcases List.mem_append.1 hg with hg | hg
      · exact Nat.le_succ_of_le (i1 g hg)
      · simp only [List.mem_singleton] at hg
        rw [hg, hf1id]; omega

/-- `InsertImpl` of a key that the key index does not hold, when it returns OK:
the key index gained the key with the address of a record in the current file,
from which the key and the value read back. -/
theorem InsertImpl_fresh (nd : Bool) (fuel : Nat) (c c1 : BlockCacheImpl) (key buf : Slice)
    (size : Nat)
    (hwf : c.wellFormed) (hio : c.infosOwned) (hid : nd = false ∨ c.idsFresh fuel)
    (hkey : c.metadata_.Lookup key = none)
    (h : c.InsertImpl nd fuel key buf size = Except.ok (Status.OK, c1)) :
    ∃ lba f2, c1.metadata_.block_index_ = { key_ := key, lba_ := lba } :: c.metadata_.block_index_ ∧
      c1.cacheFile_ = some f2 ∧ c1.wellFormed ∧ lba.cache_id_ = f2.cache_id_ ∧
      f2.Read c.opt_.env lba = some (key, buf.take size) ∧ c1.opt_ = c.opt_ ∧
      c1.infosOwned := by
  unfold BlockCacheImpl.InsertImpl at h
  rw [check_eq_ok, check_eq_ok] at h
  obtain ⟨_, _, h⟩ := h
  rw [hkey] at h
  simp only at h
  cases hL : BlockCacheImpl.appendLoop nd key (buf.take size) fuel c with
  | error e => rw [hL] at h; simp at h
  | ok r =>
    obtain ⟨ra, cl⟩ := r
    rw [hL] at h
    cases ra with
    | none => simp at h
    | some lba =>
      simp only at h
      obtain ⟨n, c0, f, f1, a1, hP, hcf, hA, _, hcl⟩ :=
        appendLoop_last nd key (buf.take size)
          (fun n c' => c'.wellFormed ∧ (nd = false ∨ c'.idsFresh n) ∧
            c'.metadata_.block_index_ = c.metadata_.block_index_ ∧ c'.opt_ = c.opt_ ∧
            c'.infosOwned)
          (by
            intro n c' f f1 a1 c2 hP hcf hA _ hN
            obtain ⟨p1, p2, p3, p4, p5⟩ := hP
            obtain ⟨q1, q2, q3, q4⟩ := wellFormed_rotation nd key _ n c' c2 f f1 a1 p1 p2 hcf hA hN
            exact ⟨q1, q2, q3.trans p3, q4.trans p4,
              (infosOwned_rotate nd _ c2 hN (infosOwned_append c' f f1 a1 none key _ hcf hA p5)).1⟩)
          fuel c (some lba) cl ⟨hwf, hid, rfl, rfl, hio⟩ hL
      obtain ⟨p1, _, p3, p4, p5⟩ := hP
      have q5 := infosOwned_append c0 f f1 a1 (some lba) key _ hcf hA p5
      unfold BlockCacheImpl.wellFormed at p1
      rw [hcf] at p1
      obtain ⟨w1, w2, w3⟩ := p1
      obtain ⟨r1, r2, r3⟩ := Append_some_Read c.opt_.env f f1 _ _ key (buf.take size) lba w1 hA
      have hid1 : f1.cache_id_ = f.cache_id_ := by
        have := (Append_frame f c0.bufferAllocator_ key (buf.take size)).1
        rw [hA] at this
        exact this
      subst hcl
      simp only at h
      have hLk : BlockCacheMetadata.Lookup c0.metadata_ key = none := by
        unfold BlockCacheMetadata.Lookup at hkey ⊢
        rw [p3]; exact hkey
      unfold BlockCacheMetadata.Insert at h
      simp only [hLk] at h
      rw [check_eq_ok] at h
      obtain ⟨_, h⟩ := h
      simp only [Except.ok.injEq, Prod.mk.injEq, true_and] at h
      subst h
      refine ⟨lba, f1.Add { key_ := key, lba_ := lba }, by simp [p3], rfl, ?_, r2, ?_, p4, ?_⟩
      · unfold BlockCacheImpl.wellFormed
        simp only
        refine ⟨?_, w2, ?_⟩
        · exact r1
        · intro g hg
          rw [show (f1.Add { key_ := key, lba_ := lba }).cache_id_ = f1.cache_id_ from rfl, hid1]
          exact w3 g hg
      · rw [Read_congr c.opt_.env f1 (f1.Add { key_ := key, lba_ := lba }) lba rfl rfl rfl rfl rfl]
        exact r3
      · unfold BlockCacheImpl.infosOwned at q5 ⊢
        simp only at q5 ⊢
        refine ⟨q5.1, ?_⟩
        intro i hi2
        simp only [WriteableCacheFile.Add, List.mem_cons] at hi2 ⊢
        rcases hi2 with hi2 | hi2
        · rw [hi2]; exact r2
        · exact q5.2 i hi2

/-- The first `NewCacheFile`, on a cache without files, makes a well-formed state
with owned per-file lists. -/
theorem wellFormed_first_file (nd : Bool) (c c2 : BlockCacheImpl)
    (h0 : c.cacheFile_ = none) (h1 : c.metadata_.cache_file_index_ = [])
    (hN : c.NewCacheFile nd = Except.ok c2) : c2.wellFormed ∧ c2.infosOwned := by
  obtain ⟨index, status, hidx, hst, _, hc2⟩ := NewCacheFile_ok _ _ _ hN
  rw [h0, h1] at hidx
  simp only at hidx
  subst hidx
  simp only [List.all_nil] at hst
  subst hst
  subst hc2
  constructor
  · unfold BlockCacheImpl.wellFormed
    simp only
    refine ⟨⟨rfl, Nat.mod_lt _ (by norm_num), rfl⟩, ?_, by simp⟩
    simp
  · unfold BlockCacheImpl.infosOwned
    simp [WriteableCacheFile.new]

/-! ## Claims on `Insert`, `Lookup` and `Erase` -/

/-- A call other than the erase of the key, evicting no file of the cache id of the
record, keeps a stored record stored. -/
theorem call_keeps (nd : Bool) (c c1 : BlockCacheImpl) (op : Call)
    (ev : List WriteableCacheFile) (key val : Slice) (lba : LBA)
    (hop : op ≠ Call.erase key) (h : c.call nd op = Except.ok (c1, ev))
    (hne : ∀ g ∈ ev, g.cache_id_ ≠ lba.cache_id_)
    (h0 : c.stores key val lba ∧ c.infosOwned ∧ c.fileOpen) :
    c1.stores key val lba ∧ c1.infosOwned ∧ c1.fileOpen := by
  cases op with
  | insert k data size fuel =>
    simp only [BlockCacheImpl.call] at h
    cases hI : c.Insert nd fuel k data size with
    | error e => rw [hI] at h; simp at h
    | ok r =>
      rw [hI] at h
      simp only [Except.ok.injEq, Prod.mk.injEq] at h
      rw [← h.1]
      exact Insert_keeps nd fuel c r.2 k data size r.1 key val lba h0 hI
  | lookup k =>
    simp only [BlockCacheImpl.call] at h
    cases hL : c.Lookup nd k with
    | error e => rw [hL] at h; simp at h
    | ok r =>
      rw [hL] at h
      simp only [Except.ok.injEq, Prod.mk.injEq] at h
      rw [← h.1, Lookup_frame nd c k r hL]
      exact keeps_congr c _ key val lba rfl rfl rfl rfl h0
  | erase k =>
    simp only [BlockCacheImpl.call] at h
    cases hE : c.Erase nd k with
    | error e => rw [hE] at h; simp at h
    | ok r =>
      rw [hE] at h
      simp only [Except.ok.injEq, Prod.mk.injEq] at h
      rw [← h.1]
      exact Erase_keeps nd c r.2 k r.1 key val lba (fun e => hop (by rw [e])) h0 hE
  | reserve size =>
    simp only [BlockCacheImpl.call] at h
    cases hR : c.Reserve nd size with
    | error e => rw [hR] at h; simp at h
    | ok r =>
      rw [hR] at h
      simp only [Except.ok.injEq, Prod.mk.injEq] at h
      rw [← h.1]
      exact Reserve_keeps nd c size r key val lba h0 hR (by rw [h.2]; exact hne)

theorem run_keeps (nd : Bool) (key val : Slice) (lba : LBA) : ∀ (ops : List Call)
    (c c2 : BlockCacheImpl) (ev : List WriteableCacheFile),
    (∀ op ∈ ops, op ≠ Call.erase key) → BlockCacheImpl.run nd ops c = Except.ok (c2, ev) →
    (∀ g ∈ ev, g.cache_id_ ≠ lba.cache_id_) →
    c.stores key val lba ∧ c.infosOwned ∧ c.fileOpen →
    c2.stores key val lba ∧ c2.infosOwned ∧ c2.fileOpen := by
  intro ops
  induction ops with
  | nil =>
    intro c c2 ev _ h _ h0
    simp only [BlockCacheImpl.run, Except.ok.injEq, Prod.mk.injEq] at h
    rw [← h.1]
    exact h0
  | cons op rest ih =>
    intro c c2 ev hops h hne h0
    simp only [BlockCacheImpl.run] at h
    cases hc : c.call nd op with
    | error e => rw [hc] at h; simp at h
    | ok r =>
      obtain ⟨c1, ev1⟩ := r
      rw [hc] at h
      simp only at h
      cases hr : BlockCacheImpl.run nd rest c1 with
      | error e => rw [hr] at h; simp at h
      | ok r2 =>
        obtain ⟨c3, ev2⟩ := r2
        rw [hr] at h
        simp only [Except.ok.injEq, Prod.mk.injEq] at h
        obtain ⟨h1, h2⟩ := h
        subst h1; subst h2
        have k1 := call_keeps nd c c1 op ev1 key val lba (hops op (List.mem_cons_self _ _)) hc
          (fun g hg => hne g (List.mem_append_left _ hg)) h0
        exact ih c1 c3 ev2 (fun o ho => hops o (List.mem_cons_of_mem _ ho)) hr
          (fun g hg => hne g (List.mem_append_right _ hg)) k1

/-! ## Lemmas on the flusher -/

/-- A record that parses has the length of its address. -/
theorem ParseRec_length (lba : LBA) (scratch : Slice) (r : Slice × Slice)
    (h : ParseRec lba scratch = some r) : scratch.length = lba.size_ := by
  unfold ParseRec at h
  simp only at h
  split at h
  · rename_i hc; exact hc.1
  · simp at h

/-- A successful read from the resident buffers stays within them. -/
theorem ReadBuffer_some (b : CacheWriteBuffer) (rest : List CacheWriteBuffer) (off size : Nat)
    (s : Slice) (h : ReadBuffer (b :: rest) off size = some s) :
    (off < b.data_.length ∧ off + size ≤ b.data_.length ∧ s = (b.data_.drop off).take size) ∨
    (b.data_.length ≤ off ∧ ReadBuffer rest (off - b.data_.length) size = some s) := by
  simp only [ReadBuffer] at h
  by_cases h1 : off < b.data_.length
  · rw [if_pos h1] at h
    by_cases h2 : off + size ≤ b.data_.length
    · rw [if_pos h2] at h
      simp only [Option.some.injEq] at h
      exact Or.inl ⟨h1, h2, h.symm⟩
    · rw [if_neg h2] at h
      simp at h
  · rw [if_neg h1] at h
    exact Or.inr ⟨Nat.le_of_not_lt h1, h⟩

/-- A step of the flusher keeps every record of the file readable, from the disk
now if it was in the buffer written, when the file is `synced` and the filesystem
does not fail to read it. -/
theorem Flush_Read (env : Env) (f f1 : WriteableCacheFile) (now : Nat) (lba : LBA)
    (r : Slice × Slice) (hs : f.synced)
    (henv : env.read_fails_.contains f.cache_id_ = false)
    (hF : f.Flush now = some f1) (hr : f.Read env lba = some r) :
    f1.Read env lba = some r := by
  obtain ⟨s1, s2, s3, s4⟩ := hs
  unfold WriteableCacheFile.Flush at hF
  cases hb : f.bufs_ with
  | nil => rw [hb] at hF; simp at hF
  | cons b rest =>
    rw [hb] at hF
    simp only at hF
    split at hF
    · simp only [Option.some.injEq] at hF
      have hbb : bufBytes f.bufs_ = b.data_.length + bufBytes rest := by
        rw [hb]; simp [bufBytes]
      have hw : wrap32 (f.disk_woff_ + b.data_.length) = f.disk_woff_ + b.data_.length := by
        unfold wrap32
        exact Nat.mod_eq_of_lt (by omega)
      rw [hw] at hF
      subst hF
      simp only [WriteableCacheFile.Read, RandomAccessCacheFile.Read, WriteableCacheFile.ReadImpl,
        hb, List.isEmpty_cons, Bool.and_false, Bool.false_eq_true, if_false] at hr
      simp only [WriteableCacheFile.Read, RandomAccessCacheFile.Read,
        WriteableCacheFile.ReadImpl]
      by_cases ho : lba.off_ < f.disk_woff_
      · rw [if_pos ho] at hr
        have ho2 : lba.off_ < f.disk_woff_ + b.data_.length := by omega
        simp only [diskRead, henv, Bool.false_eq_true, if_false] at hr ⊢
        by_cases hl : ((f.disk_.drop lba.off_).take lba.size_).length = lba.size_
        · rw [if_pos hl] at hr
          have hle : lba.off_ + lba.size_ ≤ f.disk_.length := by
            simp only [List.length_take, List.length_drop] at hl
            omega
          have e : ((f.disk_ ++ b.data_).drop lba.off_).take lba.size_
              = (f.disk_.drop lba.off_).take lba.size_ := by
            rw [List.drop_append_of_le_length (by omega), List.take_append_of_le_length]
            simp only [List.length_drop]
            omega
          rw [e, if_pos hl, if_pos ho2]
          simp only [if_pos hl, ite_self]
          exact hr
        · rw [if_neg hl] at hr
          simp at hr
      · rw [if_neg ho] at hr
        cases hrb : ReadBuffer (b :: rest) (lba.off_ - f.disk_woff_) lba.size_ with
        | none => rw [hrb] at hr; simp at hr
        | some s =>
          rw [hrb] at hr
          simp only at hr
          have hlen := ParseRec_length lba s r hr
          rcases ReadBuffer_some b rest _ _ s hrb with ⟨h1, h2, h3⟩ | ⟨h1, h2⟩
          · have ho2 : lba.off_ < f.disk_woff_ + b.data_.length := by omega
            have e : ((f.disk_ ++ b.data_).drop lba.off_).take lba.size_ = s := by
              rw [h3, List.drop_append_eq_append_drop,
                List.drop_eq_nil_of_le (by omega), List.nil_append, s1]
            simp only [diskRead, henv, Bool.false_eq_true, if_false, if_pos ho2, e, if_pos hlen,
              ite_self]
            exact hr
          · have ho2 : ¬ lba.off_ < f.disk_woff_ + b.data_.length := by omega
            have hne : rest ≠ [] := by
              intro h0
              rw [h0] at h2
              simp [ReadBuffer] at h2
            have hemp : rest.isEmpty = false := by
              cases rest with
              | nil => exact absurd rfl hne
              | cons _ _ => rfl
            have e : lba.off_ - (f.disk_woff_ + b.data_.length)
                = lba.off_ - f.disk_woff_ - b.data_.length := by omega
            simp only [hemp, Bool.and_false, Bool.false_eq_true, if_false, if_neg ho2, e, h2]
            exact hr
    · simp at hF

/-- A rejected `Append` leaves the size of the file and the bytes in its buffers. -/
theorem Append_none (f f1 : WriteableCacheFile) (alloc a1 : CacheWriteBufferAllocator)
    (key val : Slice) (h : f.Append alloc key val = (none, f1, a1)) :
    f1.size_ = f.size_ ∧ bufBytes f1.bufs_ = bufBytes f.bufs_ := by
  unfold WriteableCacheFile.Append at h
  simp only at h
  split at h
  · simp only [Prod.mk.injEq, true_and] at h
    rw [← h.1]
    exact ⟨rfl, rfl⟩
  · unfold WriteableCacheFile.ExpandBuffer at h
    by_cases hroom : tailHasRoom f.bufs_ (recordSize key val) = true
    · rw [if_pos hroom] at h
      simp only at h
      split at h <;> simp at h
    · rw [if_neg hroom] at h
      unfold CacheWriteBufferAllocator.Allocate at h
      by_cases hfree : alloc.free_ = 0
      · rw [if_pos hfree] at h
        simp only [Prod.mk.injEq, true_and] at h
        rw [← h.1]
        exact ⟨rfl, rfl⟩
      · rw [if_neg hfree] at h
        simp only at h
        by_cases hfit : recordSize key val ≤ alloc.buffer_size_
        · simp only [hfit, decide_True] at h
          split at h <;> simp at h
        · simp only [hfit, decide_False, Prod.mk.injEq, true_and] at h
          rw [← h.1]
          exact ⟨rfl, bufBytes_append_empty _ _⟩

/-- `Append`, whatever its result, keeps a file `synced`. -/
theorem Append_synced (f : WriteableCacheFile) (alloc : CacheWriteBufferAllocator)
    (key val : Slice) (hs : f.synced) : (f.Append alloc key val).2.1.synced := by
  obtain ⟨s1, s2, s3, s4⟩ := hs
  obtain ⟨_, e2, e3, _, e5, _⟩ := Append_frame f alloc key val
  rcases hA : f.Append alloc key val with ⟨r, f1, a1⟩
  rw [hA] at e2 e3 e5
  simp only at e2 e3 e5 ⊢
  cases r with
  | none =>
    obtain ⟨n1, n2⟩ := Append_none f f1 alloc a1 key val hA
    exact ⟨by rw [e2, e3]; exact s1, by rw [n1, n2, e3]; exact s2, by rw [n1, e5]; exact s3,
      by rw [e5]; exact s4⟩
  | some lba =>
    obtain ⟨bufs1, hne, hsum, _, hfit, _, hb, hsz, _, _, _, _, _, _, _, _⟩ :=
      Append_some f f1 alloc a1 key val lba hA
    refine ⟨by rw [e2, e3]; exact s1, ?_, by rw [hsz, e5]; exact hfit, by rw [e5]; exact s4⟩
    rw [hsz, hb, e3, bufBytes_writeTail _ _ hne, hsum, encodeRecord_length]
    omega

/-- A file made by the constructor with a `uint32_t` size is `synced`. -/
theorem new_synced (cache_id max_size : Nat) :
    (WriteableCacheFile.new cache_id (wrap32 max_size)).synced := by
  refine ⟨rfl, rfl, Nat.zero_le _, ?_⟩
  exact Nat.mod_lt _ (by norm_num)

/-- A step of the flusher keeps a file `synced`. -/
theorem Flush_synced (f f1 : WriteableCacheFile) (now : Nat) (hs : f.synced)
    (hF : f.Flush now = some f1) : f1.synced := by
  obtain ⟨s1, s2, s3, s4⟩ := hs
  unfold WriteableCacheFile.Flush at hF
  cases hb : f.bufs_ with
  | nil => rw [hb] at hF; simp at hF
  | cons b rest =>
    rw [hb] at hF
    simp only at hF
    split at hF
    · simp only [Option.some.injEq] at hF
      have hbb : bufBytes f.bufs_ = b.data_.length + bufBytes rest := by
        rw [hb]; simp [bufBytes]
      have hw : wrap32 (f.disk_woff_ + b.data_.length) = f.disk_woff_ + b.data_.length := by
        unfold wrap32
        exact Nat.mod_eq_of_lt (by omega)
      rw [hw] at hF
      subst hF
      refine ⟨?_, ?_, s3, s4⟩
      · simp only [List.length_append]; omega
      · simp only; omega
    · simp at hF

/-- What a step of the flusher leaves alone. -/
theorem Flush_frame (f f1 : WriteableCacheFile) (now : Nat) (hF : f.Flush now = some f1) :
    f1.cache_id_ = f.cache_id_ ∧ f1.eof_ = f.eof_ ∧ f1.block_infos_ = f.block_infos_ ∧
    f1.refs_ = f.refs_ ∧ f1.size_ = f.size_ ∧ f1.max_size_ = f.max_size_ := by
  unfold WriteableCacheFile.Flush at hF
  cases hb : f.bufs_ with
  | nil => rw [hb] at hF; simp at hF
  | cons b rest =>
    rw [hb] at hF
    simp only at hF
    split at hF
    · simp only [Option.some.injEq] at hF
      subst hF
      exact ⟨rfl, rfl, rfl, rfl, rfl, rfl⟩
    · simp at hF

/-- The files stay `synced` when `cacheFile_` is replaced by a `synced` file. -/
theorem filesSynced_setFile (c c1 : BlockCacheImpl) (f1 : WriteableCacheFile)
    (h : c.filesSynced) (hcf1 : c1.cacheFile_ = some f1) (hf1 : f1.synced)
    (hidx : c1.metadata_.cache_file_index_ = c.metadata_.cache_file_index_) :
    c1.filesSynced := by
  unfold BlockCacheImpl.filesSynced at h ⊢
  rw [hidx, hcf1]
  exact ⟨h.1, hf1⟩

/-- The file that `cacheFile_` points to is `synced` when the files are. -/
theorem filesSynced_current (c : BlockCacheImpl) (f : WriteableCacheFile)
    (h : c.filesSynced) (hcf : c.cacheFile_ = some f) : f.synced := by
  unfold BlockCacheImpl.filesSynced at h
  rw [hcf] at h
  exact h.2

/-- `NewCacheFile` keeps the files `synced`. -/
theorem NewCacheFile_filesSynced (nd : Bool) (c c2 : BlockCacheImpl)
    (h : c.filesSynced) (hN : c.NewCacheFile nd = Except.ok c2) : c2.filesSynced := by
  obtain ⟨index, status, hidx, _, _, hc2⟩ := NewCacheFile_ok nd c c2 hN
  subst hc2
  unfold BlockCacheImpl.filesSynced at h ⊢
  simp only
  refine ⟨?_, new_synced _ _⟩
  intro g hg
  rw [hidx] at hg
  cases hcf : c.cacheFile_ with
  | none => rw [hcf] at hg; exact h.1 g hg
  | some f =>
    rw [hcf] at hg h
    simp only at hg h
    split at hg
    · rcases List.mem_append.1 hg with hg | hg
      · exact h.1 g hg
      · simp only [List.mem_singleton] at hg
        rw [hg]; exact h.2
    · exact h.1 g hg

/-- The loop of `InsertImpl` keeps the files `synced`. -/
theorem appendLoop_filesSynced (nd : Bool) (key data : Slice) (fuel : Nat)
    (c : BlockCacheImpl) (r : Option LBA) (c1 : BlockCacheImpl)
    (h : c.filesSynced)
    (hL : BlockCacheImpl.appendLoop nd key data fuel c = Except.ok (r, c1)) :
    c1.filesSynced ∧ c1.cacheFile_.isSome = true := by
  obtain ⟨n, c0, f, f1, a1, hP, hcf, hA, _, hc1⟩ :=
    appendLoop_last nd key data (fun _ c' => c'.filesSynced)
      (by
        intro n c' f' f1' a1' c2' hP' hcf' hA' _ hN'
        have hs := Append_synced f' c'.bufferAllocator_ key data
          (filesSynced_current c' f' hP' hcf')
        rw [hA'] at hs
        exact NewCacheFile_filesSynced nd _ c2'
          (filesSynced_setFile c' { c' with cacheFile_ := some f1', bufferAllocator_ := a1' }
            f1' hP' rfl hs rfl) hN')
      fuel c r c1 h hL
  have hs := Append_synced f c0.bufferAllocator_ key data (filesSynced_current c0 f hP hcf)
  rw [hA] at hs
  subst hc1
  exact ⟨filesSynced_setFile c0 _ f1 hP rfl hs rfl, rfl⟩

/-- `InsertImpl` keeps the files `synced`. -/
theorem InsertImpl_filesSynced (nd : Bool) (fuel : Nat) (c c1 : BlockCacheImpl)
    (key buf : Slice) (size : Nat) (st : Status) (hs : c.filesSynced)
    (h : c.InsertImpl nd fuel key buf size = Except.ok (st, c1)) : c1.filesSynced := by
  unfold BlockCacheImpl.InsertImpl at h
  rw [check_eq_ok, check_eq_ok] at h
  obtain ⟨_, _, h⟩ := h
  cases hLk : c.metadata_.Lookup key with
  | some l0 =>
    rw [hLk] at h
    simp only [Except.ok.injEq, Prod.mk.injEq] at h
    rw [← h.2]
    exact hs
  | none =>
    rw [hLk] at h
    simp only at h
    cases hL : BlockCacheImpl.appendLoop nd key (buf.take size) fuel c with
    | error e => rw [hL] at h; simp at h
    | ok r =>
      obtain ⟨r1, cL⟩ := r
      obtain ⟨g1, g4⟩ := appendLoop_filesSynced nd key (buf.take size) fuel c r1 cL hs hL
      rw [hL] at h
      cases r1 with
      | none =>
        simp only [Except.ok.injEq, Prod.mk.injEq] at h
        rw [← h.2]
        exact g1
      | some lba =>
        simp only at h
        obtain ⟨g, hg⟩ := Option.isSome_iff_exists.1 g4
        rw [hg] at h
        simp only at h
        rw [check_eq_ok] at h
        obtain ⟨_, h⟩ := h
        simp only [Except.ok.injEq, Prod.mk.injEq] at h
        rw [← h.2]
        have hm := (Insert_meta cL.metadata_ { key_ := key, lba_ := lba }).1
        exact filesSynced_setFile cL _ (g.Add { key_ := key, lba_ := lba }) g1 rfl
          (filesSynced_current cL g g1 hg) hm

/-- `Insert` keeps the files `synced`. -/
theorem Insert_filesSynced (nd : Bool) (fuel : Nat) (c c1 : BlockCacheImpl)
    (key data : Slice) (size : Nat) (st : Status) (hs : c.filesSynced)
    (h : c.Insert nd fuel key data size = Except.ok (st, c1)) : c1.filesSynced := by
  unfold BlockCacheImpl.Insert at h
  simp only at h
  cases hp : c.opt_.pipeline_writes_ with
  | true =>
    rw [hp] at h
    simp only [if_true, Except.ok.injEq, Prod.mk.injEq] at h
    rw [← h.2]
    exact hs
  | false =>
    rw [hp] at h
    simp only [Bool.false_eq_true, if_false] at h
    rw [check_eq_ok] at h
    exact InsertImpl_filesSynced nd fuel
      { c with stats_ := { c.stats_ with
          bytes_pipelined_ := c.stats_.bytes_pipelined_ ++ [size] } }
      c1 key _ size st hs h.2

/-- Evictions leave files of the file index. -/
theorem evictAll_subset : ∀ (fs : List WriteableCacheFile) (m m1 : BlockCacheMetadata),
    evictAll m fs = some m1 → ∀ g ∈ m1.cache_file_index_, g ∈ m.cache_file_index_ := by
  intro fs
  induction fs with
  | nil =>
    intro m m1 h g hg
    simp only [evictAll, Option.some.injEq] at h
    rw [h]; exact hg
  | cons f rest ih =>
    intro m m1 h g hg
    unfold evictAll at h
    cases hE : m.Evict with
    | none => rw [hE] at h; simp at h
    | some p =>
      obtain ⟨g2, m2⟩ := p
      rw [hE] at h
      simp only at h
      split at h
      · have h2 := (Evict_some m m2 g2 hE).2.1
        have := ih m2 m1 h g hg
        rw [h2] at this
        exact List.mem_of_mem_erase this
      · simp at h

/-- `Reserve` keeps the files `synced`. -/
theorem Reserve_filesSynced (nd : Bool) (c : BlockCacheImpl) (size : Nat) (r : Reserved)
    (hs : c.filesSynced) (h : c.Reserve nd size = Except.ok r) : r.cache.filesSynced := by
  have key1 : ∃ fs, r.evicted = [] ++ fs ∧ evictAll c.metadata_ fs = some r.cache.metadata_ ∧
      r.cache = { c with metadata_ := r.cache.metadata_, size_ := r.cache.size_ } := by
    unfold BlockCacheImpl.Reserve at h
    rw [check_eq_ok] at h
    obtain ⟨_, h⟩ := h
    split at h
    · simp only [Except.ok.injEq] at h
      subst h
      exact ⟨[], rfl, rfl, rfl⟩
    · rw [check_eq_ok] at h
      exact reserveLoop_frame nd size _ c [] r h.2
  obtain ⟨fs, _, h2, h3⟩ := key1
  have hsub := evictAll_subset fs c.metadata_ r.cache.metadata_ h2
  rw [h3]
  unfold BlockCacheImpl.filesSynced at hs ⊢
  exact ⟨fun g hg => hs.1 g (hsub g hg), hs.2⟩

/-- Every call of the facade keeps the files `synced`. -/
theorem call_filesSynced (nd : Bool) (c c1 : BlockCacheImpl) (op : Call)
    (ev : List WriteableCacheFile) (hs : c.filesSynced)
    (h : c.call nd op = Except.ok (c1, ev)) : c1.filesSynced := by
  cases op with
  | insert k data size fuel =>
    simp only [BlockCacheImpl.call] at h
    cases hI : c.Insert nd fuel k data size with
    | error e => rw [hI] at h; simp at h
    | ok r =>
      rw [hI] at h
      simp only [Except.ok.injEq, Prod.mk.injEq] at h
      rw [← h.1]
      exact Insert_filesSynced nd fuel c r.2 k data size r.1 hs hI
  | lookup k =>
    simp only [BlockCacheImpl.call] at h
    cases hL : c.Lookup nd k with
    | error e => rw [hL] at h; simp at h
    | ok r =>
      rw [hL] at h
      simp only [Except.ok.injEq, Prod.mk.injEq] at h
      rw [← h.1, Lookup_frame nd c k r hL]
      exact hs
  | erase k =>
    simp only [BlockCacheImpl.call] at h
    cases hE : c.Erase nd k with
    | error e => rw [hE] at h; simp at h
    | ok r =>
      rw [hE] at h
      simp only [Except.ok.injEq, Prod.mk.injEq] at h
      rw [← h.1]
      unfold BlockCacheImpl.Erase BlockCacheMetadata.Remove at hE
      simp only at hE
      rw [check_eq_ok] at hE
      obtain ⟨_, hE⟩ := hE
      simp only [Except.ok.injEq] at hE
      rw [← hE]
      exact hs
  | reserve size =>
    simp only [BlockCacheImpl.call] at h
    cases hR : c.Reserve nd size with
    | error e => rw [hR] at h; simp at h
    | ok r =>
      rw [hR] at h
      simp only [Except.ok.injEq, Prod.mk.injEq] at h
      rw [← h.1]
      exact Reserve_filesSynced nd c size r hs hR

/-- The files of a list after `modifyFirst` are files of the list, one of them
changed by `g`. -/
theorem modifyFirst_mem (g : WriteableCacheFile → WriteableCacheFile) (cache_id : Nat) :
    ∀ (l : List WriteableCacheFile) (h : WriteableCacheFile), h ∈ modifyFirst g cache_id l →
      ∃ h0 ∈ l, h = h0 ∨ h = g h0 := by
  intro l
  induction l with
  | nil => intro h hh; simp [modifyFirst] at hh
  | cons a rest ih =>
    intro h hh
    simp only [modifyFirst] at hh
    split at hh
    · rcases List.mem_cons.1 hh with e | e
      · exact ⟨a, List.mem_cons_self _ _, Or.inr e⟩
      · exact ⟨h, List.mem_cons_of_mem _ e, Or.inl rfl⟩
    · rcases List.mem_cons.1 hh with e | e
      · exact ⟨a, List.mem_cons_self _ _, Or.inl e⟩
      · obtain ⟨h0, m0, e0⟩ := ih h e
        exact ⟨h0, List.mem_cons_of_mem _ m0, e0⟩

/-- The file found for another cache id is not the one that `modifyFirst` changes. -/
theorem find_modifyFirst_ne : ∀ (l : List WriteableCacheFile) (cache_id other : Nat)
    (g : WriteableCacheFile → WriteableCacheFile), (∀ f, (g f).cache_id_ = f.cache_id_) →
    other ≠ cache_id →
    (modifyFirst g cache_id l).find? (fun f => decide (f.cache_id_ = other))
      = l.find? (fun f => decide (f.cache_id_ = other)) := by
  intro l cache_id other g hg hne
  induction l with
  | nil => rfl
  | cons a rest ih =>
    simp only [modifyFirst]
    by_cases h : a.cache_id_ = cache_id
    · have h2 : ¬ a.cache_id_ = other := fun e => hne (e.symm.trans h)
      simp [h, hg, h2, hne.symm]
    · rw [if_neg h]
      by_cases h2 : a.cache_id_ = other
      · simp [List.find?, h2]
      · simp [List.find?, h2, ih]

/-- The state after `modifyFile`, by where the file index holds the file. -/
theorem modifyFile_eq (c : BlockCacheImpl) (cache_id : Nat)
    (g : WriteableCacheFile → WriteableCacheFile) :
    (∀ f0, c.metadata_.cache_file_index_.find? (fun f => decide (f.cache_id_ = cache_id))
        = some f0 →
      c.modifyFile cache_id g = { c with metadata_ := { c.metadata_ with
        cache_file_index_ := modifyFirst g cache_id c.metadata_.cache_file_index_ } }) ∧
    (c.metadata_.cache_file_index_.find? (fun f => decide (f.cache_id_ = cache_id)) = none →
      (∀ cur, c.cacheFile_ = some cur →
        (c.cacheFile_indexed_ = true ∧ cur.cache_id_ = cache_id) →
        c.modifyFile cache_id g = { c with cacheFile_ := some (g cur) }) ∧
      (∀ cur, c.cacheFile_ = some cur →
        ¬ (c.cacheFile_indexed_ = true ∧ cur.cache_id_ = cache_id) →
        c.modifyFile cache_id g = c) ∧
      (c.cacheFile_ = none → c.modifyFile cache_id g = c)) := by
  refine ⟨fun f0 hf => ?_, fun hf => ⟨fun cur hc hm => ?_, fun cur hc hm => ?_, fun hc => ?_⟩⟩
  · unfold BlockCacheImpl.modifyFile
    rw [hf]
  · unfold BlockCacheImpl.modifyFile
    rw [hf, hc]
    simp only
    rw [if_pos hm]
  · unfold BlockCacheImpl.modifyFile
    rw [hf, hc]
    simp only
    rw [if_neg hm]
  · unfold BlockCacheImpl.modifyFile
    rw [hf, hc]

/-- The file that the file index holds for a cache id after `modifyFile`: the one
held before, changed by `g` when it is the file of the cache id modified. -/
theorem findFile_modifyFile (c : BlockCacheImpl) (cache_id other : Nat)
    (g : WriteableCacheFile → WriteableCacheFile) (hg : ∀ f, (g f).cache_id_ = f.cache_id_) :
    (c.modifyFile cache_id g).findFile other
      = (c.findFile other).map (fun f => if other = cache_id then g f else f) := by
  obtain ⟨m1, m2⟩ := modifyFile_eq c cache_id g
  cases hf : c.metadata_.cache_file_index_.find? (fun f => decide (f.cache_id_ = cache_id)) with
  | some f0 =>
    rw [m1 f0 hf]
    unfold BlockCacheImpl.findFile
    simp only
    by_cases e : other = cache_id
    · subst e
      rw [find_modifyFirst _ _ _ hg, hf]
      simp
    · rw [find_modifyFirst_ne _ _ _ _ hg e]
      cases hf2 : c.metadata_.cache_file_index_.find?
          (fun f => decide (f.cache_id_ = other)) with
      | some f1 => simp [e]
      | none =>
        simp only
        cases hc : c.cacheFile_ with
        | none => simp
        | some cur =>
          simp only
          split <;> simp [e]
  | none =>
    obtain ⟨m3, m4, m5⟩ := m2 hf
    cases hc : c.cacheFile_ with
    | none =>
      rw [m5 hc]
      unfold BlockCacheImpl.findFile
      rw [hc]
      cases hf2 : c.metadata_.cache_file_index_.find?
          (fun f => decide (f.cache_id_ = other)) with
      | some f1 =>
        by_cases e : other = cache_id
        · rw [e, hf] at hf2; simp at hf2
        · simp [e]
      | none => simp
    | some cur =>
      by_cases hm : c.cacheFile_indexed_ = true ∧ cur.cache_id_ = cache_id
      · rw [m3 cur hc hm]
        unfold BlockCacheImpl.findFile
        rw [hc]
        simp only
        by_cases e : other = cache_id
        · subst e
          rw [hf]
          simp [hm.1, hm.2, hg]
        · cases hf2 : c.metadata_.cache_file_index_.find?
              (fun f => decide (f.cache_id_ = other)) with
          | some f1 => simp [e]
          | none =>
            have h3 : ¬ cur.cache_id_ = other := fun e2 => e (e2.symm.trans hm.2)
            simp [hg, h3]
      · rw [m4 cur hc hm]
        unfold BlockCacheImpl.findFile
        rw [hc]
        by_cases e : other = cache_id
        · subst e
          rw [hf]
          simp only
          rw [if_neg hm]
          rfl
        · cases hf2 : c.metadata_.cache_file_index_.find?
              (fun f => decide (f.cache_id_ = other)) with
          | some f1 => simp [e]
          | none =>
            simp only
            split <;> simp [e]

/-- What `modifyFile` leaves alone. -/
theorem modifyFile_frame (c : BlockCacheImpl) (cache_id : Nat)
    (g : WriteableCacheFile → WriteableCacheFile) :
    (c.modifyFile cache_id g).opt_ = c.opt_ ∧
    (c.modifyFile cache_id g).metadata_.block_index_ = c.metadata_.block_index_ ∧
    (c.modifyFile cache_id g).cacheFile_indexed_ = c.cacheFile_indexed_ ∧
    (c.modifyFile cache_id g).writerCacheId_ = c.writerCacheId_ ∧
    (c.modifyFile cache_id g).size_ = c.size_ := by
  unfold BlockCacheImpl.modifyFile
  split
  · exact ⟨rfl, rfl, rfl, rfl, rfl⟩
  · split
    · split <;> exact ⟨rfl, rfl, rfl, rfl, rfl⟩
    · exact ⟨rfl, rfl, rfl, rfl, rfl⟩

/-- A property of files that `g` keeps holds of every file after `modifyFile`. -/
theorem modifyFile_forall (c : BlockCacheImpl) (cache_id : Nat)
    (g : WriteableCacheFile → WriteableCacheFile) (P : WriteableCacheFile → Prop)
    (hP : ∀ f, P f → P (g f)) :
    ((∀ f ∈ c.metadata_.cache_file_index_, P f) →
      ∀ f ∈ (c.modifyFile cache_id g).metadata_.cache_file_index_, P f) ∧
    ((∀ f, c.cacheFile_ = some f → P f) →
      ∀ f, (c.modifyFile cache_id g).cacheFile_ = some f → P f) := by
  unfold BlockCacheImpl.modifyFile
  split
  · refine ⟨fun h f hf => ?_, fun h f hf => h f hf⟩
    obtain ⟨h0, m0, e0⟩ := modifyFirst_mem g cache_id _ f hf
    rcases e0 with e0 | e0
    · rw [e0]; exact h h0 m0
    · rw [e0]; exact hP h0 (h h0 m0)
  · split
    · rename_i cur hc
      split
      · refine ⟨fun h f hf => h f hf, fun h f hf => ?_⟩
        simp only [Option.some.injEq] at hf
        rw [← hf]
        exact hP cur (h cur hc)
      · exact ⟨fun h f hf => h f hf, fun h f hf => h f hf⟩
    · exact ⟨fun h f hf => h f hf, fun h f hf => h f hf⟩

/-- The step of the flusher on a file, or the file itself when there is nothing to
write, has the cache id of the file. -/
theorem flushOr_cache_id (now : Nat) (f : WriteableCacheFile) :
    ((f.Flush now).getD f).cache_id_ = f.cache_id_ := by
  cases hF : f.Flush now with
  | none => rfl
  | some f1 => exact (Flush_frame f f1 now hF).1

/-- A step of the flusher changes nothing or changes the file that the file index
holds for the cache id, and the allocator. -/
theorem Flush_cases (c : BlockCacheImpl) (cache_id now : Nat) :
    c.Flush cache_id now = c ∨
    c.Flush cache_id now =
      { c.modifyFile cache_id (fun g => (g.Flush now).getD g) with
        bufferAllocator_ := c.bufferAllocator_.Release } := by
  unfold BlockCacheImpl.Flush
  cases c.findFile cache_id with
  | none => exact Or.inl rfl
  | some f =>
    simp only
    cases f.Flush now with
    | none => exact Or.inl rfl
    | some f1 => exact Or.inr rfl

/-- A step of the flusher keeps a stored record stored, the per-file lists owned,
the current file open and the files `synced`, when the filesystem does not fail to
read the file of the record. -/
theorem Flush_keeps (c : BlockCacheImpl) (cache_id now : Nat) (key val : Slice) (lba : LBA)
    (henv : c.opt_.env.read_fails_.contains lba.cache_id_ = false)
    (h0 : c.stores key val lba ∧ c.infosOwned ∧ c.fileOpen ∧ c.filesSynced) :
    (c.Flush cache_id now).stores key val lba ∧ (c.Flush cache_id now).infosOwned ∧
      (c.Flush cache_id now).fileOpen ∧ (c.Flush cache_id now).filesSynced := by
  rcases Flush_cases c cache_id now with e | e
  · rw [e]; exact h0
  · rw [e]
    obtain ⟨⟨s1, fk, s2, s3⟩, hio, hopen, hsync⟩ := h0
    obtain ⟨m1, m2, m3, _, _⟩ :=
      modifyFile_frame c cache_id (fun g => (g.Flush now).getD g)
    have hff := findFile_modifyFile c cache_id lba.cache_id_
      (fun g => (g.Flush now).getD g) (flushOr_cache_id now)
    have hfk : fk.cache_id_ = lba.cache_id_ := by
      unfold BlockCacheImpl.findFile at s2
      cases hf : c.metadata_.cache_file_index_.find?
          (fun f => decide (f.cache_id_ = lba.cache_id_)) with
      | some g =>
        rw [hf] at s2
        simp only [Option.some.injEq] at s2
        subst s2
        have := List.find?_some hf
        simpa using this
      | none =>
        rw [hf] at s2
        simp only at s2
        cases hc : c.cacheFile_ with
        | none => rw [hc] at s2; simp at s2
        | some cur =>
          rw [hc] at s2
          simp only at s2
          split at s2
          · rename_i hm
            simp only [Option.some.injEq] at s2
            subst s2
            exact hm.2
          · simp at s2
    have hfks : fk.synced := by
      unfold BlockCacheImpl.filesSynced at hsync
      unfold BlockCacheImpl.findFile at s2
      cases hf : c.metadata_.cache_file_index_.find?
          (fun f => decide (f.cache_id_ = lba.cache_id_)) with
      | some g =>
        rw [hf] at s2
        simp only [Option.some.injEq] at s2
        subst s2
        exact hsync.1 _ (List.mem_of_find?_eq_some hf)
      | none =>
        rw [hf] at s2
        simp only at s2
        cases hc : c.cacheFile_ with
        | none => rw [hc] at s2; simp at s2
        | some cur =>
          rw [hc] at s2 hsync
          simp only at s2 hsync
          split at s2
          · simp only [Option.some.injEq] at s2
            subst s2
            exact hsync.2
          · simp at s2
    have hall := fun (P : WriteableCacheFile → Prop)
        (hP : ∀ f, P f → P ((f.Flush now).getD f)) =>
      modifyFile_forall c cache_id (fun g => (g.Flush now).getD g) P hP
    refine ⟨⟨?_, ?_⟩, ?_, ?_, ?_⟩
    · show (c.modifyFile cache_id _).metadata_.block_index_.find? _ = _
      rw [m2]; exact s1
    · show ∃ f, (c.modifyFile cache_id _).findFile lba.cache_id_ = some f ∧
        f.Read (c.modifyFile cache_id _).opt_.env lba = some (key, val)
      rw [hff, s2, m1]
      refine ⟨_, rfl, ?_⟩
      simp only
      split
      · cases hF : fk.Flush now with
        | none => exact s3
        | some f1 =>
          simp only [Option.getD_some]
          exact Flush_Read c.opt_.env fk f1 now lba _ hfks (by rw [hfk]; exact henv) hF s3
      · exact s3
    · have hP : ∀ f : WriteableCacheFile,
          (∀ i ∈ f.block_infos_, i.lba_.cache_id_ = f.cache_id_) →
          ∀ i ∈ ((f.Flush now).getD f).block_infos_,
            i.lba_.cache_id_ = ((f.Flush now).getD f).cache_id_ := by
        intro f hf
        cases hF : f.Flush now with
        | none => exact hf
        | some f1 =>
          obtain ⟨g1, _, g3, _⟩ := Flush_frame f f1 now hF
          simp only [Option.getD_some]
          rw [g1, g3]
          exact hf
      obtain ⟨a1, a2⟩ := hall _ hP
      unfold BlockCacheImpl.infosOwned at hio ⊢
      refine ⟨a1 hio.1, ?_⟩
      show match (c.modifyFile cache_id _).cacheFile_ with
        | none => True
        | some f => ∀ i ∈ f.block_infos_, i.lba_.cache_id_ = f.cache_id_
      cases hc2 : (c.modifyFile cache_id (fun g => (g.Flush now).getD g)).cacheFile_ with
      | none => trivial
      | some f2 =>
        refine a2 (fun f hf => ?_) f2 hc2
        rw [hf] at hio
        exact hio.2
    · have hP : ∀ f : WriteableCacheFile, f.eof_ = false →
          ((f.Flush now).getD f).eof_ = false := by
        intro f hf
        cases hF : f.Flush now with
        | none => exact hf
        | some f1 =>
          simp only [Option.getD_some]
          rw [(Flush_frame f f1 now hF).2.1]
          exact hf
      obtain ⟨_, a2⟩ := hall _ hP
      unfold BlockCacheImpl.fileOpen at hopen ⊢
      show match (c.modifyFile cache_id _).cacheFile_ with
        | none => True
        | some f => f.eof_ = false
      cases hc2 : (c.modifyFile cache_id (fun g => (g.Flush now).getD g)).cacheFile_ with
      | none => trivial
      | some f2 =>
        refine a2 (fun f hf => ?_) f2 hc2
        rw [hf] at hopen
        exact hopen
    · have hP : ∀ f : WriteableCacheFile, f.synced → ((f.Flush now).getD f).synced := by
        intro f hf
        cases hF : f.Flush now with
        | none => exact hf
        | some f1 =>
          simp only [Option.getD_some]
          exact Flush_synced f f1 now hf hF
      obtain ⟨a1, a2⟩ := hall _ hP
      unfold BlockCacheImpl.filesSynced at hsync ⊢
      refine ⟨a1 hsync.1, ?_⟩
      show match (c.modifyFile cache_id _).cacheFile_ with
        | none => True
        | some f => f.synced
      cases hc2 : (c.modifyFile cache_id (fun g => (g.Flush now).getD g)).cacheFile_ with
      | none => trivial
      | some f2 =>
        refine a2 (fun f hf => ?_) f2 hc2
        rw [hf] at hsync
        exact hsync.2

/-- A step other than the erase of the key, evicting no file of the cache id of the
record, keeps a stored record stored. -/
theorem step_keeps (nd : Bool) (c c1 : BlockCacheImpl) (s : Step)
    (ev : List WriteableCacheFile) (key val : Slice) (lba : LBA)
    (henv : c.opt_.env.read_fails_.contains lba.cache_id_ = false)
    (hop : s ≠ Step.call (Call.erase key)) (h : c.step nd s = Except.ok (c1, ev))
    (hne : ∀ g ∈ ev, g.cache_id_ ≠ lba.cache_id_)
    (h0 : c.stores key val lba ∧ c.infosOwned ∧ c.fileOpen ∧ c.filesSynced) :
    c1.stores key val lba ∧ c1.infosOwned ∧ c1.fileOpen ∧ c1.filesSynced := by
  cases s with
  | call op =>
    simp only [BlockCacheImpl.step] at h
    obtain ⟨k1, k2, k3⟩ := call_keeps nd c c1 op ev key val lba
      (fun e => hop (by rw [e])) h hne ⟨h0.1, h0.2.1, h0.2.2.1⟩
    exact ⟨k1, k2, k3, call_filesSynced nd c c1 op ev h0.2.2.2 h⟩
  | flush cache_id now =>
    simp only [BlockCacheImpl.step, Except.ok.injEq, Prod.mk.injEq] at h
    rw [← h.1]
    exact Flush_keeps c cache_id now key val lba henv h0

/-- The options of the cache do not change in `InsertImpl`. -/
theorem InsertImpl_opt (nd : Bool) (fuel : Nat) (c c1 : BlockCacheImpl) (key buf : Slice)
    (size : Nat) (st : Status)
    (h : c.InsertImpl nd fuel key buf size = Except.ok (st, c1)) : c1.opt_ = c.opt_ := by
  unfold BlockCacheImpl.InsertImpl at h
  rw [check_eq_ok, check_eq_ok] at h
  obtain ⟨_, _, h⟩ := h
  cases hLk : c.metadata_.Lookup key with
  | some l0 =>
    rw [hLk] at h
    simp only [Except.ok.injEq, Prod.mk.injEq] at h
    rw [← h.2]
  | none =>
    rw [hLk] at h
    simp only at h
    cases hL : BlockCacheImpl.appendLoop nd key (buf.take size) fuel c with
    | error e => rw [hL] at h; simp at h
    | ok q =>
      obtain ⟨ra, cl⟩ := q
      rw [hL] at h
      obtain ⟨n, c0, f, f1, a1, hP, _, _, _, hcl⟩ :=
        appendLoop_last nd key (buf.take size) (fun _ c' => c'.opt_ = c.opt_)
          (by
            intro n c' f f1 a1 c2 hP _ _ _ hN
            obtain ⟨_, _, _, _, _, hc2⟩ := NewCacheFile_ok _ _ _ hN
            rw [hc2]
            exact hP)
          fuel c ra cl rfl hL
      have hcl2 : cl.opt_ = c.opt_ := by rw [hcl]; exact hP
      cases ra with
      | none =>
        simp only [Except.ok.injEq, Prod.mk.injEq] at h
        rw [← h.2]
        exact hcl2
      | some lba1 =>
        simp only at h
        cases hcf : cl.cacheFile_ with
        | none => rw [hcf] at h; simp at h
        | some g =>
          rw [hcf] at h
          simp only at h
          rw [check_eq_ok] at h
          obtain ⟨_, h⟩ := h
          simp only [Except.ok.injEq, Prod.mk.injEq] at h
          rw [← h.2]
          exact hcl2

/-- The options of the cache do not change in a call of the facade. -/
theorem call_opt (nd : Bool) (c c1 : BlockCacheImpl) (op : Call)
    (ev : List WriteableCacheFile) (h : c.call nd op = Except.ok (c1, ev)) :
    c1.opt_ = c.opt_ := by
  cases op with
  | insert k data size fuel =>
    simp only [BlockCacheImpl.call] at h
    cases hI : c.Insert nd fuel k data size with
    | error e => rw [hI] at h; simp at h
    | ok r =>
      rw [hI] at h
      simp only [Except.ok.injEq, Prod.mk.injEq] at h
      rw [← h.1]
      unfold BlockCacheImpl.Insert at hI
      simp only at hI
      cases hp : c.opt_.pipeline_writes_ with
      | true =>
        rw [hp] at hI
        simp only [if_true, Except.ok.injEq] at hI
        rw [← hI]
      | false =>
        rw [hp] at hI
        simp only [Bool.false_eq_true, if_false] at hI
        rw [check_eq_ok] at hI
        exact InsertImpl_opt nd fuel
          { c with stats_ := { c.stats_ with
              bytes_pipelined_ := c.stats_.bytes_pipelined_ ++ [size] } }
          r.2 k (data.take size) size r.1 hI.2
  | lookup k =>
    simp only [BlockCacheImpl.call] at h
    cases hL : c.Lookup nd k with
    | error e => rw [hL] at h; simp at h
    | ok r =>
      rw [hL] at h
      simp only [Except.ok.injEq, Prod.mk.injEq] at h
      rw [← h.1, Lookup_frame nd c k r hL]
  | erase k =>
    simp only [BlockCacheImpl.call] at h
    cases hE : c.Erase nd k with
    | error e => rw [hE] at h; simp at h
    | ok r =>
      rw [hE] at h
      simp only [Except.ok.injEq, Prod.mk.injEq] at h
      rw [← h.1]
      unfold BlockCacheImpl.Erase BlockCacheMetadata.Remove at hE
      simp only at hE
      rw [check_eq_ok] at hE
      obtain ⟨_, hE⟩ := hE
      simp only [Except.ok.injEq] at hE
      rw [← hE]
  | reserve size =>
    simp only [BlockCacheImpl.call] at h
    cases hR : c.Reserve nd size with
    | error e => rw [hR] at h; simp at h
    | ok r =>
      rw [hR] at h
      simp only [Except.ok.injEq, Prod.mk.injEq] at h
      rw [← h.1]
      have key1 : ∃ fs, r.evicted = [] ++ fs ∧
          evictAll c.metadata_ fs = some r.cache.metadata_ ∧
          r.cache = { c with metadata_ := r.cache.metadata_, size_ := r.cache.size_ } := by
        unfold BlockCacheImpl.Reserve at hR
        rw [check_eq_ok] at hR
        obtain ⟨_, hR⟩ := hR
        split at hR
        · simp only [Except.ok.injEq] at hR
          subst hR
          exact ⟨[], rfl, rfl, rfl⟩
        · rw [check_eq_ok] at hR
          exact reserveLoop_frame nd size _ c [] r hR.2
      obtain ⟨_, _, _, h3⟩ := key1
      rw [h3]

/-- The options of the cache do not change in a step. -/
theorem step_opt (nd : Bool) (c c1 : BlockCacheImpl) (s : Step)
    (ev : List WriteableCacheFile) (h : c.step nd s = Except.ok (c1, ev)) :
    c1.opt_ = c.opt_ := by
  cases s with
  | call op => exact call_opt nd c c1 op ev h
  | flush cache_id now =>
    simp only [BlockCacheImpl.step, Except.ok.injEq, Prod.mk.injEq] at h
    rw [← h.1]
    rcases Flush_cases c cache_id now with e | e
    · rw [e]
    · rw [e]
      exact (modifyFile_frame c cache_id _).1

/-- A sequence of steps that does not erase the key and evicts no file of the cache
id of the record keeps a stored record stored. -/
theorem steps_keeps (nd : Bool) (key val : Slice) (lba : LBA) : ∀ (ss : List Step)
    (c c2 : BlockCacheImpl) (ev : List WriteableCacheFile),
    c.opt_.env.read_fails_.contains lba.cache_id_ = false →
    (∀ s ∈ ss, s ≠ Step.call (Call.erase key)) →
    BlockCacheImpl.steps nd ss c = Except.ok (c2, ev) →
    (∀ g ∈ ev, g.cache_id_ ≠ lba.cache_id_) →
    c.stores key val lba ∧ c.infosOwned ∧ c.fileOpen ∧ c.filesSynced →
    c2.stores key val lba ∧ c2.infosOwned ∧ c2.fileOpen ∧ c2.filesSynced := by
  intro ss
  induction ss with
  | nil =>
    intro c c2 ev _ _ h _ h0
    simp only [BlockCacheImpl.steps, Except.ok.injEq, Prod.mk.injEq] at h
    rw [← h.1]
    exact h0
  | cons s rest ih =>
    intro c c2 ev henv hops h hne h0
    simp only [BlockCacheImpl.steps] at h
    cases hc : c.step nd s with
    | error e => rw [hc] at h; simp at h
    | ok r =>
      obtain ⟨c1, ev1⟩ := r
      rw [hc] at h
      simp only at h
      cases hr : BlockCacheImpl.steps nd rest c1 with
      | error e => rw [hr] at h; simp at h
      | ok r2 =>
        obtain ⟨c3, ev2⟩ := r2
        rw [hr] at h
        simp only [Except.ok.injEq, Prod.mk.injEq] at h
        obtain ⟨h1, h2⟩ := h
        subst h1; subst h2
        have k1 := step_keeps nd c c1 s ev1 key val lba henv
          (hops s (List.mem_cons_self _ _)) hc
          (fun g hg => hne g (List.mem_append_left _ hg)) h0
        have hopt := step_opt nd c c1 s ev1 hc
        exact ih c1 c3 ev2 (by rw [hopt]; exact henv)
          (fun o ho => hops o (List.mem_cons_of_mem _ ho)) hr
          (fun g hg => hne g (List.mem_append_right _ hg)) k1

/-! ## Claim on the round trip -/

/-- `Lookup` returns the same flag and value whatever the counters of `stats_` are. -/
theorem Lookup_stats (nd : Bool) (c : BlockCacheImpl) (st : Stats) (key : Slice) :
    ((BlockCacheImpl.Lookup nd { c with stats_ := st } key).map (fun r => (r.1, r.2.1)))
      = ((c.Lookup nd key).map (fun r => (r.1, r.2.1))) := by
  cases h1 : c.metadata_.Lookup key with
  | none =>
    rw [Lookup_absent nd c key h1, Lookup_absent nd _ key (by simpa using h1)]
    rfl
  | some lba =>
    cases h2 : c.findFile lba.cache_id_ with
    | none =>
      unfold BlockCacheImpl.Lookup BlockCacheImpl.LookupFile
      have h2b : BlockCacheImpl.findFile { c with stats_ := st } lba.cache_id_ = none := h2
      simp only [h1, h2, h2b]
      rfl
    | some f =>
      have h2b : BlockCacheImpl.findFile { c with stats_ := st } lba.cache_id_ = some f := h2
      cases h3 : f.Read c.opt_.env lba with
      | none =>
        rw [Lookup_read_failure nd c key lba f h1 h2 h3,
          Lookup_read_failure nd _ key lba f (by simpa using h1) h2b h3]
        cases nd <;> rfl
      | some kv =>
        obtain ⟨k, v⟩ := kv
        have hr : f.ref.Read c.opt_.env lba = some (k, v) := by
          rw [Read_congr c.opt_.env f f.ref lba rfl rfl rfl rfl rfl, h3]
        unfold BlockCacheImpl.Lookup BlockCacheImpl.LookupFile
        simp only [h1, h2, h2b, hr]
        unfold check
        cases nd <;> by_cases hk : k = key <;> simp [hk, WriteableCacheFile.ref] <;> rfl

/-- C3, as the claim states it, fails when assertions are compiled out and the
files of the index hold more bytes than `size_` counts. On `slackCache`, where
`size_ = 10 <= cache_size = 100` and the two files hold 30 and 40 bytes, a request of
200 bytes evicts the file of 30 bytes, and `size_ -= file_size` wraps to
`2 ^ 64 - 20`; the file of 40 bytes follows, no file is left, and `Reserve` returns
false with `size_ = 2 ^ 64 - 60`, far above `cache_size`. With assertions on the
call stops at line 234 and does not return. -/
theorem C3_reserve_preserves_budget_counterexample :
    slackCache.size_ ≤ slackCache.opt_.cache_size ∧
    fileBytes slackCache.metadata_.cache_file_index_ = 70 ∧
    slackCache.Reserve true 200 = Except.ok
      { admitted := false,
        cache := { slackCache with
                   size_ := 2 ^ 64 - 60,
                   metadata_ := { block_index_ := [], cache_file_index_ := [] } },
        evicted := [demoFile 1 30 1, demoFile 2 40 2] } ∧
    ¬ (2 ^ 64 - 60 ≤ slackCache.opt_.cache_size) ∧
    slackCache.Reserve false 200 = Except.error (Abort.assertion 234) := by
  refine ⟨by decide, by decide, by rfl, by decide, by rfl⟩

/-- C3, amended: `Reserve` preserves the budget invariant. For every state with
`size_ <= cache_size` and every requested size, the loop of `Reserve` ends (every
turn takes a file out of the index) and after `Reserve` returns, with true or with
false, `size_ <= cache_size` still holds, when assertions are on or the files of
the index hold at most `size_` bytes, which line 234 asserts. -/
theorem C3_reserve_preserves_budget (ndebug : Bool) (c : BlockCacheImpl) (size : Nat)
    (hcs : c.opt_.cache_size < 2 ^ 64)
    (hfit : ndebug = false ∨ fileBytes c.metadata_.cache_file_index_ ≤ c.size_)
    (hinv : c.size_ ≤ c.opt_.cache_size) :
    c.Reserve ndebug size ≠ Except.error Abort.diverged ∧
    ∀ r, c.Reserve ndebug size = Except.ok r →
      r.cache.opt_ = c.opt_ ∧ r.cache.size_ ≤ r.cache.opt_.cache_size := by
  constructor
  · intro h
    unfold BlockCacheImpl.Reserve at h
    have h := check_diverged _ _ _ _ h
    split at h
    · simp at h
    · have h := check_diverged _ _ _ _ h
      exact reserveLoop_total _ _ _ _ _ (Nat.lt_succ_self _) h
  · intro r hret
    by_cases hfast : wrap64 (size + c.size_) ≤ c.opt_.cache_size
    · rw [Reserve_fast ndebug c size hinv hfast] at hret
      simp only [Except.ok.injEq] at hret
      subst hret
      refine ⟨rfl, ?_⟩
      simpa [Nat.add_comm] using hfast
    · have hloop := Reserve_slow ndebug c size r (by omega) hret
      obtain ⟨fs, _, _, h3, h4, h5, h6, _⟩ :=
        reserveLoop_spec ndebug size _ c [] r (by omega) hfit hloop
      have hopt : r.cache.opt_ = c.opt_ := by rw [h3]
      refine ⟨hopt, ?_⟩
      rw [hopt]
      cases hadm : r.admitted with
      | false =>
        rw [hadm] at h5
        simp only [Bool.false_eq_true, if_false] at h5
        omega
      | true =>
        obtain ⟨ha, _, hc⟩ := h6 hadm
        rw [hadm] at h5
        simp only [if_true] at h5
        rw [debited_eq_fileBytes _ _ ha] at h5
        have e : wrap64 (size + (c.size_ - fileBytes fs)) = r.cache.size_ := by
          rw [h5, Nat.add_comm]
        rw [e] at hc
        refine le_of_not_exceeds90 _ _ ?_ hcs hc
        rw [h5]
        exact Nat.mod_lt _ (by norm_num)

/-- C3 at `demoCache` with a request of 20 bytes, which evicts one file, with
assertions on and with assertions compiled out, where the two files of the index
hold 70 of the 95 bytes reserved. -/
theorem C3_reserve_preserves_budget_witness :
    (demoCache.Reserve false 20 ≠ Except.error Abort.diverged ∧
      ∀ r, demoCache.Reserve false 20 = Except.ok r →
        r.cache.opt_ = demoCache.opt_ ∧ r.cache.size_ ≤ r.cache.opt_.cache_size) ∧
    fileBytes demoCache.metadata_.cache_file_index_ ≤ demoCache.size_ ∧
    (demoCache.Reserve true 20 ≠ Except.error Abort.diverged ∧
      ∀ r, demoCache.Reserve true 20 = Except.ok r →
        r.cache.opt_ = demoCache.opt_ ∧ r.cache.size_ ≤ r.cache.opt_.cache_size) :=
  ⟨C3_reserve_preserves_budget false demoCache 20 (by decide) (Or.inl rfl) (by decide),
    by decide,
    C3_reserve_preserves_budget true demoCache 20 (by decide) (Or.inr (by decide))
      (by decide)⟩

/-- C4: the fast path of `Reserve`. Whenever `size_ + size <= cache_size`,
`Reserve(size)` returns true, `size_` grows by exactly `size`, and nothing else
changes: no file is evicted or deleted. -/
theorem C4_reserve_fast_path (ndebug : Bool) (c : BlockCacheImpl) (size : Nat)
    (hcs : c.opt_.cache_size < 2 ^ 64)
    (hfast : c.size_ + size ≤ c.opt_.cache_size) :
    c.Reserve ndebug size = Except.ok
      { admitted := true, cache := { c with size_ := c.size_ + size }, evicted := [] } := by
  have e : wrap64 (c.size_ + size) = c.size_ + size := Nat.mod_eq_of_lt (by omega)
  have h := Reserve_fast ndebug c size (by omega)
    (by rw [Nat.add_comm, e]; exact hfast)
  rw [e] at h
  exact h

/-- C4 at `demoCache` with a request of 5 bytes. -/
theorem C4_reserve_fast_path_witness :
    demoCache.Reserve false 5 = Except.ok
      { admitted := true, cache := { demoCache with size_ := demoCache.size_ + 5 },
        evicted := [] } :=
  C4_reserve_fast_path false demoCache 5 (by decide) (by decide)

/-- The sum `size + size_` is a `size_t`: with `size_ = 95` and `cache_size = 100` a
request of `2 ^ 64 - 1` bytes makes it 94, so the fast-path test succeeds, the
request is admitted without an eviction and `size_` becomes 94. -/
theorem Reserve_wraps :
    demoCache.Reserve false (2 ^ 64 - 1) = Except.ok
      { admitted := true, cache := { demoCache with size_ := 94 }, evicted := [] } :=
  Reserve_fast false demoCache (2 ^ 64 - 1) (by decide) (by decide)

/-! ## Lemmas on a cache of many files -/

/-- The bytes on disk of a `bulkFile`. -/
theorem bulkFile_disk (i : Nat) : (bulkFile i).disk_.length = 4294967295 := by
  simp only [bulkFile, List.length_replicate]

/-- The time at which a `bulkFile` was made read-only. -/
theorem bulkFile_finalized (i : Nat) : (bulkFile i).finalized_ = some (i + 1) := by
  simp only [bulkFile]

/-- The cache id of a `bulkFile`. -/
theorem bulkFile_cache_id (i : Nat) : (bulkFile i).cache_id_ = i + 1 := by
  simp only [bulkFile, WriteableCacheFile.new]

/-- A `bulkFile` has no reader. -/
theorem bulkFile_refs (i : Nat) : (bulkFile i).refs_ = 0 := by
  simp only [bulkFile, WriteableCacheFile.new]

/-- A `bulkFile` has no block info. -/
theorem bulkFile_infos (i : Nat) : (bulkFile i).block_infos_ = [] := by
  simp only [bulkFile, WriteableCacheFile.new]

/-- Among files finalized one after the other the victim is the first. -/
theorem victim_bulk : ∀ (n j : Nat),
    victim ((List.range' j (n + 1)).map bulkFile) = some (bulkFile j) := by
  intro n
  induction n with
  | zero =>
    intro j
    simp only [List.range', List.map, victim, bulkFile_finalized, Option.isSome_some, if_true]
  | succ n ih =>
    intro j
    have e : (List.range' j (n + 1 + 1)).map bulkFile
        = bulkFile j :: (List.range' (j + 1) (n + 1)).map bulkFile := by
      rw [List.range'_succ, List.map_cons]
    rw [e, victim, ih (j + 1)]
    simp only [evictsBefore, bulkFile_finalized, bulkFile_cache_id]
    rw [if_pos]
    simp

/-- The bytes of the files of a list of `bulkFile`s. -/
theorem fileBytes_bulk : ∀ (n j : Nat),
    fileBytes ((List.range' j n).map bulkFile) = n * 4294967295 := by
  intro n
  induction n with
  | zero => intro j; simp [fileBytes]
  | succ n ih =>
    intro j
    have e : (List.range' j (n + 1)).map bulkFile
        = bulkFile j :: (List.range' (j + 1) n).map bulkFile := by
      rw [List.range'_succ, List.map_cons]
    have := ih (j + 1)
    unfold fileBytes at this ⊢
    rw [e, List.map_cons, List.sum_cons, this, bulkFile_disk]
    omega

set_option maxRecDepth 100000 in
/-- For a cache of 2251799813685251 bytes the comparison `x > cache_size * 0.9` on
`double` is `x > 2026619832316726`. -/
theorem exceeds90_wide (x : Nat) (hx : x < 2 ^ 53) :
    exceeds90 x 2251799813685251 = decide (2026619832316726 < x) := by
  have e : roundToDouble (roundToDouble 2251799813685251 * dbl_0_9)
      = 2026619832316726 * 2 ^ 53 := by decide
  unfold exceeds90
  rw [e, roundToDouble_exact x hx]
  congr 1
  apply propext
  constructor
  · intro h; exact Nat.lt_of_mul_lt_mul_right h
  · intro h; exact Nat.mul_lt_mul_of_pos_right h (by norm_num)

/-- The first eviction from a file index of `bulkFile`s takes the first of them. -/
theorem Evict_bulk (n j : Nat) :
    BlockCacheMetadata.Evict
        { block_index_ := [], cache_file_index_ := (List.range' j (n + 1)).map bulkFile }
      = some (bulkFile j,
          { block_index_ := [], cache_file_index_ := (List.range' (j + 1) n).map bulkFile }) := by
  unfold BlockCacheMetadata.Evict
  simp only
  rw [victim_bulk]
  simp only [List.filter_nil]
  rw [List.range'_succ, List.map_cons, List.erase_cons_head]

/-- The loop of `Reserve` on a file index of `n` files of 4294967295 bytes, in a
cache of 2251799813685251 bytes: when `size + size_` is 2026619832316726 after the
`n` evictions, the loop evicts the `n` files and admits the request. -/
theorem reserveLoop_bulk (nd : Bool) (size : Nat) : ∀ (n j s : Nat) (c : BlockCacheImpl)
    (ev : List WriteableCacheFile),
    c.opt_.env = demoEnv → c.opt_.cache_size = 2251799813685251 →
    c.metadata_ = { block_index_ := [], cache_file_index_ := (List.range' j n).map bulkFile } →
    c.size_ = s → size + s < 2 ^ 53 → n * 4294967295 ≤ s →
    size + s = 2026619832316726 + n * 4294967295 →
    BlockCacheImpl.reserveLoop nd size (n + 1) c ev = Except.ok
      { admitted := true,
        cache := { c with metadata_ := { block_index_ := [], cache_file_index_ := [] },
                          size_ := s - n * 4294967295 + size },
        evicted := ev ++ (List.range' j n).map bulkFile } := by
  intro n
  induction n with
  | zero =>
    intro j s c ev henv hcs hm hs h53 hle hsum
    have hw : wrap64 (size + c.size_) = size + s := by
      rw [hs]; unfold wrap64
      exact Nat.mod_eq_of_lt (lt_trans h53 (by norm_num))
    have hw2 : wrap64 (c.size_ + size) = size + s := by rw [Nat.add_comm]; exact hw
    have hx : exceeds90 (size + s) 2251799813685251 = false := by
      rw [exceeds90_wide _ h53]
      simp only [decide_eq_false_iff_not]
      omega
    rw [BlockCacheImpl.reserveLoop, hw, hcs, hx]
    simp only [Bool.false_eq_true, if_false]
    rw [check_pass nd 239 _ _ (Or.inr (by rw [hw2, hcs, hx]; rfl))]
    have e1 : s - 0 * 4294967295 + size = size + s := by omega
    rw [hw2, e1]
    have hm0 : c.metadata_ = { block_index_ := [], cache_file_index_ := [] } := by
      rw [hm]; rfl
    simp only [List.range', List.map_nil, List.append_nil]
    rw [hm0]
  | succ n ih =>
    intro j s c ev henv hcs hm hs h53 hle hsum
    have hw : wrap64 (size + c.size_) = size + s := by
      rw [hs]; unfold wrap64
      exact Nat.mod_eq_of_lt (lt_trans h53 (by norm_num))
    have hx : exceeds90 (size + s) 2251799813685251 = true := by
      rw [exceeds90_wide _ h53]
      simp only [decide_eq_true_eq]
      omega
    rw [BlockCacheImpl.reserveLoop, hw, hcs, hx]
    simp only [if_true]
    rw [hm, Evict_bulk]
    simp only
    rw [check_pass nd 227 _ _ (Or.inr (by rw [bulkFile_refs]; rfl))]
    have hD : (bulkFile j).Delete c.opt_.env = some 4294967295 := by
      unfold WriteableCacheFile.Delete
      rw [henv, bulkFile_disk]
      rfl
    rw [hD]
    simp only
    rw [check_pass nd 234 _ _ (Or.inr (by rw [hs]; exact decide_eq_true (by omega)))]
    have hsz : wrap64 (c.size_ + 2 ^ 64 - wrap64 4294967295) = s - 4294967295 := by
      rw [hs]
      unfold wrap64
      norm_num
      omega
    have hstep := ih (j + 1) (s - 4294967295)
      { c with
        metadata_ := { block_index_ := [],
                       cache_file_index_ := (List.range' (j + 1) n).map bulkFile },
        size_ := wrap64 (c.size_ + 2 ^ 64 - wrap64 4294967295) }
      (ev ++ [bulkFile j]) henv hcs rfl hsz (by omega) (by omega) (by omega)
    have e1 : s - 4294967295 - n * 4294967295 + size = s - (n + 1) * 4294967295 + size := by
      omega
    rw [e1] at hstep
    rw [hstep, List.range'_succ, List.map_cons, List.append_assoc, List.singleton_append]

/-- `Reserve` of 858941030 bytes on `bulkCache` evicts the 52429 files and admits
the request with 2026619832316726 bytes reserved. -/
theorem Reserve_bulk (nd : Bool) :
    bulkCache.Reserve nd 858941030 = Except.ok
      { admitted := true,
        cache := { bulkCache with
                   metadata_ := { block_index_ := [], cache_file_index_ := [] },
                   size_ := 2026619832316726 },
        evicted := (List.range' 0 52429).map bulkFile } := by
  have hs : bulkCache.size_ = 2251799813685251 := rfl
  have hcs : bulkCache.opt_.cache_size = 2251799813685251 := rfl
  have hm : bulkCache.metadata_ =
      { block_index_ := [], cache_file_index_ := (List.range' 0 52429).map bulkFile } := rfl
  have hw : wrap64 (858941030 + bulkCache.size_) = 2251800672626281 := by
    rw [hs]; decide
  have hidx : bulkCache.metadata_.cache_file_index_ = (List.range' 0 52429).map bulkFile := by
    rw [hm]
  have hlen : bulkCache.metadata_.cache_file_index_.length + 1 = 52429 + 1 := by
    rw [hidx, List.length_map, List.length_range']
  have hloop := reserveLoop_bulk nd 858941030 52429 0 2251799813685251 bulkCache [] rfl hcs hm hs
    (by norm_num) (by norm_num) (by norm_num)
  have e1 : 2251799813685251 - 52429 * 4294967295 + 858941030 = 2026619832316726 := by
    norm_num
  rw [e1, List.nil_append] at hloop
  unfold BlockCacheImpl.Reserve
  rw [check_pass nd 209 _ _ (Or.inr (by rw [hs, hcs]; decide)), hw, hcs,
    if_neg (by norm_num), check_pass nd 217 _ _ (Or.inr (by decide)), hlen]
  exact hloop


/-- The double comparison is not the exact one for very large caches: for a cache
of 2251799813685251 bytes, `x > cache_size * 0.9` is false at
`x = 2026619832316726` although `x` exceeds nine tenths of the cache size. -/
theorem exceeds90_not_exact :
    exceeds90 2026619832316726 2251799813685251 = false ∧
    9 * 2251799813685251 < 10 * 2026619832316726 := by
  decide

/-- C6: `Reserve` reports full when nothing can be evicted. In any turn of the loop
in which `size + size_ > cache_size * 0.9` holds and `Evict` finds no file, the
loop returns false at once and leaves the state, `size_` included, as it is; in
particular a call that takes the slow path with no evictable file returns false
and does not change the cache. -/
theorem C6_reserve_full (ndebug : Bool) (c : BlockCacheImpl) (size : Nat)
    (hover : exceeds90 (wrap64 (size + c.size_)) c.opt_.cache_size = true)
    (hnone : c.metadata_.Evict = none) :
    (∀ fuel ev, BlockCacheImpl.reserveLoop ndebug size (fuel + 1) c ev
      = Except.ok { admitted := false, cache := c, evicted := ev }) ∧
    (c.size_ ≤ c.opt_.cache_size → c.opt_.cache_size < wrap64 (size + c.size_) →
      c.Reserve ndebug size = Except.ok { admitted := false, cache := c, evicted := [] }) := by
  have hloop : ∀ fuel ev, BlockCacheImpl.reserveLoop ndebug size (fuel + 1) c ev
      = Except.ok { admitted := false, cache := c, evicted := ev } := by
    intro fuel ev
    rw [BlockCacheImpl.reserveLoop, if_pos hover, hnone]
  refine ⟨hloop, ?_⟩
  intro hinv hslow
  unfold BlockCacheImpl.Reserve check
  simp only [hinv, decide_True, Bool.or_true, if_true, Nat.le_of_lt hslow,
    if_neg (Nat.not_le.2 hslow)]
  exact hloop _ _

/-- C6 at `bareCache`: 115 bytes do not fit and there is no file to evict. -/
theorem C6_reserve_full_witness :
    bareCache.Reserve false 20
      = Except.ok { admitted := false, cache := bareCache, evicted := [] } :=
  (C6_reserve_full false bareCache 20 (by decide) (by decide)).2 (by decide) (by decide)

theorem find_filter_not (key : Slice) : ∀ (l : List BlockInfo),
    (l.filter (fun i => !decide (i.key_ = key))).find? (fun i => decide (i.key_ = key)) = none := by
  intro l
  induction l with
  | nil => rfl
  | cons a rest ih =>
    by_cases h : a.key_ = key
    · simp [List.filter, h, ih]
    · simp [List.filter, h, List.find?, ih]

/-- C8: `Erase` is visible at once. For every key of the key index, `Erase(key)`
returns true and removes the entries of the key; a `Lookup(key)` right after it
returns false and leaves the state as it is, so no file was looked up or read and
no counter moved. -/
theorem C8_erase_visible (ndebug : Bool) (c : BlockCacheImpl) (key : Slice) (lba : LBA)
    (h : c.metadata_.Lookup key = some lba) :
    c.Erase ndebug key = Except.ok (true,
      { c with metadata_ := { c.metadata_ with
          block_index_ := c.metadata_.block_index_.filter (fun i => !decide (i.key_ = key)) } }) ∧
    ∀ c1, c.Erase ndebug key = Except.ok (true, c1) →
      c1.metadata_.Lookup key = none ∧ c1.Lookup ndebug key = Except.ok (false, none, c1) := by
  have hE : c.Erase ndebug key = Except.ok (true,
      { c with metadata_ := { c.metadata_ with
          block_index_ := c.metadata_.block_index_.filter (fun i => !decide (i.key_ = key)) } }) := by
    unfold BlockCacheMetadata.Lookup at h
    cases hf : c.metadata_.block_index_.find? (fun i => decide (i.key_ = key)) with
    | none => rw [hf] at h; simp at h
    | some i =>
      unfold BlockCacheImpl.Erase BlockCacheMetadata.Remove check
      simp [hf]
  refine ⟨hE, ?_⟩
  intro c1 h1
  rw [hE] at h1
  simp only [Except.ok.injEq, Prod.mk.injEq, true_and] at h1
  subst h1
  have hL : BlockCacheMetadata.Lookup
      { c.metadata_ with
        block_index_ := c.metadata_.block_index_.filter (fun i => !decide (i.key_ = key)) } key
      = none := by
    unfold BlockCacheMetadata.Lookup
    simp only [find_filter_not, Option.map_none']
  exact ⟨hL, Lookup_absent _ _ _ hL⟩

/-- C8 at `damagedCache`, whose key index holds the key `[1]`. -/
theorem C8_erase_visible_witness :
    damagedCache.Erase false [1] = Except.ok (true,
      { damagedCache with metadata_ := { damagedCache.metadata_ with
          block_index_ := damagedCache.metadata_.block_index_.filter
            (fun i => !decide (i.key_ = [1])) } }) ∧
    ∀ c1, damagedCache.Erase false [1] = Except.ok (true, c1) →
      c1.metadata_.Lookup [1] = none ∧ c1.Lookup false [1] = Except.ok (false, none, c1) :=
  C8_erase_visible false damagedCache [1] { cache_id_ := 1, off_ := 0, size_ := 13 } (by decide)

/-- C9, as the claim states it, fails with assertions on: in `damagedCache` the
entry of the key `[1]` resolves to the file of cache id 1, which is in the file
index, `Read` fails there, and `Lookup` stops at the assertion of line 162 instead
of returning false. -/
theorem C9_read_failure_counterexample :
    damagedCache.metadata_.Lookup [1] = some { cache_id_ := 1, off_ := 0, size_ := 13 } ∧
    damagedCache.findFile 1 = some (demoFile 1 30 1) ∧
    (demoFile 1 30 1).Read damagedCache.opt_.env { cache_id_ := 1, off_ := 0, size_ := 13 }
      = none ∧
    damagedCache.Lookup false [1] = Except.error (Abort.assertion 162) := by
  refine ⟨by decide, by decide, by decide, by rfl⟩

/-- C9, amended: a read failure is a miss when assertions are compiled out, and the
assertion of line 162 when they are on. For every key whose index entry resolves to
a file of the file index on which `Read` fails, `Lookup` with `NDEBUG` returns
false, hands out no value, counts one cache miss and changes nothing else; without
`NDEBUG` it stops at `assert(!"Unexpected error looking up cache")`. -/
theorem C9_read_failure (ndebug : Bool) (c : BlockCacheImpl) (key : Slice) (lba : LBA)
    (f : WriteableCacheFile)
    (h1 : c.metadata_.Lookup key = some lba) (h2 : c.findFile lba.cache_id_ = some f)
    (h3 : f.Read c.opt_.env lba = none) :
    c.Lookup ndebug key =
      (if ndebug then Except.ok (false, none,
          { c with stats_ := { c.stats_ with cache_misses_ := c.stats_.cache_misses_ + 1 } })
       else Except.error (Abort.assertion 162)) :=
  Lookup_read_failure ndebug c key lba f h1 h2 h3

/-- C9 at `damagedCache` with assertions compiled out: a counted miss. -/
theorem C9_read_failure_witness :
    damagedCache.Lookup true [1] = Except.ok (false, none,
      { damagedCache with stats_ := { damagedCache.stats_ with
          cache_misses_ := damagedCache.stats_.cache_misses_ + 1 } }) :=
  C9_read_failure true damagedCache [1] { cache_id_ := 1, off_ := 0, size_ := 13 }
    (demoFile 1 30 1) (by decide) (by decide) (by decide)


/-- C10, as the claim states it, fails: in `bareCache` 95 of 100 bytes are reserved
and no file can be evicted, so `Reserve` reports full for the ten bytes of the
value and for the 23 bytes of the record; yet `Insert` without pipelining returns
OK, the key index gains the key at a record of the current file, and `size_` is
still 95: the bytes were accepted without a reservation. -/
theorem C10_capacity_counterexample :
    bareCache.opt_.pipeline_writes_ = false ∧
    bareCache.Reserve false 10
      = Except.ok { admitted := false, cache := bareCache, evicted := [] } ∧
    bareCache.Reserve false 23
      = Except.ok { admitted := false, cache := bareCache, evicted := [] } ∧
    ∃ c1, bareCache.Insert false 2 [1] [2, 2, 2, 2, 2, 2, 2, 2, 2, 2] 10
        = Except.ok (Status.OK, c1) ∧
      c1.metadata_.Lookup [1] = some { cache_id_ := 3, off_ := 0, size_ := 23 } ∧
      c1.size_ = 95 :=
  ⟨rfl, rfl, rfl, _, rfl, rfl, rfl⟩

/-- C10, amended: capacity is not enforced on insert. `Insert` never calls
`Reserve`: run on a state with any other `size_` and `cache_size` it returns the
same status and the same state up to these two values, and whenever it returns it
has left `size_` and `cache_size` as they were. -/
theorem C10_insert_ignores_budget (ndebug : Bool) (fuel : Nat) (c : BlockCacheImpl)
    (key data : Slice) (size reserved cache_size : Nat) :
    (c.withBudget reserved cache_size).Insert ndebug fuel key data size
      = (c.Insert ndebug fuel key data size).map
          (fun r => (r.1, r.2.withBudget reserved cache_size)) ∧
    ∀ st c1, c.Insert ndebug fuel key data size = Except.ok (st, c1) →
      c1.size_ = c.size_ ∧ c1.opt_.cache_size = c.opt_.cache_size := by
  refine ⟨Insert_withBudget ndebug fuel c key data size reserved cache_size, ?_⟩
  intro st c1 h
  have hc : c.withBudget c.size_ c.opt_.cache_size = c := rfl
  have h2 := Insert_withBudget ndebug fuel c key data size c.size_ c.opt_.cache_size
  rw [hc, h] at h2
  simp only [Except.map, Except.ok.injEq, Prod.mk.injEq, true_and] at h2
  constructor
  · rw [h2]; rfl
  · rw [h2]; rfl

/-- C10 at `bareCache`: the insert of the counterexample leaves `size_` at 95 and
gives the same status on an empty cache of the same budget. -/
theorem C10_insert_ignores_budget_witness :
    (∀ st c1, bareCache.Insert false 2 [1] [2, 2, 2, 2, 2, 2, 2, 2, 2, 2] 10
        = Except.ok (st, c1) →
      c1.size_ = 95 ∧ c1.opt_.cache_size = 100) ∧
    (bareCache.withBudget 0 100).Insert false 2 [1] [2, 2, 2, 2, 2, 2, 2, 2, 2, 2] 10
      = (bareCache.Insert false 2 [1] [2, 2, 2, 2, 2, 2, 2, 2, 2, 2] 10).map
          (fun r => (r.1, r.2.withBudget 0 100)) :=
  ⟨(C10_insert_ignores_budget false 2 bareCache [1] [2, 2, 2, 2, 2, 2, 2, 2, 2, 2] 10 0 100).2,
   (C10_insert_ignores_budget false 2 bareCache [1] [2, 2, 2, 2, 2, 2, 2, 2, 2, 2] 10 0 100).1⟩

/-! ## Lemmas on the loop of `InsertImpl` -/

/-- One turn of the loop of `InsertImpl` whose `Append` is rejected by a file that is
not at EOF: the loop ends with `TryAgain`. -/
theorem appendLoop_reject (nd : Bool) (key data : Slice) (fuel : Nat) (c : BlockCacheImpl)
    (f f1 : WriteableCacheFile) (a1 : CacheWriteBufferAllocator)
    (hcf : c.cacheFile_ = some f)
    (hA : f.Append c.bufferAllocator_ key data = (none, f1, a1)) (he : f1.Eof = false) :
    BlockCacheImpl.appendLoop nd key data (fuel + 1) c =
      Except.ok (none, { c with cacheFile_ := some f1, bufferAllocator_ := a1 }) := by
  simp only [BlockCacheImpl.appendLoop, hcf, hA, he, Bool.not_false, if_true]

/-- One turn of the loop of `InsertImpl` whose `Append` is rejected by a file at EOF:
`NewCacheFile` runs and the loop goes on with the new file. -/
theorem appendLoop_rotate (nd : Bool) (key data : Slice) (fuel : Nat) (c : BlockCacheImpl)
    (f f1 : WriteableCacheFile) (a1 : CacheWriteBufferAllocator)
    (hcf : c.cacheFile_ = some f)
    (hA : f.Append c.bufferAllocator_ key data = (none, f1, a1)) (he : f1.Eof = true) :
    BlockCacheImpl.appendLoop nd key data (fuel + 1) c =
      match BlockCacheImpl.NewCacheFile nd
          { c with cacheFile_ := some f1, bufferAllocator_ := a1 } with
      | Except.error e => Except.error e
      | Except.ok c2 => BlockCacheImpl.appendLoop nd key data fuel c2 := by
  simp only [BlockCacheImpl.appendLoop, hcf, hA, he, Bool.not_true, check, Bool.or_true,
    if_true]
  rfl

/-- One turn of the loop of `InsertImpl` whose `Append` is accepted. -/
theorem appendLoop_accept (nd : Bool) (key data : Slice) (fuel : Nat) (c : BlockCacheImpl)
    (f f1 : WriteableCacheFile) (a1 : CacheWriteBufferAllocator) (lba : LBA)
    (hcf : c.cacheFile_ = some f)
    (hA : f.Append c.bufferAllocator_ key data = (some lba, f1, a1)) :
    BlockCacheImpl.appendLoop nd key data (fuel + 1) c =
      Except.ok (some lba, { c with cacheFile_ := some f1, bufferAllocator_ := a1 }) := by
  simp only [BlockCacheImpl.appendLoop, hcf, hA]

/-- `InsertImpl` on a key that the key index does not hold, in terms of the loop. -/
theorem InsertImpl_absent (nd : Bool) (fuel : Nat) (c : BlockCacheImpl) (key buf : Slice)
    (size : Nat) (hsize : nd = true ∨ size ≠ 0) (hfile : c.cacheFile_.isSome = true)
    (hkey : c.metadata_.Lookup key = none) :
    c.InsertImpl nd fuel key buf size =
      match BlockCacheImpl.appendLoop nd key (buf.take size) fuel c with
      | Except.error e => Except.error e
      | Except.ok (none, c1) => Except.ok (Status.TryAgain, c1)
      | Except.ok (some lba, c1) =>
        match c1.cacheFile_ with
        | none => Except.error Abort.nullFile
        | some f =>
          check nd 124
            (({ c1 with cacheFile_ := some (f.Add { key_ := key, lba_ := lba }) } :
              BlockCacheImpl).metadata_.Insert { key_ := key, lba_ := lba }).1 <|
          Except.ok (Status.OK,
            { c1 with
              cacheFile_ := some (f.Add { key_ := key, lba_ := lba }),
              metadata_ := (c1.metadata_.Insert { key_ := key, lba_ := lba }).2,
              stats_ := { c1.stats_ with
                bytes_written_ := c1.stats_.bytes_written_ ++ [size] } }) := by
  have h96 : (nd || decide (size ≠ 0)) = true := by
    rcases hsize with h | h
    · simp [h]
    · simp [h]
  unfold BlockCacheImpl.InsertImpl
  simp only [check, h96, hfile, Bool.or_true, if_true, hkey]

theorem Lookup_of_block_index (m m2 : BlockCacheMetadata) (key : Slice)
    (h : m2.block_index_ = m.block_index_) : m2.Lookup key = m.Lookup key := by
  unfold BlockCacheMetadata.Lookup
  rw [h]

/-- What `NewCacheFile` leaves behind when it returns. -/
theorem NewCacheFile_file (nd : Bool) (c c2 : BlockCacheImpl)
    (h : c.NewCacheFile nd = Except.ok c2) :
    c2.cacheFile_ = some (WriteableCacheFile.new (wrap32 (c.writerCacheId_ + 1))
      (wrap32 c.opt_.cache_file_size)) ∧
    c2.writerCacheId_ = wrap32 (c.writerCacheId_ + 1) ∧
    c2.metadata_.block_index_ = c.metadata_.block_index_ ∧
    c2.opt_ = c.opt_ ∧ c2.bufferAllocator_ = c.bufferAllocator_ := by
  obtain ⟨index, status, _, _, _, hc2⟩ := NewCacheFile_ok nd c c2 h
  subst hc2
  exact ⟨rfl, rfl, rfl, rfl, rfl⟩

/-- `ExpandBuffer` leaves the cache id, the sizes and `eof_` of the file alone. -/
theorem ExpandBuffer_frame (f : WriteableCacheFile) (alloc : CacheWriteBufferAllocator)
    (needed : Nat) :
    (f.ExpandBuffer alloc needed).2.1.eof_ = f.eof_ ∧
    (f.ExpandBuffer alloc needed).2.1.cache_id_ = f.cache_id_ := by
  unfold WriteableCacheFile.ExpandBuffer
  split
  · exact ⟨rfl, rfl⟩
  · split <;> exact ⟨rfl, rfl⟩

/-- A file that has room for the record and has not refused an append does not
refuse this one for being full: when it rejects the record it is still not at EOF. -/
theorem Append_within (f : WriteableCacheFile) (alloc : CacheWriteBufferAllocator)
    (key val : Slice) (hfit : f.size_ + recordSize key val ≤ f.max_size_)
    (he : f.eof_ = false) :
    (f.Append alloc key val).1 = none → (f.Append alloc key val).2.1.Eof = false := by
  unfold WriteableCacheFile.Append
  simp only [if_neg (Nat.not_lt.2 hfit)]
  have hx := ExpandBuffer_frame f alloc (recordSize key val)
  rcases hE : f.ExpandBuffer alloc (recordSize key val) with ⟨ok, f1, a1⟩
  rw [hE] at hx
  cases ok with
  | false =>
    intro _
    simp only [WriteableCacheFile.Eof]
    rw [hx.1, he]
  | true =>
    simp only
    split <;> intro h <;> simp at h

theorem appendLoop_fuel (nd : Bool) (key data : Slice) :
    ∀ (fuel : Nat) (c : BlockCacheImpl) (r : Option LBA × BlockCacheImpl),
      BlockCacheImpl.appendLoop nd key data fuel c = Except.ok r →
      BlockCacheImpl.appendLoop nd key data (fuel + 1) c = Except.ok r := by
  intro fuel
  induction fuel with
  | zero => intro c r h; simp [BlockCacheImpl.appendLoop] at h
  | succ n ih =>
    intro c r h
    cases hcf : c.cacheFile_ with
    | none => simp [BlockCacheImpl.appendLoop, hcf] at h
    | some f =>
      rcases hA : f.Append c.bufferAllocator_ key data with ⟨res, f1, a1⟩
      cases res with
      | some lba =>
        rw [appendLoop_accept nd key data n c f f1 a1 lba hcf hA] at h
        rw [appendLoop_accept nd key data (n + 1) c f f1 a1 lba hcf hA]
        exact h
      | none =>
        cases he : f1.Eof with
        | false =>
          rw [appendLoop_reject nd key data n c f f1 a1 hcf hA he] at h
          rw [appendLoop_reject nd key data (n + 1) c f f1 a1 hcf hA he]
          exact h
        | true =>
          rw [appendLoop_rotate nd key data n c f f1 a1 hcf hA he] at h
          rw [appendLoop_rotate nd key data (n + 1) c f f1 a1 hcf hA he]
          cases hN : BlockCacheImpl.NewCacheFile nd
              { c with cacheFile_ := some f1, bufferAllocator_ := a1 } with
          | error e => rw [hN] at h; simp at h
          | ok c2 =>
            rw [hN] at h
            simp only at h ⊢
            exact ih c2 r h

theorem appendLoop_fuel_le (nd : Bool) (key data : Slice) (fuel : Nat) (c : BlockCacheImpl)
    (r : Option LBA × BlockCacheImpl)
    (h : BlockCacheImpl.appendLoop nd key data fuel c = Except.ok r) :
    ∀ fuel2, fuel ≤ fuel2 → BlockCacheImpl.appendLoop nd key data fuel2 c = Except.ok r := by
  intro fuel2 hle
  induction fuel2 with
  | zero =>
    have : fuel = 0 := by omega
    subst this; exact h
  | succ n ih =>
    rcases Nat.eq_or_lt_of_le hle with he | hlt
    · subst he; exact h
    · exact appendLoop_fuel nd key data n c r (ih (by omega))

/-- The index that `NewCacheFile` assigns: the file that `cacheFile_` pointed to
stays in it. -/
theorem fileIds_eq (c : BlockCacheImpl) :
    c.fileIds = (match c.cacheFile_ with
      | some old =>
        if c.cacheFile_indexed_ then c.metadata_.cache_file_index_ ++ [old]
        else c.metadata_.cache_file_index_
      | none => c.metadata_.cache_file_index_).map WriteableCacheFile.cache_id_ := by
  unfold BlockCacheImpl.fileIds
  cases c.cacheFile_ with
  | none => simp
  | some f =>
    cases c.cacheFile_indexed_ <;> simp

/-- `NewCacheFile` returns when its assertions hold: `Create` succeeds and the next
cache id is not in the file index. -/
theorem NewCacheFile_returns (nd : Bool) (c : BlockCacheImpl)
    (hnew : nd = true ∨
      ((WriteableCacheFile.new (wrap32 (c.writerCacheId_ + 1))
          (wrap32 c.opt_.cache_file_size)).Create c.opt_.env = true ∧
        wrap32 (c.writerCacheId_ + 1) ∉ c.fileIds)) :
    ∃ c2, c.NewCacheFile nd = Except.ok c2 := by
  unfold BlockCacheImpl.NewCacheFile
  simp only
  have h199 : nd = true ∨ (WriteableCacheFile.new (wrap32 (c.writerCacheId_ + 1))
      (wrap32 c.opt_.cache_file_size)).Create c.opt_.env = true :=
    hnew.imp id (fun h => h.1)
  have h204 : nd = true ∨ ((match c.cacheFile_ with
        | some old =>
          if c.cacheFile_indexed_ then c.metadata_.cache_file_index_ ++ [old]
          else c.metadata_.cache_file_index_
        | none => c.metadata_.cache_file_index_).all
          (fun g => !decide (g.cache_id_ = wrap32 (c.writerCacheId_ + 1)))) = true := by
    refine hnew.imp id (fun h => ?_)
    have h2 := h.2
    rw [fileIds_eq] at h2
    rw [List.all_eq_true]
    intro g hg
    simp only [Bool.not_eq_true', decide_eq_false_iff_not]
    intro heq
    exact h2 (heq ▸ List.mem_map_of_mem _ hg)
  rw [check_pass nd 199 _ _ h199]
  exact ⟨_, check_pass nd 204 _ _ h204⟩

/-- The number of files in the file index grows by at most one in `NewCacheFile`. -/
theorem NewCacheFile_fileIds (nd : Bool) (c c2 : BlockCacheImpl)
    (h : c.NewCacheFile nd = Except.ok c2) :
    c2.fileIds.length ≤ c.fileIds.length + 1 := by
  obtain ⟨index, status, hidx, _, _, hc2⟩ := NewCacheFile_ok nd c c2 h
  have h1 : c.fileIds.length = index.length := by
    rw [fileIds_eq, List.length_map]
    exact congrArg List.length hidx.symm
  rw [h1]
  subst hc2
  simp only [BlockCacheImpl.fileIds, List.length_append, List.length_map]
  cases status <;> simp

theorem fileIds_length_setFile (c : BlockCacheImpl) (f f1 : WriteableCacheFile)
    (a1 : CacheWriteBufferAllocator) (hcf : c.cacheFile_ = some f) :
    ({ c with cacheFile_ := some f1, bufferAllocator_ := a1 } : BlockCacheImpl).fileIds.length
      = c.fileIds.length := by
  simp only [BlockCacheImpl.fileIds, hcf, List.length_append]
  cases c.cacheFile_indexed_ <;> simp

/-- With a record that fits a cache file, two turns of the loop of `InsertImpl` are
enough: the second `Append` goes to a new file, which has room for the record. -/
theorem appendLoop_two (nd : Bool) (key data : Slice) (c : BlockCacheImpl)
    (f : WriteableCacheFile) (hfile : c.cacheFile_ = some f)
    (hfit : recordSize key data ≤ c.opt_.cache_file_size)
    (hcfs : c.opt_.cache_file_size < 2 ^ 32)
    (hnew : nd = true ∨
      ((WriteableCacheFile.new (wrap32 (c.writerCacheId_ + 1))
          (wrap32 c.opt_.cache_file_size)).Create c.opt_.env = true ∧
        wrap32 (c.writerCacheId_ + 1) ∉ c.fileIds)) :
    ∃ r c1, BlockCacheImpl.appendLoop nd key data 2 c = Except.ok (r, c1) ∧
      c1.metadata_.block_index_ = c.metadata_.block_index_ ∧
      c1.cacheFile_.isSome = true ∧
      (c1.writerCacheId_ = c.writerCacheId_ ∨
        c1.writerCacheId_ = wrap32 (c.writerCacheId_ + 1)) ∧
      c1.fileIds.length ≤ c.fileIds.length + 1 := by
  rcases hA : f.Append c.bufferAllocator_ key data with ⟨res, f1, a1⟩
  have hlen := fileIds_length_setFile c f f1 a1 hfile
  cases res with
  | some lba =>
    refine ⟨_, _, appendLoop_accept nd key data 1 c f f1 a1 lba hfile hA, rfl, rfl,
      Or.inl rfl, ?_⟩
    omega
  | none =>
    cases he : f1.Eof with
    | false =>
      refine ⟨_, _, appendLoop_reject nd key data 1 c f f1 a1 hfile hA he, rfl, rfl,
        Or.inl rfl, ?_⟩
      omega
    | true =>
      have hid : f1.cache_id_ = f.cache_id_ := by
        have := (Append_frame f c.bufferAllocator_ key data).1
        rw [hA] at this
        exact this
      have hids : ({ c with cacheFile_ := some f1, bufferAllocator_ := a1 } :
          BlockCacheImpl).fileIds = c.fileIds := by
        simp only [BlockCacheImpl.fileIds, hfile, hid]
      obtain ⟨c2, hN⟩ := NewCacheFile_returns nd
        { c with cacheFile_ := some f1, bufferAllocator_ := a1 } (by rw [hids]; exact hnew)
      obtain ⟨h1, h2, h3, h4, _⟩ := NewCacheFile_file nd _ c2 hN
      have hl2 := NewCacheFile_fileIds nd _ c2 hN
      rw [hlen] at hl2
      rw [appendLoop_rotate nd key data 1 c f f1 a1 hfile hA he, hN]
      simp only at h1 h2 h3 h4 ⊢
      have hmax : wrap32 c.opt_.cache_file_size = c.opt_.cache_file_size := by
        unfold wrap32; exact Nat.mod_eq_of_lt hcfs
      rcases hA2 : (WriteableCacheFile.new (wrap32 (c.writerCacheId_ + 1))
          (wrap32 c.opt_.cache_file_size)).Append c2.bufferAllocator_ key data
        with ⟨res2, g1, b1⟩
      have hlen2 := fileIds_length_setFile c2 _ g1 b1 h1
      cases res2 with
      | some lba =>
        refine ⟨_, _, appendLoop_accept nd key data 0 c2 _ g1 b1 lba h1 hA2, ?_, rfl,
          Or.inr ?_, ?_⟩
        · exact h3
        · exact h2
        · omega
      | none =>
        have hw := Append_within (WriteableCacheFile.new (wrap32 (c.writerCacheId_ + 1))
          (wrap32 c.opt_.cache_file_size)) c2.bufferAllocator_ key data
          (by simp only [WriteableCacheFile.new, hmax]; omega) rfl
        rw [hA2] at hw
        refine ⟨_, _, appendLoop_reject nd key data 0 c2 _ g1 b1 h1 hA2 (hw rfl), ?_, rfl,
          Or.inr ?_, ?_⟩
        · exact h3
        · exact h2
        · omega

/-! ## Lemmas on the cache ids -/

/-- The cache ids stay ordered when `cacheFile_` is replaced by a file of the same
cache id. -/
theorem idsOrdered_setFile (c c1 : BlockCacheImpl) (f f1 : WriteableCacheFile)
    (hord : c.idsOrdered) (hcf : c.cacheFile_ = some f) (hcf1 : c1.cacheFile_ = some f1)
    (hid : f1.cache_id_ = f.cache_id_)
    (hidx : c1.metadata_.cache_file_index_ = c.metadata_.cache_file_index_)
    (hix : c1.cacheFile_indexed_ = c.cacheFile_indexed_)
    (hw : c1.writerCacheId_ = c.writerCacheId_) : c1.idsOrdered := by
  have hids : c1.fileIds = c.fileIds := by
    simp only [BlockCacheImpl.fileIds, hcf, hcf1, hid, hidx, hix]
  unfold BlockCacheImpl.idsOrdered at hord ⊢
  rw [hids, hw, hcf1, hix]
  rw [hcf] at hord
  simp only at hord ⊢
  rw [hid]
  exact hord

/-- `NewCacheFile` keeps the cache ids ordered as long as the counter does not wrap. -/
theorem NewCacheFile_idsOrdered (nd : Bool) (c c2 : BlockCacheImpl)
    (hord : c.idsOrdered) (hwrap : c.writerCacheId_ + 1 < 2 ^ 32)
    (hN : c.NewCacheFile nd = Except.ok c2) :
    c2.idsOrdered ∧ c2.writerCacheId_ = c.writerCacheId_ + 1 ∧
      c2.fileIds = c.fileIds ++ [c.writerCacheId_ + 1] := by
  obtain ⟨hpw, hle, hcur⟩ := hord
  have hid : wrap32 (c.writerCacheId_ + 1) = c.writerCacheId_ + 1 := by
    unfold wrap32; exact Nat.mod_eq_of_lt hwrap
  obtain ⟨index, status, hidx, hst, _, hc2⟩ := NewCacheFile_ok nd c c2 hN
  have hmap : index.map WriteableCacheFile.cache_id_ = c.fileIds := by
    rw [fileIds_eq]
    exact congrArg _ hidx
  have hstatus : status = true := by
    rw [hst, List.all_eq_true]
    intro g hg
    simp only [Bool.not_eq_true', decide_eq_false_iff_not]
    intro heq
    have := hle _ (hmap ▸ List.mem_map_of_mem WriteableCacheFile.cache_id_ hg)
    rw [heq, hid] at this
    omega
  have hids : c2.fileIds = c.fileIds ++ [c.writerCacheId_ + 1] := by
    rw [hc2]
    simp only [BlockCacheImpl.fileIds, hstatus, if_true, hmap, WriteableCacheFile.new, hid]
  have hw2 : c2.writerCacheId_ = c.writerCacheId_ + 1 := by
    rw [hc2, hid]
  refine ⟨⟨?_, ?_, ?_⟩, hw2, hids⟩
  · rw [hids, List.pairwise_append]
    refine ⟨hpw, List.pairwise_singleton _ _, ?_⟩
    intro a ha b hb
    rw [List.mem_singleton] at hb
    rw [hb]
    exact Nat.lt_succ_of_le (hle a ha)
  · intro i hi
    rw [hids, List.mem_append, List.mem_singleton] at hi
    rw [hw2]
    rcases hi with hi | hi
    · exact Nat.le_succ_of_le (hle i hi)
    · omega
  · rw [hc2]
    simp only [WriteableCacheFile.new, hid]
    exact ⟨trivial, hstatus⟩

/-- The loop of `InsertImpl` keeps the cache ids ordered; the counter grows by less
than the number of turns. -/
theorem appendLoop_idsOrdered (nd : Bool) (key data : Slice) (fuel : Nat)
    (c : BlockCacheImpl) (r : Option LBA) (c1 : BlockCacheImpl)
    (hord : c.idsOrdered) (hwrap : c.writerCacheId_ + fuel < 2 ^ 32)
    (hL : BlockCacheImpl.appendLoop nd key data fuel c = Except.ok (r, c1)) :
    c1.idsOrdered ∧ c.writerCacheId_ ≤ c1.writerCacheId_ ∧
      c1.writerCacheId_ ≤ c.writerCacheId_ + fuel ∧ c1.cacheFile_.isSome = true := by
  obtain ⟨n, c0, f, f1, a1, hP, hcf, hA, _, hc1⟩ :=
    appendLoop_last nd key data
      (fun n c' => c'.idsOrdered ∧ c.writerCacheId_ ≤ c'.writerCacheId_ ∧
        c'.writerCacheId_ + n ≤ c.writerCacheId_ + fuel)
      (by
        intro n c' f' f1' a1' c2' hP' hcf' hA' _ hN'
        obtain ⟨h1, h2, h3⟩ := hP'
        have hid : f1'.cache_id_ = f'.cache_id_ := by
          have := (Append_frame f' c'.bufferAllocator_ key data).1
          rw [hA'] at this
          exact this
        have hset := idsOrdered_setFile c'
          { c' with cacheFile_ := some f1', bufferAllocator_ := a1' } f' f1' h1 hcf' rfl hid
          rfl rfl rfl
        obtain ⟨g1, g2, _⟩ := NewCacheFile_idsOrdered nd _ c2' hset
          (by simp only; omega) hN'
        simp only at g2
        exact ⟨g1, by omega, by omega⟩)
      fuel c r c1 ⟨hord, le_refl _, le_refl _⟩ hL
  obtain ⟨h1, h2, h3⟩ := hP
  have hid : f1.cache_id_ = f.cache_id_ := by
    have := (Append_frame f c0.bufferAllocator_ key data).1
    rw [hA] at this
    exact this
  subst hc1
  exact ⟨idsOrdered_setFile c0 _ f f1 h1 hcf rfl hid rfl rfl rfl, h2, by simp only; omega, rfl⟩

/-- `InsertImpl` keeps the cache ids ordered. -/
theorem InsertImpl_idsOrdered (nd : Bool) (fuel : Nat) (c c1 : BlockCacheImpl)
    (key buf : Slice) (size : Nat) (st : Status)
    (hord : c.idsOrdered) (hwrap : c.writerCacheId_ + fuel < 2 ^ 32)
    (h : c.InsertImpl nd fuel key buf size = Except.ok (st, c1)) :
    c1.idsOrdered ∧ c.writerCacheId_ ≤ c1.writerCacheId_ ∧
      c1.writerCacheId_ ≤ c.writerCacheId_ + fuel := by
  unfold BlockCacheImpl.InsertImpl at h
  rw [check_eq_ok, check_eq_ok] at h
  obtain ⟨_, _, h⟩ := h
  cases hLk : c.metadata_.Lookup key with
  | some l0 =>
    rw [hLk] at h
    simp only [Except.ok.injEq, Prod.mk.injEq] at h
    rw [← h.2]
    exact ⟨hord, le_refl _, Nat.le_add_right _ _⟩
  | none =>
    rw [hLk] at h
    simp only at h
    cases hL : BlockCacheImpl.appendLoop nd key (buf.take size) fuel c with
    | error e => rw [hL] at h; simp at h
    | ok r =>
      obtain ⟨r1, cL⟩ := r
      obtain ⟨g1, g2, g3, g4⟩ := appendLoop_idsOrdered nd key (buf.take size) fuel c r1 cL
        hord hwrap hL
      rw [hL] at h
      cases r1 with
      | none =>
        simp only [Except.ok.injEq, Prod.mk.injEq] at h
        rw [← h.2]
        exact ⟨g1, g2, g3⟩
      | some lba =>
        simp only at h
        obtain ⟨g, hg⟩ := Option.isSome_iff_exists.1 g4
        rw [hg] at h
        simp only at h
        rw [check_eq_ok] at h
        obtain ⟨_, h⟩ := h
        simp only [Except.ok.injEq, Prod.mk.injEq] at h
        rw [← h.2]
        have hm := (Insert_meta cL.metadata_ { key_ := key, lba_ := lba }).1
        refine ⟨idsOrdered_setFile cL _ g (g.Add { key_ := key, lba_ := lba }) g1 hg rfl rfl
          hm rfl rfl, g2, g3⟩

/-- `Insert` keeps the cache ids ordered. -/
theorem Insert_idsOrdered (nd : Bool) (fuel : Nat) (c c1 : BlockCacheImpl)
    (key data : Slice) (size : Nat) (st : Status)
    (hord : c.idsOrdered) (hwrap : c.writerCacheId_ + fuel < 2 ^ 32)
    (h : c.Insert nd fuel key data size = Except.ok (st, c1)) :
    c1.idsOrdered ∧ c.writerCacheId_ ≤ c1.writerCacheId_ ∧
      c1.writerCacheId_ ≤ c.writerCacheId_ + fuel := by
  unfold BlockCacheImpl.Insert at h
  simp only at h
  cases hp : c.opt_.pipeline_writes_ with
  | true =>
    rw [hp] at h
    simp only [if_true, Except.ok.injEq, Prod.mk.injEq] at h
    rw [← h.2]
    exact ⟨hord, le_refl _, Nat.le_add_right _ _⟩
  | false =>
    rw [hp] at h
    simp only [Bool.false_eq_true, if_false] at h
    rw [check_eq_ok] at h
    exact InsertImpl_idsOrdered nd fuel
      { c with stats_ := { c.stats_ with
          bytes_pipelined_ := c.stats_.bytes_pipelined_ ++ [size] } }
      c1 key _ size st hord hwrap h.2

/-- `Lookup` keeps the cache ids ordered. -/
theorem Lookup_idsOrdered (nd : Bool) (c : BlockCacheImpl) (key : Slice)
    (r : Bool × Option (Slice × Nat) × BlockCacheImpl) (hord : c.idsOrdered)
    (h : c.Lookup nd key = Except.ok r) :
    r.2.2.idsOrdered ∧ r.2.2.writerCacheId_ = c.writerCacheId_ := by
  have := Lookup_frame nd c key r h
  rw [this]
  exact ⟨hord, rfl⟩

/-- `Erase` keeps the cache ids ordered. -/
theorem Erase_idsOrdered (nd : Bool) (c c1 : BlockCacheImpl) (key : Slice) (b : Bool)
    (hord : c.idsOrdered) (h : c.Erase nd key = Except.ok (b, c1)) :
    c1.idsOrdered ∧ c1.writerCacheId_ = c.writerCacheId_ := by
  unfold BlockCacheImpl.Erase BlockCacheMetadata.Remove at h
  simp only at h
  rw [check_eq_ok] at h
  obtain ⟨_, h⟩ := h
  simp only [Except.ok.injEq, Prod.mk.injEq] at h
  rw [← h.2]
  exact ⟨hord, rfl⟩

/-- Evictions leave a sublist of the file index. -/
theorem evictAll_sublist : ∀ (fs : List WriteableCacheFile) (m m1 : BlockCacheMetadata),
    evictAll m fs = some m1 → m1.cache_file_index_.Sublist m.cache_file_index_ := by
  intro fs
  induction fs with
  | nil =>
    intro m m1 h
    simp only [evictAll, Option.some.injEq] at h
    rw [h]
  | cons f rest ih =>
    intro m m1 h
    unfold evictAll at h
    cases hE : m.Evict with
    | none => rw [hE] at h; simp at h
    | some p =>
      obtain ⟨g, m2⟩ := p
      rw [hE] at h
      simp only at h
      split at h
      · have h2 := (Evict_some m m2 g hE).2.1
        have := ih m2 m1 h
        rw [h2] at this
        exact this.trans (List.erase_sublist _ _)
      · simp at h

/-- `Reserve` keeps the cache ids ordered: it takes files out of the file index and
creates none. -/
theorem Reserve_idsOrdered (nd : Bool) (c : BlockCacheImpl) (size : Nat) (r : Reserved)
    (hord : c.idsOrdered) (h : c.Reserve nd size = Except.ok r) :
    r.cache.idsOrdered ∧ r.cache.writerCacheId_ = c.writerCacheId_ := by
  have key1 : ∃ fs, r.evicted = [] ++ fs ∧ evictAll c.metadata_ fs = some r.cache.metadata_ ∧
      r.cache = { c with metadata_ := r.cache.metadata_, size_ := r.cache.size_ } := by
    unfold BlockCacheImpl.Reserve at h
    rw [check_eq_ok] at h
    obtain ⟨_, h⟩ := h
    split at h
    · simp only [Except.ok.injEq] at h
      subst h
      exact ⟨[], rfl, rfl, rfl⟩
    · rw [check_eq_ok] at h
      exact reserveLoop_frame nd size _ c [] r h.2
  obtain ⟨fs, _, h2, h3⟩ := key1
  have hsub := evictAll_sublist fs c.metadata_ r.cache.metadata_ h2
  have hsub2 : r.cache.fileIds.Sublist c.fileIds := by
    rw [h3]
    simp only [BlockCacheImpl.fileIds]
    exact List.Sublist.append (hsub.map _) (List.Sublist.refl _)
  obtain ⟨hpw, hle, hcur⟩ := hord
  have hw : r.cache.writerCacheId_ = c.writerCacheId_ := by rw [h3]
  refine ⟨⟨hpw.sublist hsub2, ?_, ?_⟩, hw⟩
  · intro i hi
    rw [hw]
    exact hle i (hsub2.subset hi)
  · rw [h3]
    exact hcur

/-- Every sequence of calls of the facade keeps the cache ids of the file index
ordered, as long as the counter cannot wrap on the way. -/
theorem run_idsOrdered (nd : Bool) : ∀ (ops : List Call) (c c2 : BlockCacheImpl)
    (ev : List WriteableCacheFile),
    c.idsOrdered → c.writerCacheId_ + (ops.map Call.turns).sum < 2 ^ 32 →
    BlockCacheImpl.run nd ops c = Except.ok (c2, ev) →
    c2.idsOrdered ∧ c.writerCacheId_ ≤ c2.writerCacheId_ ∧
      c2.writerCacheId_ ≤ c.writerCacheId_ + (ops.map Call.turns).sum := by
  intro ops
  induction ops with
  | nil =>
    intro c c2 ev hord _ h
    simp only [BlockCacheImpl.run, Except.ok.injEq, Prod.mk.injEq] at h
    rw [← h.1]
    exact ⟨hord, le_refl _, Nat.le_add_right _ _⟩
  | cons op ops ih =>
    intro c c2 ev hord hwrap h
    simp only [List.map_cons, List.sum_cons] at hwrap ⊢
    simp only [BlockCacheImpl.run] at h
    cases hc : c.call nd op with
    | error e => rw [hc] at h; simp at h
    | ok r1 =>
      rw [hc] at h
      simp only at h
      cases hr : BlockCacheImpl.run nd ops r1.1 with
      | error e => rw [hr] at h; simp at h
      | ok r2 =>
        rw [hr] at h
        simp only [Except.ok.injEq, Prod.mk.injEq] at h
        have hstep : r1.1.idsOrdered ∧ c.writerCacheId_ ≤ r1.1.writerCacheId_ ∧
            r1.1.writerCacheId_ ≤ c.writerCacheId_ + op.turns := by
          cases op with
          | insert k data size fuel =>
            simp only [BlockCacheImpl.call] at hc
            cases hI : c.Insert nd fuel k data size with
            | error e => rw [hI] at hc; simp at hc
            | ok q =>
              rw [hI] at hc
              simp only [Except.ok.injEq] at hc
              rw [← hc]
              simp only [Call.turns] at hwrap ⊢
              exact Insert_idsOrdered nd fuel c q.2 k data size q.1 hord (by omega) hI
          | lookup k =>
            simp only [BlockCacheImpl.call] at hc
            cases hI : c.Lookup nd k with
            | error e => rw [hI] at hc; simp at hc
            | ok q =>
              rw [hI] at hc
              simp only [Except.ok.injEq] at hc
              rw [← hc]
              obtain ⟨g1, g2⟩ := Lookup_idsOrdered nd c k q hord hI
              simp only [Call.turns]
              exact ⟨g1, by omega, by omega⟩
          | erase k =>
            simp only [BlockCacheImpl.call] at hc
            cases hI : c.Erase nd k with
            | error e => rw [hI] at hc; simp at hc
            | ok q =>
              rw [hI] at hc
              simp only [Except.ok.injEq] at hc
              rw [← hc]
              obtain ⟨g1, g2⟩ := Erase_idsOrdered nd c q.2 k q.1 hord hI
              simp only [Call.turns]
              exact ⟨g1, by omega, by omega⟩
          | reserve size =>
            simp only [BlockCacheImpl.call] at hc
            cases hI : c.Reserve nd size with
            | error e => rw [hI] at hc; simp at hc
            | ok q =>
              rw [hI] at hc
              simp only [Except.ok.injEq] at hc
              rw [← hc]
              obtain ⟨g1, g2⟩ := Reserve_idsOrdered nd c size q hord hI
              simp only [Call.turns]
              exact ⟨g1, by omega, by omega⟩
        obtain ⟨s1, s2, s3⟩ := hstep
        obtain ⟨t1, t2, t3⟩ := ih r1.1 r2.1 r2.2 s1 (by omega) (by rw [hr])
        rw [← h.1]
        exact ⟨t1, by omega, by omega⟩

/-! ## Claims on the cache ids -/

/-- C11, as the claim states it, fails when the counter of cache ids wraps: on
`wrapCache`, whose cache ids are ordered and whose current file has the cache id
`2 ^ 32 - 1`, `NewCacheFile` gives the new file the cache id 0, which is not one
greater and not greater at all. -/
theorem C11_cache_id_wraps_counterexample :
    ∃ c2 f g, wrapCache.NewCacheFile false = Except.ok c2 ∧
      wrapCache.cacheFile_ = some f ∧ c2.cacheFile_ = some g ∧
      f.cache_id_ = 4294967295 ∧ g.cache_id_ = 0 ∧
      g.cache_id_ ≠ f.cache_id_ + 1 ∧ ¬ f.cache_id_ < g.cache_id_ ∧
      c2.fileIds = [4294967295, 0] ∧ wrapCache.idsOrdered :=
  ⟨{ wrapCache with
      metadata_ := { block_index_ := [],
                     cache_file_index_ := [WriteableCacheFile.new 4294967295 64] },
      cacheFile_ := some (WriteableCacheFile.new 0 64),
      writerCacheId_ := 0 },
   WriteableCacheFile.new 4294967295 64, WriteableCacheFile.new 0 64,
   by rfl, rfl, rfl, rfl, rfl, by decide, by decide, by rfl, by decide⟩

/-- C11, amended: as long as the counter `writerCacheId_` is below `2 ^ 32 - 1`,
`NewCacheFile` gives the new file the cache id `writerCacheId_ + 1`, one greater
than that of the file created before it; the cache ids of the file index, in the
order of creation, are those from before followed by the new one, they increase
strictly, and so no two files of the file index share a cache id. The state that
`NewCacheFile` leaves is again one in which the cache ids are ordered, so the same
holds for the next call. With assertions compiled in, `Create` is taken to succeed,
which line 199 asserts. -/
theorem C11_monotone_cache_ids (ndebug : Bool) (c : BlockCacheImpl)
    (hord : c.idsOrdered) (hwrap : c.writerCacheId_ + 1 < 2 ^ 32)
    (hcreate : ndebug = true ∨
      (WriteableCacheFile.new (wrap32 (c.writerCacheId_ + 1))
        (wrap32 c.opt_.cache_file_size)).Create c.opt_.env = true) :
    ∃ c2 g, c.NewCacheFile ndebug = Except.ok c2 ∧ c2.cacheFile_ = some g ∧
      g.cache_id_ = c.writerCacheId_ + 1 ∧
      (∀ f, c.cacheFile_ = some f → g.cache_id_ = f.cache_id_ + 1) ∧
      c2.fileIds = c.fileIds ++ [g.cache_id_] ∧
      (∀ i ∈ c.fileIds, i < g.cache_id_) ∧
      c2.fileIds.Pairwise (· < ·) ∧ c2.fileIds.Nodup ∧
      c2.idsOrdered := by
  have hid : wrap32 (c.writerCacheId_ + 1) = c.writerCacheId_ + 1 := by
    unfold wrap32; exact Nat.mod_eq_of_lt hwrap
  have hfresh : wrap32 (c.writerCacheId_ + 1) ∉ c.fileIds := by
    intro hmem
    have := hord.2.1 _ hmem
    rw [hid] at this
    omega
  obtain ⟨c2, hN⟩ := NewCacheFile_returns ndebug c (hcreate.imp id (fun h => ⟨h, hfresh⟩))
  obtain ⟨hord2, _, hids⟩ := NewCacheFile_idsOrdered ndebug c c2 hord hwrap hN
  have hcf2 := (NewCacheFile_file ndebug c c2 hN).1
  rw [hid] at hcf2
  refine ⟨c2, _, hN, hcf2, rfl, ?_, hids, ?_, hord2.1, ?_, hord2⟩
  · intro f hf
    have hcur := hord.2.2
    rw [hf] at hcur
    simp only [WriteableCacheFile.new]
    rw [hcur.1]
  · intro i hi
    exact Nat.lt_succ_of_le (hord.2.1 i hi)
  · exact hord2.1.imp (fun h => Nat.ne_of_lt h)

/-- C11 on `demoCache`, whose files have the cache ids 1, 2 and 3: the next file
gets the cache id 4. -/
theorem C11_monotone_cache_ids_witness :
    demoCache.idsOrdered ∧ demoCache.writerCacheId_ + 1 < 2 ^ 32 ∧
    ∃ c2 g, demoCache.NewCacheFile false = Except.ok c2 ∧ c2.cacheFile_ = some g ∧
      g.cache_id_ = demoCache.writerCacheId_ + 1 ∧
      (∀ f, demoCache.cacheFile_ = some f → g.cache_id_ = f.cache_id_ + 1) ∧
      c2.fileIds = demoCache.fileIds ++ [g.cache_id_] ∧
      (∀ i ∈ demoCache.fileIds, i < g.cache_id_) ∧
      c2.fileIds.Pairwise (· < ·) ∧ c2.fileIds.Nodup ∧
      c2.idsOrdered :=
  ⟨by decide, by decide,
    C11_monotone_cache_ids false demoCache (by decide) (by decide) (Or.inr (by rfl))⟩

/-! ## Claims on the loop of `InsertImpl` -/

/-- C12, amended: how `InsertImpl` handles a rejected `Append`, for a key that the
key index does not hold. When the `Append` is rejected by a current file that is
not at EOF, `InsertImpl` returns `TryAgain` at once: that pass of the loop creates
no file and leaves the metadata, key index included, unchanged. When the `Append` is
rejected by a file at EOF, `NewCacheFile` runs and `InsertImpl` goes on with the
`Append` on the new file, as a call of `InsertImpl` on the new state would. And
`TryAgain` is returned in no other case: a call that returns it has ended with an
`Append` that a file not at EOF rejected, and its key index is the one it started
with, whether or not earlier passes have rotated. -/
theorem C12_append_rejection (ndebug : Bool) (fuel : Nat) (c : BlockCacheImpl)
    (key buf : Slice) (size : Nat) (f : WriteableCacheFile)
    (hsize : ndebug = true ∨ size ≠ 0) (hfile : c.cacheFile_ = some f)
    (hkey : c.metadata_.Lookup key = none) :
    (∀ f1 a1, f.Append c.bufferAllocator_ key (buf.take size) = (none, f1, a1) →
      f1.Eof = false →
      ∃ c1, c.InsertImpl ndebug (fuel + 1) key buf size = Except.ok (Status.TryAgain, c1) ∧
        c1 = { c with cacheFile_ := some f1, bufferAllocator_ := a1 } ∧
        c1.writerCacheId_ = c.writerCacheId_ ∧ c1.fileIds = c.fileIds ∧
        c1.metadata_ = c.metadata_) ∧
    (∀ f1 a1, f.Append c.bufferAllocator_ key (buf.take size) = (none, f1, a1) →
      f1.Eof = true →
      c.InsertImpl ndebug (fuel + 1) key buf size =
        (match BlockCacheImpl.NewCacheFile ndebug
            { c with cacheFile_ := some f1, bufferAllocator_ := a1 } with
         | Except.error e => Except.error e
         | Except.ok c2 => c2.InsertImpl ndebug fuel key buf size) ∧
      ∀ c2, BlockCacheImpl.NewCacheFile ndebug
          { c with cacheFile_ := some f1, bufferAllocator_ := a1 } = Except.ok c2 →
        c2.cacheFile_ = some (WriteableCacheFile.new (wrap32 (c.writerCacheId_ + 1))
          (wrap32 c.opt_.cache_file_size))) ∧
    (∀ c1, c.InsertImpl ndebug fuel key buf size = Except.ok (Status.TryAgain, c1) →
      c1.metadata_.block_index_ = c.metadata_.block_index_ ∧
      ∃ (c0 : BlockCacheImpl) (f0 f1 : WriteableCacheFile) (a1 : CacheWriteBufferAllocator),
        c0.cacheFile_ = some f0 ∧
        f0.Append c0.bufferAllocator_ key (buf.take size) = (none, f1, a1) ∧
        f1.Eof = false ∧
        c1 = { c0 with cacheFile_ := some f1, bufferAllocator_ := a1 }) := by
  have hsome : c.cacheFile_.isSome = true := by rw [hfile]; rfl
  refine ⟨?_, ?_, ?_⟩
  · intro f1 a1 hA he
    refine ⟨_, ?_, rfl, rfl, ?_, rfl⟩
    · rw [InsertImpl_absent ndebug (fuel + 1) c key buf size hsize hsome hkey,
        appendLoop_reject ndebug key (buf.take size) fuel c f f1 a1 hfile hA he]
    · have hid : f1.cache_id_ = f.cache_id_ := by
        have := (Append_frame f c.bufferAllocator_ key (buf.take size)).1
        rw [hA] at this
        exact this
      simp only [BlockCacheImpl.fileIds, hfile, hid]
  · intro f1 a1 hA he
    constructor
    · rw [InsertImpl_absent ndebug (fuel + 1) c key buf size hsize hsome hkey,
        appendLoop_rotate ndebug key (buf.take size) fuel c f f1 a1 hfile hA he]
      cases hN : BlockCacheImpl.NewCacheFile ndebug
          { c with cacheFile_ := some f1, bufferAllocator_ := a1 } with
      | error e => rfl
      | ok c2 =>
        obtain ⟨h1, _, h3, _, _⟩ := NewCacheFile_file ndebug _ c2 hN
        have hk2 : c2.metadata_.Lookup key = none := by
          rw [Lookup_of_block_index c.metadata_ c2.metadata_ key h3]
          exact hkey
        simp only
        rw [InsertImpl_absent ndebug fuel c2 key buf size hsize (by rw [h1]; rfl) hk2]
    · intro c2 hN
      exact (NewCacheFile_file ndebug _ c2 hN).1
  · intro c1 hI
    rw [InsertImpl_absent ndebug fuel c key buf size hsize hsome hkey] at hI
    cases hL : BlockCacheImpl.appendLoop ndebug key (buf.take size) fuel c with
    | error e => rw [hL] at hI; simp at hI
    | ok r =>
      obtain ⟨r1, cL⟩ := r
      rw [hL] at hI
      cases r1 with
      | some lba =>
        simp only at hI
        cases hcf : cL.cacheFile_ with
        | none => rw [hcf] at hI; simp at hI
        | some g =>
          rw [hcf] at hI
          simp only [check] at hI
          split at hI <;> simp at hI
      | none =>
        simp only [Except.ok.injEq, Prod.mk.injEq, true_and] at hI
        subst hI
        obtain ⟨n, c0, f0, f1, a1, hP, hc0, hA0, he0, hc1⟩ :=
          appendLoop_last ndebug key (buf.take size)
            (fun _ c' => c'.metadata_.block_index_ = c.metadata_.block_index_)
            (by
              intro n c' f' f1' a1' c2' hP' _ _ _ hN'
              have := (NewCacheFile_file ndebug _ c2' hN').2.2.1
              exact this.trans hP')
            fuel c none cL rfl hL
        refine ⟨?_, c0, f0, f1, a1, hc0, hA0, he0 rfl, hc1⟩
        rw [hc1]
        exact hP

/-- C12, as the claim states it, fails for a call that rotates before it gives up:
on `pressedCache` the key `[3]` is not in the key index and the current file is too
full for the record, so the first `Append` is rejected at EOF and `NewCacheFile`
creates the file of cache id 4; the pool has no buffer for the new file, so its
`Append` is rejected without EOF and `InsertImpl` returns `TryAgain`, having created
a new file. -/
theorem C12_append_rejection_counterexample :
    pressedCache.metadata_.Lookup [3] = none ∧
    pressedCache.InsertImpl false 2 [3] valSeventeen 17 =
      Except.ok (Status.TryAgain, retryCache) ∧
    pressedCache.writerCacheId_ = 3 ∧ retryCache.writerCacheId_ = 4 ∧
    pressedCache.fileIds = [1, 2, 3] ∧ retryCache.fileIds = [1, 2, 3, 4] ∧
    retryCache.cacheFile_ = some (WriteableCacheFile.new 4 64) ∧
    retryCache.metadata_.block_index_ = pressedCache.metadata_.block_index_ := by
  refine ⟨by rfl, by rfl, by rfl, by rfl, by rfl, by rfl, by rfl, by rfl⟩

set_option maxRecDepth 100000 in
/-- C12 on `pressedCache`: the call that returns `TryAgain` has ended with an `Append`
that a file not at EOF rejected, and the key index is unchanged. -/
theorem C12_append_rejection_witness :
    (false = true ∨ 17 ≠ 0) ∧ pressedCache.cacheFile_ = some pressedFile ∧
    pressedCache.metadata_.Lookup [3] = none ∧
    pressedCache.InsertImpl false 2 [3] valSeventeen 17 =
      Except.ok (Status.TryAgain, retryCache) ∧
    retryCache.metadata_.block_index_ = pressedCache.metadata_.block_index_ ∧
    ∃ (c0 : BlockCacheImpl) (f0 f1 : WriteableCacheFile) (a1 : CacheWriteBufferAllocator),
      c0.cacheFile_ = some f0 ∧
      f0.Append c0.bufferAllocator_ [3] (valSeventeen.take 17) = (none, f1, a1) ∧
      f1.Eof = false ∧
      retryCache = { c0 with cacheFile_ := some f1, bufferAllocator_ := a1 } :=
  ⟨Or.inr (by decide), by rfl, by rfl, by rfl,
    (C12_append_rejection false 2 pressedCache [3] valSeventeen 17 pressedFile
      (Or.inr (by decide)) (by rfl) (by rfl)).2.2 retryCache (by rfl)⟩

/-! ## Claim on `WriteableCacheFile::Read` -/

/-- C18: the routing of `WriteableCacheFile::Read`. The result is that of the on-disk
reader `RandomAccessCacheFile::Read` when `eof_` is set and `bufs_` is empty, and that
of `ReadImpl` in every other case. `Read` assigns no member of the file, which the
embedding records by giving `Read` the file as a value and no file as a result: the
file after the call, with its `size_`, `eof_`, `disk_woff_`, `buf_woff_`, `buf_doff_`
and `bufs_`, is the file before it. In the facade, where `Lookup` is the caller of
`Read`, the files of the cache after a lookup are accordingly those before it. -/
theorem C18_read_routing (env : Env) (f : WriteableCacheFile) (lba : LBA) :
    (f.eof_ = true ∧ f.bufs_ = [] → f.Read env lba = RandomAccessCacheFile.Read env f lba) ∧
    (¬(f.eof_ = true ∧ f.bufs_ = []) → f.Read env lba = f.ReadImpl env lba) ∧
    (∀ (ndebug : Bool) (c : BlockCacheImpl) (key : Slice)
        (r : Bool × Option (Slice × Nat) × BlockCacheImpl),
      c.Lookup ndebug key = Except.ok r →
      r.2.2.metadata_ = c.metadata_ ∧ r.2.2.cacheFile_ = c.cacheFile_) := by
  refine ⟨?_, ?_, ?_⟩
  · rintro ⟨h1, h2⟩
    simp [WriteableCacheFile.Read, h1, h2]
  · intro h
    have : (f.eof_ && f.bufs_.isEmpty) = false := by
      cases he : f.eof_
      · rfl
      · cases hb : f.bufs_ with
        | nil => exact absurd ⟨he, hb⟩ h
        | cons b bs => rfl
    simp [WriteableCacheFile.Read, this]
  · intro ndebug c key r h
    have := Lookup_frame ndebug c key r h
    rw [this]
    exact ⟨rfl, rfl⟩

/-- C18 on a closed file, read from disk, and on a new file, read through
`ReadImpl`. -/
theorem C18_read_routing_witness :
    (demoFile 1 30 1).Read demoEnv { cache_id_ := 1, off_ := 0, size_ := 13 } =
      RandomAccessCacheFile.Read demoEnv (demoFile 1 30 1)
        { cache_id_ := 1, off_ := 0, size_ := 13 } ∧
    (WriteableCacheFile.new 3 64).Read demoEnv { cache_id_ := 3, off_ := 0, size_ := 13 } =
      (WriteableCacheFile.new 3 64).ReadImpl demoEnv { cache_id_ := 3, off_ := 0, size_ := 13 } :=
  ⟨(C18_read_routing demoEnv (demoFile 1 30 1) { cache_id_ := 1, off_ := 0, size_ := 13 }).1
      ⟨rfl, rfl⟩,
   (C18_read_routing demoEnv (WriteableCacheFile.new 3 64)
      { cache_id_ := 3, off_ := 0, size_ := 13 }).2.1 (by decide)⟩

/-! ## Claim on the end of the loop of `InsertImpl` -/

/-- `NewCacheFile` has no loop: it returns or stops at an assertion. -/
theorem NewCacheFile_not_diverged (nd : Bool) (c : BlockCacheImpl) :
    c.NewCacheFile nd ≠ Except.error Abort.diverged := by
  intro h
  unfold BlockCacheImpl.NewCacheFile at h
  simp only at h
  have h2 := check_diverged nd 199 _ _ h
  have h3 := check_diverged nd 204 _ _ h2
  simp at h3

/-- With a record that fits a cache file, the loop of `InsertImpl` does the same with
any number of turns from two on, and two turns do not run out. -/
theorem appendLoop_stable (nd : Bool) (key data : Slice) (c : BlockCacheImpl)
    (f : WriteableCacheFile) (hfile : c.cacheFile_ = some f)
    (hfit : recordSize key data ≤ c.opt_.cache_file_size)
    (hcfs : c.opt_.cache_file_size < 2 ^ 32) :
    (∀ n, BlockCacheImpl.appendLoop nd key data (n + 2) c =
      BlockCacheImpl.appendLoop nd key data 2 c) ∧
    BlockCacheImpl.appendLoop nd key data 2 c ≠ Except.error Abort.diverged := by
  rcases hA : f.Append c.bufferAllocator_ key data with ⟨res, f1, a1⟩
  cases res with
  | some lba =>
    refine ⟨fun n => ?_, ?_⟩
    · rw [appendLoop_accept nd key data (n + 1) c f f1 a1 lba hfile hA,
        appendLoop_accept nd key data 1 c f f1 a1 lba hfile hA]
    · rw [appendLoop_accept nd key data 1 c f f1 a1 lba hfile hA]
      simp
  | none =>
    cases he : f1.Eof with
    | false =>
      refine ⟨fun n => ?_, ?_⟩
      · rw [appendLoop_reject nd key data (n + 1) c f f1 a1 hfile hA he,
          appendLoop_reject nd key data 1 c f f1 a1 hfile hA he]
      · rw [appendLoop_reject nd key data 1 c f f1 a1 hfile hA he]
        simp
    | true =>
      have hrot : ∀ n, BlockCacheImpl.appendLoop nd key data (n + 2) c =
          match BlockCacheImpl.NewCacheFile nd
              { c with cacheFile_ := some f1, bufferAllocator_ := a1 } with
          | Except.error e => Except.error e
          | Except.ok c2 => BlockCacheImpl.appendLoop nd key data (n + 1) c2 :=
        fun n => appendLoop_rotate nd key data (n + 1) c f f1 a1 hfile hA he
      cases hN : BlockCacheImpl.NewCacheFile nd
          { c with cacheFile_ := some f1, bufferAllocator_ := a1 } with
      | error e =>
        refine ⟨fun n => ?_, ?_⟩
        · rw [hrot n, hrot 0, hN]
        · rw [hrot 0, hN]
          simp only
          intro h
          have he2 : e = Abort.diverged := by injection h
          apply NewCacheFile_not_diverged nd
            { c with cacheFile_ := some f1, bufferAllocator_ := a1 }
          rw [hN, he2]
      | ok c2 =>
        obtain ⟨h1, _, _, h4, _⟩ := NewCacheFile_file nd _ c2 hN
        simp only at h1 h4
        have hmax : wrap32 c.opt_.cache_file_size = c.opt_.cache_file_size := by
          unfold wrap32; exact Nat.mod_eq_of_lt hcfs
        rcases hA2 : (WriteableCacheFile.new (wrap32 (c.writerCacheId_ + 1))
            (wrap32 c.opt_.cache_file_size)).Append c2.bufferAllocator_ key data
          with ⟨res2, g1, b1⟩
        cases res2 with
        | some lba =>
          refine ⟨fun n => ?_, ?_⟩
          · rw [hrot n, hrot 0, hN]
            simp only
            rw [appendLoop_accept nd key data n c2 _ g1 b1 lba h1 hA2,
              appendLoop_accept nd key data 0 c2 _ g1 b1 lba h1 hA2]
          · rw [hrot 0, hN]
            simp only
            rw [appendLoop_accept nd key data 0 c2 _ g1 b1 lba h1 hA2]
            simp
        | none =>
          have hw := Append_within (WriteableCacheFile.new (wrap32 (c.writerCacheId_ + 1))
            (wrap32 c.opt_.cache_file_size)) c2.bufferAllocator_ key data
            (by simp only [WriteableCacheFile.new, hmax]; omega) rfl
          rw [hA2] at hw
          refine ⟨fun n => ?_, ?_⟩
          · rw [hrot n, hrot 0, hN]
            simp only
            rw [appendLoop_reject nd key data n c2 _ g1 b1 h1 hA2 (hw rfl),
              appendLoop_reject nd key data 0 c2 _ g1 b1 h1 hA2 (hw rfl)]
          · rw [hrot 0, hN]
            simp only
            rw [appendLoop_reject nd key data 0 c2 _ g1 b1 h1 hA2 (hw rfl)]
            simp

/-- `InsertImpl` runs out of fuel only where its loop does. -/
theorem InsertImpl_diverged (nd : Bool) (fuel : Nat) (c : BlockCacheImpl) (key buf : Slice)
    (size : Nat) (h : c.InsertImpl nd fuel key buf size = Except.error Abort.diverged) :
    BlockCacheImpl.appendLoop nd key (buf.take size) fuel c = Except.error Abort.diverged := by
  unfold BlockCacheImpl.InsertImpl at h
  have h2 := check_diverged nd 96 _ _ h
  have h3 := check_diverged nd 97 _ _ h2
  cases hLk : c.metadata_.Lookup key with
  | some l0 => rw [hLk] at h3; simp at h3
  | none =>
    rw [hLk] at h3
    simp only at h3
    cases hL : BlockCacheImpl.appendLoop nd key (buf.take size) fuel c with
    | error e =>
      rw [hL] at h3
      simp only [Except.error.injEq] at h3
      rw [h3]
    | ok r =>
      obtain ⟨r1, cL⟩ := r
      rw [hL] at h3
      cases r1 with
      | none => simp at h3
      | some lba =>
        simp only at h3
        cases hcf : cL.cacheFile_ with
        | none => rw [hcf] at h3; simp at h3
        | some g =>
          rw [hcf] at h3
          simp only at h3
          have h4 := check_diverged nd 124 _ _ h3
          simp at h4

/-- `InsertImpl` depends on the fuel through its loop only. -/
theorem InsertImpl_congr_fuel (nd : Bool) (fuel fuel2 : Nat) (c : BlockCacheImpl)
    (key buf : Slice) (size : Nat)
    (h : BlockCacheImpl.appendLoop nd key (buf.take size) fuel c =
      BlockCacheImpl.appendLoop nd key (buf.take size) fuel2 c) :
    c.InsertImpl nd fuel key buf size = c.InsertImpl nd fuel2 key buf size := by
  unfold BlockCacheImpl.InsertImpl
  rw [h]

end BlockCache

namespace leveldb


/-! ## Lemmas on the arithmetic of `double` -/

theorem roundHalfEven_intCast (n : ℤ) : roundHalfEven (n : ℚ) = n := by
  simp [roundHalfEven]

theorem roundHalfEven_mono {x y : ℚ} (hxy : x ≤ y) : roundHalfEven x ≤ roundHalfEven y := by
  have hf : ⌊x⌋ ≤ ⌊y⌋ := Int.floor_mono hxy
  have hx1 : roundHalfEven x ≤ ⌊x⌋ + 1 := by
    simp only [roundHalfEven]; split_ifs <;> omega
  have hy0 : ⌊y⌋ ≤ roundHalfEven y := by
    simp only [roundHalfEven]; split_ifs <;> omega
  rcases lt_or_eq_of_le hf with hlt | heq
  · omega
  · have hr : x - ⌊x⌋ ≤ y - ⌊y⌋ := by rw [heq]; linarith
    simp only [roundHalfEven]
    rw [← heq] at hr ⊢
    split_ifs <;> first | omega | (exfalso; linarith)

theorem two_zpow_pos (e : ℤ) : (0 : ℚ) < (2 : ℚ) ^ e := zpow_pos (by norm_num) e

theorem zpow_log_le {x : ℚ} (hx : 0 < x) : (2 : ℚ) ^ Int.log 2 x ≤ x := by
  have := Int.zpow_log_le_self (b := 2) (by norm_num) hx
  simpa using this

theorem lt_zpow_log_succ (x : ℚ) : x < (2 : ℚ) ^ (Int.log 2 x + 1) := by
  have := Int.lt_zpow_succ_log_self (b := 2) (by norm_num) x
  simpa using this

/-- The significand of a positive number lies between `2 ^ 52` and `2 ^ 53`. -/
theorem significand_bounds {x : ℚ} (hx : 0 < x) :
    (2 : ℚ) ^ (52 : ℤ) ≤ x / (2 : ℚ) ^ (Int.log 2 x - 52) ∧
    x / (2 : ℚ) ^ (Int.log 2 x - 52) < (2 : ℚ) ^ (53 : ℤ) := by
  have hp := two_zpow_pos (Int.log 2 x - 52)
  constructor
  · rw [le_div_iff₀ hp, ← zpow_add₀ (by norm_num : (2 : ℚ) ≠ 0)]
    have : (52 : ℤ) + (Int.log 2 x - 52) = Int.log 2 x := by ring
    rw [this]
    exact zpow_log_le hx
  · rw [div_lt_iff₀ hp, ← zpow_add₀ (by norm_num : (2 : ℚ) ≠ 0)]
    have : (53 : ℤ) + (Int.log 2 x - 52) = Int.log 2 x + 1 := by ring
    rw [this]
    exact lt_zpow_log_succ x

theorem roundBinary64_of_pos {x : ℚ} (hx : 0 < x) :
    roundBinary64 x =
      (roundHalfEven (x / (2 : ℚ) ^ (Int.log 2 x - 52)) : ℚ) * (2 : ℚ) ^ (Int.log 2 x - 52) := by
  simp only [roundBinary64, if_neg (ne_of_gt hx), abs_of_pos hx]

/-- The rounded value of a positive number stays in its binade. -/
theorem roundBinary64_bounds {x : ℚ} (hx : 0 < x) :
    (2 : ℚ) ^ Int.log 2 x ≤ roundBinary64 x ∧ roundBinary64 x ≤ (2 : ℚ) ^ (Int.log 2 x + 1) := by
  obtain ⟨h1, h2⟩ := significand_bounds hx
  have hp := two_zpow_pos (Int.log 2 x - 52)
  have e1 : ((2 : ℚ) ^ (52 : ℤ)) = (((2 : ℤ) ^ 52 : ℤ) : ℚ) := by norm_num
  have e2 : ((2 : ℚ) ^ (53 : ℤ)) = (((2 : ℤ) ^ 53 : ℤ) : ℚ) := by norm_num
  have r1 : ((2 : ℤ) ^ 52 : ℤ) ≤ roundHalfEven (x / (2 : ℚ) ^ (Int.log 2 x - 52)) := by
    have := roundHalfEven_mono (e1 ▸ h1)
    rwa [roundHalfEven_intCast] at this
  have r2 : roundHalfEven (x / (2 : ℚ) ^ (Int.log 2 x - 52)) ≤ ((2 : ℤ) ^ 53 : ℤ) := by
    have := roundHalfEven_mono (le_of_lt (e2 ▸ h2))
    rwa [roundHalfEven_intCast] at this
  have q1 : ((2 : ℚ) ^ (52 : ℤ)) ≤ (roundHalfEven (x / (2 : ℚ) ^ (Int.log 2 x - 52)) : ℚ) := by
    rw [e1]; exact_mod_cast r1
  have q2 : (roundHalfEven (x / (2 : ℚ) ^ (Int.log 2 x - 52)) : ℚ) ≤ ((2 : ℚ) ^ (53 : ℤ)) := by
    rw [e2]; exact_mod_cast r2
  rw [roundBinary64_of_pos hx]
  constructor
  · have : (2 : ℚ) ^ Int.log 2 x = (2 : ℚ) ^ (52 : ℤ) * (2 : ℚ) ^ (Int.log 2 x - 52) := by
      rw [← zpow_add₀ (by norm_num : (2 : ℚ) ≠ 0)]; congr 1; ring
    rw [this]
    exact mul_le_mul_of_nonneg_right q1 (le_of_lt hp)
  · have : (2 : ℚ) ^ (Int.log 2 x + 1) = (2 : ℚ) ^ (53 : ℤ) * (2 : ℚ) ^ (Int.log 2 x - 52) := by
      rw [← zpow_add₀ (by norm_num : (2 : ℚ) ≠ 0)]; congr 1; ring
    rw [this]
    exact mul_le_mul_of_nonneg_right q2 (le_of_lt hp)

theorem roundBinary64_zero : roundBinary64 0 = 0 := by
  simp [roundBinary64]

theorem roundBinary64_pos {x : ℚ} (hx : 0 < x) : 0 < roundBinary64 x :=
  lt_of_lt_of_le (two_zpow_pos _) (roundBinary64_bounds hx).1

/-- Rounding to binary64 is monotone on the numbers that are not negative. -/
theorem roundBinary64_mono {x y : ℚ} (hx : 0 ≤ x) (hxy : x ≤ y) :
    roundBinary64 x ≤ roundBinary64 y := by
  rcases eq_or_lt_of_le hx with h0 | hpos
  · rw [← h0, roundBinary64_zero]
    rcases eq_or_lt_of_le (le_trans hx hxy) with h1 | h1
    · rw [← h1, roundBinary64_zero]
    · exact le_of_lt (roundBinary64_pos h1)
  · have hy : 0 < y := lt_of_lt_of_le hpos hxy
    have hl : Int.log 2 x ≤ Int.log 2 y := Int.log_mono_right hpos hxy
    rcases lt_or_eq_of_le hl with hlt | heq
    · have h1 := (roundBinary64_bounds hpos).2
      have h2 := (roundBinary64_bounds hy).1
      have h3 : (2 : ℚ) ^ (Int.log 2 x + 1) ≤ (2 : ℚ) ^ Int.log 2 y :=
        zpow_le_zpow_right₀ (by norm_num) (by omega)
      linarith
    · rw [roundBinary64_of_pos hpos, roundBinary64_of_pos hy, heq]
      have hp := two_zpow_pos (Int.log 2 y - 52)
      apply mul_le_mul_of_nonneg_right _ (le_of_lt hp)
      have : x / (2 : ℚ) ^ (Int.log 2 y - 52) ≤ y / (2 : ℚ) ^ (Int.log 2 y - 52) :=
        div_le_div_of_nonneg_right hxy (le_of_lt hp)
      exact_mod_cast roundHalfEven_mono this

/-- A number whose significand is an integer is a binary64 number. -/
theorem roundBinary64_of_int {x : ℚ} (hx : 0 < x) (z : ℤ)
    (hz : x / (2 : ℚ) ^ (Int.log 2 x - 52) = z) : roundBinary64 x = x := by
  rw [roundBinary64_of_pos hx, hz, roundHalfEven_intCast, ← hz]
  exact div_mul_cancel₀ x (ne_of_gt (two_zpow_pos _))

/-- An integer of at most 53 bits is a binary64 number. -/
theorem roundBinary64_natCast (n : ℕ) (hn : n ≤ 2 ^ 53) : roundBinary64 (n : ℚ) = n := by
  rcases Nat.eq_zero_or_pos n with h0 | hpos
  · subst h0; simp [roundBinary64]
  · have hx : (0 : ℚ) < (n : ℚ) := by exact_mod_cast hpos
    have hlog : Int.log 2 (n : ℚ) = (Nat.log 2 n : ℤ) := Int.log_natCast 2 n
    rcases Nat.lt_or_ge n (2 ^ 53) with hlt | hge
    · have hl : Nat.log 2 n < 53 := Nat.log_lt_of_lt_pow (by omega) hlt
      obtain ⟨k, hk⟩ : ∃ k : ℕ, (Nat.log 2 n : ℤ) - 52 = -(k : ℤ) :=
        ⟨52 - Nat.log 2 n, by omega⟩
      apply roundBinary64_of_int hx ((n * 2 ^ k : ℕ) : ℤ)
      rw [hlog, hk, zpow_neg, zpow_natCast]
      push_cast
      field_simp
    · have hn2 : n = 2 ^ 53 := le_antisymm hn hge
      have hl : Nat.log 2 n = 53 := by
        rw [hn2]; exact Nat.log_pow (by norm_num) 53
      apply roundBinary64_of_int hx ((2 ^ 52 : ℕ) : ℤ)
      rw [hlog, hl, hn2]
      norm_num

theorem Arith.fl_mono (a : Arith) {x y : ℚ} (hx : 0 ≤ x) (hxy : x ≤ y) : a.fl x ≤ a.fl y := by
  cases a
  · exact hxy
  · exact roundBinary64_mono hx hxy

theorem Arith.fl_natCast (a : Arith) (n : ℕ) (h : a = Arith.exact ∨ n ≤ 2 ^ 53) :
    a.fl (n : ℚ) = n := by
  cases a
  · rfl
  · rcases h with h | h
    · cases h
    · exact roundBinary64_natCast n h

theorem Arith.fl_zero (a : Arith) : a.fl 0 = 0 := by
  have := a.fl_natCast 0 (Or.inr (by norm_num))
  simpa using this

theorem Arith.fl_nonneg (a : Arith) {x : ℚ} (hx : 0 ≤ x) : 0 ≤ a.fl x := by
  have := a.fl_mono (le_refl 0) hx
  rwa [a.fl_zero] at this

/-! ## Lemmas on the buckets -/

set_option maxRecDepth 100000 in
theorem bucketValues_sorted : bucketValues_.Pairwise (· < ·) := by decide

set_option maxRecDepth 100000 in
theorem bucketValues_length : bucketValues_.length = 138 := by decide

set_option maxRecDepth 100000 in
theorem bucketValues_le : ∀ x ∈ bucketValues_, x ≤ 1000000000 := by decide

theorem BucketLimit_le (b : Nat) : BucketLimit b ≤ 1000000000 := by
  unfold BucketLimit
  by_cases hb : b < bucketValues_.length
  · rw [List.getD_eq_getElem _ _ hb]
    exact bucketValues_le _ (List.getElem_mem _)
  · rw [List.getD_eq_default _ _ (Nat.le_of_not_lt hb)]
    omega

theorem BucketLimit_mono {i j : Nat} (hij : i ≤ j) (hj : j < 138) :
    BucketLimit i ≤ BucketLimit j := by
  have hj2 : j < bucketValues_.length := by rw [bucketValues_length]; exact hj
  have hi2 : i < bucketValues_.length := lt_of_le_of_lt hij hj2
  unfold BucketLimit
  rw [List.getD_eq_getElem _ _ hi2, List.getD_eq_getElem _ _ hj2]
  rcases Nat.eq_or_lt_of_le hij with h | h
  · subst h; exact le_refl _
  · exact le_of_lt (List.pairwise_iff_getElem.1 bucketValues_sorted i j hi2 hj2 h)

theorem toDouble_BucketLimit (a : Arith) (b : Nat) :
    toDouble a (BucketLimit b) = (BucketLimit b : ℚ) :=
  a.fl_natCast _ (Or.inr (le_trans (BucketLimit_le b) (by norm_num)))

theorem toDouble_LastValue (a : Arith) : toDouble a LastValue = 1000000000 := by
  have h : LastValue = 1000000000 := by
    set_option maxRecDepth 100000 in decide
  rw [h]
  have := a.fl_natCast 1000000000 (Or.inr (by norm_num))
  simpa [toDouble] using this

theorem take_succ_sum (l : List Nat) (b : Nat) :
    (l.take (b + 1)).sum = (l.take b).sum + l.getD b 0 := by
  induction l generalizing b with
  | nil => simp
  | cons x xs ih =>
    cases b with
    | zero => simp
    | succ b =>
      simp only [List.take_succ_cons, List.sum_cons, List.getD_cons_succ]
      rw [ih b]; omega

theorem take_sum_le (l : List Nat) (b : Nat) : (l.take b).sum ≤ l.sum := by
  induction l generalizing b with
  | nil => simp
  | cons x xs ih =>
    cases b with
    | zero => simp
    | succ b =>
      simp only [List.take_succ_cons, List.sum_cons]
      have := ih b; omega

theorem Histogram.before_succ (h : Histogram) (b : Nat) :
    h.before (b + 1) = h.before b + h.count b :=
  take_succ_sum h.buckets_ b

theorem Histogram.before_le (h : Histogram) (b : Nat) : h.before b ≤ h.buckets_.sum :=
  take_sum_le h.buckets_ b

theorem Histogram.count_le (h : Histogram) (b : Nat) : h.count b ≤ h.buckets_.sum := by
  have h1 := h.before_succ b
  have h2 := h.before_le (b + 1)
  omega

theorem sum_set_le (l : List Nat) (i v : Nat) (hv : v ≤ l.getD i 0 + 1) :
    (l.set i v).sum ≤ l.sum + 1 := by
  induction l generalizing i with
  | nil => simp
  | cons x xs ih =>
    cases i with
    | zero =>
      simp only [List.set_cons_zero, List.sum_cons, List.getD_cons_zero] at hv ⊢
      omega
    | succ i =>
      simp only [List.set_cons_succ, List.sum_cons, List.getD_cons_succ] at hv ⊢
      have := ih i hv; omega

/-! ## Lemmas on `Percentile` -/

theorem Histogram.clamp_mono (h : Histogram) {x y : ℚ} (hxy : x ≤ y) :
    h.clamp x ≤ h.clamp y := by
  simp only [Histogram.clamp]
  split_ifs <;> linarith

theorem Histogram.clamp_le_max (h : Histogram) (x : ℚ) : h.clamp x ≤ h.max_ := by
  simp only [Histogram.clamp]
  split_ifs <;> linarith

theorem Histogram.min_le_clamp (h : Histogram) (x : ℚ) (hmm : h.min_ ≤ h.max_) :
    h.min_ ≤ h.clamp x := by
  simp only [Histogram.clamp]
  split_ifs <;> linarith

theorem Histogram.clamp_of_max_lt_min (h : Histogram) (x : ℚ) (hmm : h.max_ < h.min_) :
    h.clamp x = h.max_ := by
  simp only [Histogram.clamp]
  split_ifs <;> first | rfl | (exfalso; linarith)

/-- The left end of bucket `b`. -/
theorem left_point_le_right (b : Nat) (hb : b < 138) :
    (if b = 0 then (0 : ℚ) else (BucketLimit (b - 1) : ℚ)) ≤ (BucketLimit b : ℚ) := by
  split_ifs with h0
  · exact Nat.cast_nonneg _
  · exact_mod_cast BucketLimit_mono (Nat.sub_le b 1) hb

theorem left_point_nonneg (b : Nat) :
    (0 : ℚ) ≤ (if b = 0 then (0 : ℚ) else (BucketLimit (b - 1) : ℚ)) := by
  split_ifs
  · exact le_refl _
  · exact Nat.cast_nonneg _

/-- The width of a bucket is an integer that binary64 holds exactly. -/
theorem fl_width (a : Arith) (b : Nat) (hb : b < 138) :
    a.fl ((BucketLimit b : ℚ) - (if b = 0 then (0 : ℚ) else (BucketLimit (b - 1) : ℚ))) =
      (BucketLimit b : ℚ) - (if b = 0 then (0 : ℚ) else (BucketLimit (b - 1) : ℚ)) := by
  have hle := BucketLimit_le b
  split_ifs with h0
  · rw [sub_zero]
    exact a.fl_natCast _ (Or.inr (by omega))
  · have hm : BucketLimit (b - 1) ≤ BucketLimit b := BucketLimit_mono (Nat.sub_le b 1) hb
    have := a.fl_natCast (BucketLimit b - BucketLimit (b - 1)) (Or.inr (by omega))
    rwa [Nat.cast_sub hm] at this

theorem Histogram.percentileLoop_step (a : Arith) (h : Histogram) (t : ℚ) (n b : Nat)
    (hx : a = Arith.exact ∨ h.buckets_.sum ≤ 2 ^ 53) (hb : b < 138) :
    h.percentileLoop a t (n + 1) b (h.before b) =
      if t ≤ (h.before (b + 1) : ℚ) then h.clamp (h.interpolate a t b)
      else h.percentileLoop a t n (b + 1) (h.before (b + 1)) := by
  have hc : h.count b ≤ h.buckets_.sum := h.count_le b
  have hb0 : h.before b ≤ h.buckets_.sum := h.before_le b
  have hb1 : h.before (b + 1) ≤ h.buckets_.sum := h.before_le (b + 1)
  have hs : h.before (b + 1) = h.before b + h.count b := h.before_succ b
  have ex : ∀ m : ℕ, m ≤ h.buckets_.sum → a.fl (m : ℚ) = m := fun m hm =>
    a.fl_natCast m (hx.imp id (fun h2 => le_trans hm h2))
  have e1 : toDouble a (h.buckets_.getD b 0) = (h.count b : ℚ) := ex _ hc
  have e2 : a.fl ((h.before b : ℚ) + (h.count b : ℚ)) = (h.before (b + 1) : ℚ) := by
    have := ex _ hb1
    rw [hs] at this ⊢
    push_cast at this ⊢
    exact this
  have e3 : a.fl ((h.before (b + 1) : ℚ) - (h.count b : ℚ)) = (h.before b : ℚ) := by
    have := ex _ hb0
    rw [hs]; push_cast
    rw [add_sub_cancel_right]; exact this
  have e4 : a.fl ((h.before (b + 1) : ℚ) - (h.before b : ℚ)) = (h.count b : ℚ) := by
    have := ex _ hc
    rw [hs]; push_cast
    rw [add_sub_cancel_left]; exact this
  have e5 := fl_width a b hb
  simp only [Histogram.percentileLoop, e1, e2, e3, e4, toDouble_BucketLimit, ge_iff_le,
    Histogram.clamp, Histogram.interpolate, gt_iff_lt, ne_eq, Nat.cast_eq_zero, e5]

theorem Histogram.interpolate_ge (a : Arith) (h : Histogram) (t : ℚ) (b : Nat)
    (hb : b < 138) (ht : (h.before b : ℚ) ≤ t) :
    (if b = 0 then (0 : ℚ) else (BucketLimit (b - 1) : ℚ)) ≤ h.interpolate a t b := by
  have hL := left_point_nonneg b
  have hLR := left_point_le_right b hb
  have hpos : (0 : ℚ) ≤ (if h.count b ≠ 0 then
      a.fl (a.fl (t - (h.before b : ℚ)) / (h.count b : ℚ)) else 0) := by
    split_ifs
    · exact a.fl_nonneg (div_nonneg (a.fl_nonneg (by linarith)) (Nat.cast_nonneg _))
    · exact le_refl _
  have hw : (0 : ℚ) ≤ a.fl (((BucketLimit b : ℚ) -
      (if b = 0 then (0 : ℚ) else (BucketLimit (b - 1) : ℚ))) *
      (if h.count b ≠ 0 then a.fl (a.fl (t - (h.before b : ℚ)) / (h.count b : ℚ)) else 0)) :=
    a.fl_nonneg (mul_nonneg (by linarith) hpos)
  have hfix : a.fl (if b = 0 then (0 : ℚ) else (BucketLimit (b - 1) : ℚ)) =
      (if b = 0 then (0 : ℚ) else (BucketLimit (b - 1) : ℚ)) := by
    split_ifs
    · exact a.fl_zero
    · exact a.fl_natCast _ (Or.inr (le_trans (BucketLimit_le _) (by norm_num)))
  have := a.fl_mono hL (le_add_of_nonneg_right hw)
  rw [hfix] at this
  exact this

theorem Histogram.interpolate_mono (a : Arith) (h : Histogram) {t t2 : ℚ} (b : Nat)
    (hb : b < 138) (ht : (h.before b : ℚ) ≤ t) (htt : t ≤ t2) :
    h.interpolate a t b ≤ h.interpolate a t2 b := by
  have hL := left_point_nonneg b
  have hLR := left_point_le_right b hb
  have hpos : ∀ s : ℚ, (h.before b : ℚ) ≤ s → (0 : ℚ) ≤ (if h.count b ≠ 0 then
      a.fl (a.fl (s - (h.before b : ℚ)) / (h.count b : ℚ)) else 0) := by
    intro s hs
    split_ifs
    · exact a.fl_nonneg (div_nonneg (a.fl_nonneg (by linarith)) (Nat.cast_nonneg _))
    · exact le_refl _
  have hpm : (if h.count b ≠ 0 then
      a.fl (a.fl (t - (h.before b : ℚ)) / (h.count b : ℚ)) else 0) ≤
      (if h.count b ≠ 0 then
      a.fl (a.fl (t2 - (h.before b : ℚ)) / (h.count b : ℚ)) else 0) := by
    split_ifs
    · apply a.fl_mono (div_nonneg (a.fl_nonneg (by linarith)) (Nat.cast_nonneg _))
      apply div_le_div_of_nonneg_right _ (Nat.cast_nonneg _)
      exact a.fl_mono (by linarith) (by linarith)
    · exact le_refl _
  simp only [Histogram.interpolate]
  apply a.fl_mono (add_nonneg hL (a.fl_nonneg (mul_nonneg (by linarith) (hpos t ht))))
  apply add_le_add_left
  apply a.fl_mono (mul_nonneg (by linarith) (hpos t ht))
  exact mul_le_mul_of_nonneg_left hpm (by linarith)

theorem Histogram.interpolate_le (a : Arith) (h : Histogram) (t : ℚ) (b : Nat)
    (hx : a = Arith.exact ∨ h.buckets_.sum ≤ 2 ^ 53)
    (hb : b < 138) (ht : (h.before b : ℚ) ≤ t) (ht2 : t ≤ (h.before (b + 1) : ℚ)) :
    h.interpolate a t b ≤ (BucketLimit b : ℚ) := by
  have hL := left_point_nonneg b
  have hLR := left_point_le_right b hb
  have hc : h.count b ≤ h.buckets_.sum := h.count_le b
  have hs : h.before (b + 1) = h.before b + h.count b := h.before_succ b
  have hcq : t - (h.before b : ℚ) ≤ (h.count b : ℚ) := by
    rw [hs] at ht2; push_cast at ht2; linarith
  have hpos0 : (0 : ℚ) ≤ (if h.count b ≠ 0 then
      a.fl (a.fl (t - (h.before b : ℚ)) / (h.count b : ℚ)) else 0) := by
    split_ifs
    · exact a.fl_nonneg (div_nonneg (a.fl_nonneg (by linarith)) (Nat.cast_nonneg _))
    · exact le_refl _
  have hpos1 : (if h.count b ≠ 0 then
      a.fl (a.fl (t - (h.before b : ℚ)) / (h.count b : ℚ)) else 0) ≤ 1 := by
    split_ifs with hne
    · have hcpos : (0 : ℚ) < (h.count b : ℚ) := by
        exact_mod_cast Nat.pos_of_ne_zero hne
      have h1 : a.fl (t - (h.before b : ℚ)) ≤ (h.count b : ℚ) := by
        have := a.fl_mono (by linarith : (0 : ℚ) ≤ t - (h.before b : ℚ)) hcq
        rwa [a.fl_natCast _ (hx.imp id (fun h2 => le_trans hc h2))] at this
      have h2 : a.fl (t - (h.before b : ℚ)) / (h.count b : ℚ) ≤ 1 :=
        (div_le_one hcpos).2 h1
      have := a.fl_mono (div_nonneg (a.fl_nonneg (by linarith)) (le_of_lt hcpos)) h2
      have e1 : a.fl 1 = 1 := by
        have := a.fl_natCast 1 (Or.inr (by norm_num))
        simpa using this
      rwa [e1] at this
    · norm_num
  have hw : a.fl (((BucketLimit b : ℚ) -
      (if b = 0 then (0 : ℚ) else (BucketLimit (b - 1) : ℚ))) *
      (if h.count b ≠ 0 then a.fl (a.fl (t - (h.before b : ℚ)) / (h.count b : ℚ)) else 0)) ≤
      (BucketLimit b : ℚ) - (if b = 0 then (0 : ℚ) else (BucketLimit (b - 1) : ℚ)) := by
    have := a.fl_mono (mul_nonneg (by linarith) hpos0)
      (mul_le_of_le_one_right (by linarith : (0 : ℚ) ≤ (BucketLimit b : ℚ) -
        (if b = 0 then (0 : ℚ) else (BucketLimit (b - 1) : ℚ))) hpos1)
    rwa [fl_width a b hb] at this
  simp only [Histogram.interpolate]
  have hfix : a.fl (BucketLimit b : ℚ) = (BucketLimit b : ℚ) :=
    a.fl_natCast _ (Or.inr (le_trans (BucketLimit_le _) (by norm_num)))
  have := a.fl_mono (add_nonneg hL (a.fl_nonneg (mul_nonneg (by linarith) hpos0)))
    (by linarith : (if b = 0 then (0 : ℚ) else (BucketLimit (b - 1) : ℚ)) + a.fl (((BucketLimit b : ℚ) -
      (if b = 0 then (0 : ℚ) else (BucketLimit (b - 1) : ℚ))) *
      (if h.count b ≠ 0 then a.fl (a.fl (t - (h.before b : ℚ)) / (h.count b : ℚ)) else 0)) ≤
      (BucketLimit b : ℚ))
  rwa [hfix] at this

/-- One turn of the loop of `Percentile`: it returns a value that the last two
statements of the body have brought between `min_` and `max_`, or goes on to the
next bucket. -/
theorem Histogram.percentileLoop_cases (a : Arith) (h : Histogram) (t : ℚ) (n b : Nat)
    (sum : ℚ) :
    (∃ r, h.percentileLoop a t (n + 1) b sum = h.clamp r) ∨
    h.percentileLoop a t (n + 1) b sum =
      h.percentileLoop a t n (b + 1) (a.fl (sum + toDouble a (h.buckets_.getD b 0))) := by
  by_cases hc : a.fl (sum + toDouble a (h.buckets_.getD b 0)) ≥ t
  · left
    simp only [Histogram.percentileLoop]
    rw [if_pos hc]
    exact ⟨_, rfl⟩
  · right
    simp only [Histogram.percentileLoop]
    rw [if_neg hc]

/-- Whatever the arithmetic and the buckets, `Percentile` returns at most `max_`. -/
theorem Histogram.percentileLoop_le_max (a : Arith) (h : Histogram) (t : ℚ) :
    ∀ (n b : Nat) (sum : ℚ), h.percentileLoop a t n b sum ≤ h.max_ := by
  intro n
  induction n with
  | zero => intro b sum; simp [Histogram.percentileLoop]
  | succ n ih =>
    intro b sum
    rcases h.percentileLoop_cases a t n b sum with ⟨r, hr⟩ | hr
    · rw [hr]; exact h.clamp_le_max r
    · rw [hr]; exact ih _ _

theorem Histogram.min_le_percentileLoop (a : Arith) (h : Histogram) (t : ℚ)
    (hmm : h.min_ ≤ h.max_) :
    ∀ (n b : Nat) (sum : ℚ), h.min_ ≤ h.percentileLoop a t n b sum := by
  intro n
  induction n with
  | zero => intro b sum; simpa [Histogram.percentileLoop] using hmm
  | succ n ih =>
    intro b sum
    rcases h.percentileLoop_cases a t n b sum with ⟨r, hr⟩ | hr
    · rw [hr]; exact h.min_le_clamp r hmm
    · rw [hr]; exact ih _ _

/-- With `max_` below `min_`, as after the constructor, the loop returns `max_`. -/
theorem Histogram.percentileLoop_of_max_lt_min (a : Arith) (h : Histogram) (t : ℚ)
    (hmm : h.max_ < h.min_) :
    ∀ (n b : Nat) (sum : ℚ), h.percentileLoop a t n b sum = h.max_ := by
  intro n
  induction n with
  | zero => intro b sum; simp [Histogram.percentileLoop]
  | succ n ih =>
    intro b sum
    rcases h.percentileLoop_cases a t n b sum with ⟨r, hr⟩ | hr
    · rw [hr]; exact h.clamp_of_max_lt_min r hmm
    · rw [hr]; exact ih _ _

/-- From bucket `b` on the loop returns at least what the left end of bucket `b`
is brought to. -/
theorem Histogram.percentileLoop_ge (a : Arith) (h : Histogram) (t : ℚ)
    (hx : a = Arith.exact ∨ h.buckets_.sum ≤ 2 ^ 53) :
    ∀ (n b : Nat), b + n ≤ 138 → (h.before b : ℚ) ≤ t →
      h.clamp (if b = 0 then (0 : ℚ) else (BucketLimit (b - 1) : ℚ)) ≤
        h.percentileLoop a t n b (h.before b) := by
  intro n
  induction n with
  | zero =>
    intro b _ _
    simpa [Histogram.percentileLoop] using h.clamp_le_max _
  | succ n ih =>
    intro b hb ht
    rw [h.percentileLoop_step a t n b hx (by omega)]
    by_cases h1 : t ≤ (h.before (b + 1) : ℚ)
    · rw [if_pos h1]
      exact h.clamp_mono (h.interpolate_ge a t b (by omega) ht)
    · rw [if_neg h1]
      have h2 := ih (b + 1) (by omega) (le_of_lt (not_le.1 h1))
      refine le_trans (h.clamp_mono ?_) h2
      simp only [Nat.add_sub_cancel, if_neg (Nat.succ_ne_zero b)]
      exact left_point_le_right b (by omega)

/-- The loop of `Percentile` is monotone in the threshold. -/
theorem Histogram.percentileLoop_mono (a : Arith) (h : Histogram)
    (hx : a = Arith.exact ∨ h.buckets_.sum ≤ 2 ^ 53) {t t2 : ℚ} (htt : t ≤ t2) :
    ∀ (n b : Nat), b + n ≤ 138 → (h.before b : ℚ) ≤ t →
      h.percentileLoop a t n b (h.before b) ≤ h.percentileLoop a t2 n b (h.before b) := by
  intro n
  induction n with
  | zero => intro b _ _; simp [Histogram.percentileLoop]
  | succ n ih =>
    intro b hb ht
    rw [h.percentileLoop_step a t n b hx (by omega),
      h.percentileLoop_step a t2 n b hx (by omega)]
    by_cases h2 : t2 ≤ (h.before (b + 1) : ℚ)
    · rw [if_pos h2, if_pos (le_trans htt h2)]
      exact h.clamp_mono (h.interpolate_mono a b (by omega) ht htt)
    · rw [if_neg h2]
      by_cases h1 : t ≤ (h.before (b + 1) : ℚ)
      · rw [if_pos h1]
        have h3 := h.percentileLoop_ge a t2 hx n (b + 1) (by omega) (le_of_lt (not_le.1 h2))
        refine le_trans (h.clamp_mono ?_) h3
        simp only [Nat.add_sub_cancel, if_neg (Nat.succ_ne_zero b)]
        exact h.interpolate_le a t b hx (by omega) ht h1
      · rw [if_neg h1]
        exact ih (b + 1) (by omega) (le_of_lt (not_le.1 h1))

theorem BucketCount_eq : BucketCount = 138 := bucketValues_length

theorem Histogram.before_zero (h : Histogram) : h.before 0 = 0 := by
  simp [Histogram.before]

/-- `Percentile` is monotone in `p` on every histogram whose `num_` is not negative
and whose bucket counts are summed exactly. -/
theorem Histogram.Percentile_mono (a : Arith) (h : Histogram)
    (hx : a = Arith.exact ∨ h.buckets_.sum ≤ 2 ^ 53) (hnum : 0 ≤ h.num_)
    {p q : ℚ} (hp : 0 ≤ p) (hpq : p ≤ q) : h.Percentile a p ≤ h.Percentile a q := by
  have h1 : a.fl (p / 100) ≤ a.fl (q / 100) :=
    a.fl_mono (div_nonneg hp (by norm_num)) (div_le_div_of_nonneg_right hpq (by norm_num))
  have h0 : 0 ≤ a.fl (p / 100) := a.fl_nonneg (div_nonneg hp (by norm_num))
  have h2 : a.fl (h.num_ * a.fl (p / 100)) ≤ a.fl (h.num_ * a.fl (q / 100)) :=
    a.fl_mono (mul_nonneg hnum h0) (mul_le_mul_of_nonneg_left h1 hnum)
  have h3 : 0 ≤ a.fl (h.num_ * a.fl (p / 100)) := a.fl_nonneg (mul_nonneg hnum h0)
  have := h.percentileLoop_mono a hx h2 BucketCount 0 (by rw [BucketCount_eq])
    (by rw [h.before_zero]; simpa using h3)
  rw [h.before_zero] at this
  simpa [Histogram.Percentile] using this

/-! ## Lemmas on `Add` -/

theorem Histogram.Add_sum_le (a : Arith) (h : Histogram) (v : Nat) :
    (h.Add a v).buckets_.sum ≤ h.buckets_.sum + 1 := by
  simp only [Histogram.Add]
  apply sum_set_le
  unfold BlockCache.wrap64
  exact Nat.mod_le _ _

theorem Histogram.addAll_sum_le (a : Arith) (values : List Nat) :
    ∀ h : Histogram, (h.addAll a values).buckets_.sum ≤ h.buckets_.sum + values.length := by
  induction values with
  | nil => intro h; simp [Histogram.addAll]
  | cons v vs ih =>
    intro h
    have h1 := ih (h.Add a v)
    have h2 := h.Add_sum_le a v
    simp only [Histogram.addAll, List.foldl_cons, List.length_cons] at h1 ⊢
    omega

theorem Histogram.new_sum (a : Arith) : (Histogram.new a).buckets_.sum = 0 := by
  simp [Histogram.new]

theorem Histogram.addAll_num_nonneg (a : Arith) (values : List Nat) :
    ∀ h : Histogram, 0 ≤ h.num_ → 0 ≤ (h.addAll a values).num_ := by
  induction values with
  | nil => intro h hn; simpa [Histogram.addAll] using hn
  | cons v vs ih =>
    intro h hn
    simp only [Histogram.addAll, List.foldl_cons]
    apply ih
    simp only [Histogram.Add]
    exact a.fl_nonneg (by linarith)

/-- When the threshold is within the total of the buckets, the loop of `Percentile`
returns from a bucket, with a value interpolated below the last bucket limit. -/
theorem Histogram.percentileLoop_le_last (a : Arith) (h : Histogram) (t : ℚ)
    (hx : a = Arith.exact ∨ h.buckets_.sum ≤ 2 ^ 53) (ht2 : t ≤ (h.before 138 : ℚ)) :
    ∀ (n b : Nat), b + (n + 1) = 138 → (h.before b : ℚ) ≤ t →
      h.percentileLoop a t (n + 1) b (h.before b) ≤ h.clamp 1000000000 := by
  intro n
  induction n with
  | zero =>
    intro b hb ht
    have hb2 : b = 137 := by omega
    subst hb2
    rw [h.percentileLoop_step a t 0 137 hx (by omega), if_pos ht2]
    apply h.clamp_mono
    refine le_trans (h.interpolate_le a t 137 hx (by omega) ht ht2) ?_
    exact_mod_cast BucketLimit_le 137
  | succ n ih =>
    intro b hb ht
    rw [h.percentileLoop_step a t (n + 1) b hx (by omega)]
    by_cases h1 : t ≤ (h.before (b + 1) : ℚ)
    · rw [if_pos h1]
      apply h.clamp_mono
      refine le_trans (h.interpolate_le a t b hx (by omega) ht h1) ?_
      exact_mod_cast BucketLimit_le b
    · rw [if_neg h1]
      exact ih (b + 1) (by omega) (le_of_lt (not_le.1 h1))

theorem roundBinary64_half : roundBinary64 (1 / 2) = 1 / 2 := by
  have hx : (0 : ℚ) < 1 / 2 := by norm_num
  have hl : Int.log 2 (1 / 2 : ℚ) = -1 := by
    have := Int.log_zpow (R := ℚ) (b := 2) (by norm_num) (-1)
    have e : (((2 : ℕ) : ℚ) ^ (-1 : ℤ)) = 1 / 2 := by norm_num
    rwa [e] at this
  apply roundBinary64_of_int hx ((2 : ℤ) ^ 52)
  rw [hl]
  norm_num

theorem Arith.fl_half (a : Arith) : a.fl (1 / 2) = 1 / 2 := by
  cases a
  · rfl
  · exact roundBinary64_half

theorem Arith.fl_one (a : Arith) : a.fl 1 = 1 := by
  have := a.fl_natCast 1 (Or.inr (by norm_num))
  simpa using this

/-! ## Lemmas on `Average` -/

theorem Histogram.addAll_exact_num (values : List Nat) :
    ∀ h : Histogram, (h.addAll Arith.exact values).num_ = h.num_ + values.length := by
  induction values with
  | nil => intro h; simp [Histogram.addAll]
  | cons v vs ih =>
    intro h
    have := ih (h.Add Arith.exact v)
    simp only [Histogram.addAll, List.foldl_cons, List.length_cons] at this ⊢
    rw [this]
    simp only [Histogram.Add, Arith.fl]
    push_cast
    ring

theorem Histogram.addAll_exact_sum (values : List Nat) :
    ∀ h : Histogram, (h.addAll Arith.exact values).sum_ = h.sum_ + (values.sum : ℚ) := by
  induction values with
  | nil => intro h; simp [Histogram.addAll]
  | cons v vs ih =>
    intro h
    have := ih (h.Add Arith.exact v)
    simp only [Histogram.addAll, List.foldl_cons, List.sum_cons] at this ⊢
    rw [this]
    simp only [Histogram.Add, Arith.fl, toDouble]
    push_cast
    ring

/-! ## Lemmas on `min_` and `max_` -/

theorem toDouble_nonneg (a : Arith) (n : Nat) : 0 ≤ toDouble a n :=
  a.fl_nonneg (Nat.cast_nonneg n)

theorem Histogram.tracks_new (a : Arith) : (Histogram.new a).tracks a [] := by
  simp [Histogram.tracks, Histogram.new, toDouble_LastValue]

theorem Histogram.tracks_Add (a : Arith) (h : Histogram) (seen : List Nat) (v : Nat)
    (ht : h.tracks a seen) : (h.Add a v).tracks a (seen ++ [v]) := by
  obtain ⟨h1, h2, h3, h4, h5⟩ := ht
  simp only [Histogram.tracks, Histogram.Add, List.mem_append, List.mem_singleton]
  refine ⟨?_, ?_, ?_, ?_, ?_⟩
  · split_ifs with hc
    · exact Or.inr ⟨v, Or.inr rfl, rfl⟩
    · rcases h1 with h1 | ⟨w, hw, e⟩
      · exact Or.inl h1
      · exact Or.inr ⟨w, Or.inl hw, e⟩
  · intro w hw
    split_ifs with hc
    · rcases hw with hw | hw
      · exact le_trans (h2 w hw) (le_of_lt hc)
      · rw [hw]
    · rcases hw with hw | hw
      · exact h2 w hw
      · rw [hw]; exact not_lt.1 hc
  · split_ifs with hc
    · exact Or.inr ⟨v, Or.inr rfl, rfl⟩
    · rcases h3 with h3 | ⟨w, hw, e⟩
      · exact Or.inl h3
      · exact Or.inr ⟨w, Or.inl hw, e⟩
  · intro w hw
    split_ifs with hc
    · rcases hw with hw | hw
      · exact le_trans (le_of_lt hc) (h4 w hw)
      · rw [hw]
    · rcases hw with hw | hw
      · exact h4 w hw
      · rw [hw]; exact not_lt.1 hc
  · split_ifs with hc
    · exact le_trans (le_of_lt hc) h5
    · exact h5

theorem Histogram.tracks_addAll (a : Arith) (values : List Nat) :
    ∀ (h : Histogram) (seen : List Nat), h.tracks a seen →
      (h.addAll a values).tracks a (seen ++ values) := by
  induction values with
  | nil => intro h seen ht; simpa [Histogram.addAll] using ht
  | cons v vs ih =>
    intro h seen ht
    have := ih (h.Add a v) (seen ++ [v]) (h.tracks_Add a seen v ht)
    simpa [Histogram.addAll] using this

/-- What `Percentile` returns lies between `min_` and `max_` when these are in
order, whatever the arithmetic. -/
theorem Histogram.Percentile_range (a : Arith) (h : Histogram) (p : ℚ)
    (hmm : h.min_ ≤ h.max_) : h.min_ ≤ h.Percentile a p ∧ h.Percentile a p ≤ h.max_ :=
  ⟨h.min_le_percentileLoop a _ hmm _ _ _, h.percentileLoop_le_max a _ _ _ _⟩

/-- The part of `Percentile stays within the data` that holds: for a non-empty list
of values, `Percentile(p)` is at most one of the values (the largest), and it is at
least one of the values (the smallest) or at least the last bucket limit. -/
theorem Histogram.Percentile_within (a : Arith) (values : List Nat) (hne : values ≠ [])
    (p : ℚ) :
    (∃ v ∈ values, ((Histogram.new a).addAll a values).Percentile a p ≤ toDouble a v) ∧
    ((∃ v ∈ values, toDouble a v ≤ ((Histogram.new a).addAll a values).Percentile a p) ∨
      1000000000 ≤ ((Histogram.new a).addAll a values).Percentile a p) := by
  have ht := Histogram.tracks_addAll a values _ [] (Histogram.tracks_new a)
  rw [List.nil_append] at ht
  obtain ⟨h1, h2, h3, h4, h5⟩ := ht
  obtain ⟨w, hw⟩ := List.exists_mem_of_ne_nil values hne
  have hmm : ((Histogram.new a).addAll a values).min_ ≤
      ((Histogram.new a).addAll a values).max_ := le_trans (h4 w hw) (h2 w hw)
  obtain ⟨r1, r2⟩ := Histogram.Percentile_range a _ p hmm
  constructor
  · rcases h1 with h1 | ⟨v, hv, e⟩
    · refine ⟨w, hw, le_trans r2 ?_⟩
      rw [h1]; exact toDouble_nonneg a w
    · exact ⟨v, hv, by rw [← e]; exact r2⟩
  · rcases h3 with h3 | ⟨v, hv, e⟩
    · right; rw [← h3]; exact r1
    · left; exact ⟨v, hv, by rw [← e]; exact r1⟩

/-- The histogram of the single value 2000000000, which is above the last bucket
limit: `min_` stays at the last bucket limit. -/
theorem Histogram.single_large (a : Arith) :
    ((Histogram.new a).addAll a [2000000000]).min_ = 1000000000 ∧
    ((Histogram.new a).addAll a [2000000000]).max_ = 2000000000 ∧
    ((Histogram.new a).addAll a [2000000000]).num_ = 1 ∧
    ((Histogram.new a).addAll a [2000000000]).buckets_ = (List.replicate 137 0) ++ [1] := by
  have e1 : toDouble a 2000000000 = 2000000000 := by
    have := a.fl_natCast 2000000000 (Or.inr (by norm_num))
    simpa [toDouble] using this
  have e2 : IndexForValue 2000000000 = 137 := by
    set_option maxRecDepth 100000 in decide
  have e3 : (List.replicate BucketCount 0).set 137
      (BlockCache.wrap64 ((List.replicate BucketCount 0).getD 137 0 + 1)) =
        (List.replicate 137 0) ++ [1] := by
    set_option maxRecDepth 100000 in decide
  simp only [Histogram.addAll, List.foldl_cons, List.foldl_nil, Histogram.Add, Histogram.new,
    e1, e2, e3, toDouble_LastValue, zero_add, a.fl_one]
  norm_num

/-- While the count and the sum stay within 53 bits, `num_` and `sum_` are the exact
count and sum of the values added. -/
theorem Histogram.addAll_num_sum (a : Arith) (values : List Nat) :
    ∀ (h : Histogram) (N S : ℕ), h.num_ = N → h.sum_ = S →
      (a = Arith.exact ∨ (N + values.length ≤ 2 ^ 53 ∧ S + values.sum ≤ 2 ^ 53)) →
      (h.addAll a values).num_ = ((N + values.length : ℕ) : ℚ) ∧
      (h.addAll a values).sum_ = ((S + values.sum : ℕ) : ℚ) := by
  induction values with
  | nil => intro h N S hn hs _; simpa [Histogram.addAll] using ⟨hn, hs⟩
  | cons v vs ih =>
    intro h N S hn hs hx
    simp only [List.length_cons, List.sum_cons] at hx ⊢
    have e1 : a.fl ((N : ℚ) + 1) = ((N + 1 : ℕ) : ℚ) := by
      have := a.fl_natCast (N + 1) (hx.imp id (fun h2 => by omega))
      rw [← this]; push_cast; rfl
    have e2 : toDouble a v = (v : ℚ) :=
      a.fl_natCast v (hx.imp id (fun h2 => by omega))
    have e3 : a.fl ((S : ℚ) + (v : ℚ)) = ((S + v : ℕ) : ℚ) := by
      have := a.fl_natCast (S + v) (hx.imp id (fun h2 => by omega))
      rw [← this]; push_cast; rfl
    have := ih (h.Add a v) (N + 1) (S + v)
      (by simp only [Histogram.Add, hn, e1])
      (by simp only [Histogram.Add, hs, e2, e3])
      (hx.imp id (fun h2 => ⟨by omega, by omega⟩))
    simp only [Histogram.addAll, List.foldl_cons] at this ⊢
    rw [this.1, this.2]
    constructor <;> congr 1 <;> omega

/-- In either arithmetic, while the count and the sum stay within 53 bits,
`Average()` is the quotient of the sum and the count, rounded once. -/
theorem Histogram.Average_rounded (a : Arith) (values : List Nat) (hne : values ≠ [])
    (hx : a = Arith.exact ∨ (values.length ≤ 2 ^ 53 ∧ values.sum ≤ 2 ^ 53)) :
    ((Histogram.new a).addAll a values).Average a =
      a.fl ((values.sum : ℚ) / (values.length : ℚ)) := by
  obtain ⟨h1, h2⟩ := Histogram.addAll_num_sum a values (Histogram.new a) 0 0
    (by simp [Histogram.new]) (by simp [Histogram.new])
    (hx.imp id (fun h => ⟨by omega, by omega⟩))
  have hlen : (values.length : ℚ) ≠ 0 := by
    have : values.length ≠ 0 := fun h => hne (List.length_eq_zero.1 h)
    exact_mod_cast this
  simp only [Histogram.Average, h1, h2, Nat.zero_add, if_neg hlen]

/-! ## Claims on the histogram -/

/-- C13: an empty histogram has no statistics. For a newly constructed `Histogram`,
in either arithmetic, `Median()` is 0, `Average()` is 0 and `Percentile(p)` is 0 for
every `p`, those of `[0, 100]` among them. -/
theorem C13_empty_histogram (a : Arith) :
    (Histogram.new a).Median a = 0 ∧ (Histogram.new a).Average a = 0 ∧
    ∀ p : ℚ, (Histogram.new a).Percentile a p = 0 := by
  have hmm : (Histogram.new a).max_ < (Histogram.new a).min_ := by
    simp only [Histogram.new, toDouble_LastValue]
    norm_num
  have hp : ∀ p : ℚ, (Histogram.new a).Percentile a p = 0 := fun p =>
    (Histogram.new a).percentileLoop_of_max_lt_min a _ hmm _ _ _
  exact ⟨hp 50, by simp [Histogram.Average, Histogram.new], hp⟩

/-- C14: `Clear` zeroes the statistics. Whatever values were added to a histogram,
after `Clear()` its `Median()` is 0, its `Average()` is 0 and its `Percentile(p)` is
0 for every `p`, in either arithmetic. -/
theorem C14_clear_zeroes_statistics (a : Arith) (values : List Nat) :
    (((Histogram.new a).addAll a values).Clear a).Median a = 0 ∧
    (((Histogram.new a).addAll a values).Clear a).Average a = 0 ∧
    ∀ p : ℚ, (((Histogram.new a).addAll a values).Clear a).Percentile a p = 0 := by
  have hmm : (((Histogram.new a).addAll a values).Clear a).max_ <
      (((Histogram.new a).addAll a values).Clear a).min_ := by
    simp only [Histogram.Clear, toDouble_LastValue]
    norm_num
  have hp : ∀ p : ℚ, (((Histogram.new a).addAll a values).Clear a).Percentile a p = 0 :=
    fun p => Histogram.percentileLoop_of_max_lt_min a _ _ hmm _ _ _
  exact ⟨hp 50, by simp [Histogram.Average, Histogram.Clear], hp⟩

/-- C15: the average is exact. For every non-empty list of values added to a new
histogram, `Average()` in exact rational arithmetic is the sum of the values
divided by their number. -/
theorem C15_average_exact (values : List Nat) (hne : values ≠ []) :
    ((Histogram.new Arith.exact).addAll Arith.exact values).Average Arith.exact =
      (values.sum : ℚ) / (values.length : ℚ) := by
  have hlen : (values.length : ℚ) ≠ 0 := by
    have : values.length ≠ 0 := fun h => hne (List.length_eq_zero.1 h)
    exact_mod_cast this
  simp only [Histogram.Average, Histogram.addAll_exact_num, Histogram.addAll_exact_sum,
    Histogram.new, zero_add, if_neg hlen, Arith.fl]

/-- C15 on the values 1..100 of the test: the average is 50.5. -/
theorem C15_average_exact_witness :
    List.range' 1 100 ≠ [] ∧
    ((Histogram.new Arith.exact).addAll Arith.exact (List.range' 1 100)).Average Arith.exact =
      ((List.range' 1 100).sum : ℚ) / ((List.range' 1 100).length : ℚ) ∧
    (((List.range' 1 100).sum : ℚ) / ((List.range' 1 100).length : ℚ) = 101 / 2) :=
  ⟨by decide, C15_average_exact (List.range' 1 100) (by decide), by
    have h1 : (List.range' 1 100).sum = 5050 := by decide
    have h2 : (List.range' 1 100).length = 100 := by decide
    rw [h1, h2]; norm_num⟩

/-- C16 at its failing input: after `Add(2000000000)` on a new histogram,
`Percentile(50.0)`, the median, is 1000000000 in either arithmetic, which is below
the only value added. `min_` starts at the last bucket limit, 1000000000, and `Add`
lowers it only for smaller values; the value interpolated in the last bucket is at
most that limit and `if (r < min_) r = min_` lifts it to 1000000000. -/
theorem C16_percentile_below_data (a : Arith) :
    ((Histogram.new a).addAll a [2000000000]).Percentile a 50 = 1000000000 := by
  obtain ⟨hmin, hmax, hnum, hb⟩ := Histogram.single_large a
  have hsum : ((Histogram.new a).addAll a [2000000000]).buckets_.sum = 1 := by
    rw [hb]; simp
  have hx : a = Arith.exact ∨
      ((Histogram.new a).addAll a [2000000000]).buckets_.sum ≤ 2 ^ 53 :=
    Or.inr (by rw [hsum]; norm_num)
  have h138 : ((Histogram.new a).addAll a [2000000000]).before 138 = 1 := by
    simp only [Histogram.before, hb]
    simp
  have ht : a.fl (((Histogram.new a).addAll a [2000000000]).num_ * a.fl (50 / 100)) = 1 / 2 := by
    rw [hnum, show (50 : ℚ) / 100 = 1 / 2 by norm_num, a.fl_half, one_mul, a.fl_half]
  have hmm : ((Histogram.new a).addAll a [2000000000]).min_ ≤
      ((Histogram.new a).addAll a [2000000000]).max_ := by
    rw [hmin, hmax]; norm_num
  have hclamp : ((Histogram.new a).addAll a [2000000000]).clamp 1000000000 = 1000000000 := by
    simp only [Histogram.clamp, hmin, hmax]
    norm_num
  have hle := Histogram.percentileLoop_le_last a _ (1 / 2) hx
    (by rw [h138]; norm_num) 137 0 (by norm_num)
    (by rw [Histogram.before_zero]; norm_num)
  have hge := Histogram.min_le_percentileLoop a ((Histogram.new a).addAll a [2000000000])
    (1 / 2) hmm 138 0 0
  rw [Histogram.before_zero, hclamp] at hle
  rw [hmin] at hge
  simp only [Histogram.Percentile, ht, BucketCount_eq]
  exact le_antisymm (by simpa using hle) hge

set_option maxRecDepth 100000 in
/-- The map of the constructor holds the bucket limits in order, each with its index. -/
theorem valueIndexMap_eq :
    valueIndexMap_ = (bucketValues_.enumFrom 0).map (fun p => (p.2, p.1)) := by decide

/-- On a map that holds the elements of `xs` in order, each with its index from `k`
on, `lower_bound` finds the first element not less than `v`. -/
theorem lower_bound_enumFrom (v : Nat) : ∀ (xs : List Nat) (k : Nat) (e : Nat × Nat),
    lower_bound ((xs.enumFrom k).map (fun p => (p.2, p.1))) v = some e →
      k ≤ e.2 ∧ e.2 - k < xs.length ∧ xs.getD (e.2 - k) 0 = e.1 ∧ v ≤ e.1 ∧
        ∀ j, j < e.2 - k → xs.getD j 0 < v := by
  intro xs
  induction xs with
  | nil => intro k e h; simp [lower_bound] at h
  | cons x rest ih =>
    intro k e h
    simp only [lower_bound, List.enumFrom_cons, List.map_cons, List.find?_cons] at h
    by_cases hx : v ≤ x
    · simp only [hx, decide_True, Option.some.injEq] at h
      subst h
      simp [hx]
    · simp only [hx, decide_False] at h
      obtain ⟨h1, h2, h3, h4, h5⟩ := ih (k + 1) e h
      have hk : e.2 - k = (e.2 - (k + 1)) + 1 := by omega
      refine ⟨by omega, ?_, ?_, h4, ?_⟩
      · rw [List.length_cons]; omega
      · rw [hk, List.getD_cons_succ]; exact h3
      · intro j hj
        cases j with
        | zero => simpa using not_le.1 hx
        | succ j =>
          rw [List.getD_cons_succ]
          exact h5 j (by omega)

/-- When `lower_bound` is `end()`, every key of the map is less than `v`. -/
theorem lower_bound_none (v : Nat) : ∀ (xs : List Nat) (k : Nat),
    lower_bound ((xs.enumFrom k).map (fun p => (p.2, p.1))) v = none →
      ∀ x ∈ xs, x < v := by
  intro xs k h x hx
  simp only [lower_bound, List.find?_eq_none, List.mem_map, decide_eq_true_eq, not_le] at h
  obtain ⟨i, hi⟩ := List.getElem_of_mem hx
  obtain ⟨hi1, hi2⟩ := hi
  have := h (x, k + i) ⟨(k + i, x), ?_, rfl⟩
  · exact this
  · rw [List.mem_iff_getElem]
    refine ⟨i, by simpa using hi1, ?_⟩
    simp [hi2]

set_option maxRecDepth 100000 in
/-- The member `maxBucketValue_` is the last bucket limit. -/
theorem maxBucketValue_eq : maxBucketValue_ = 1000000000 := by decide

set_option maxRecDepth 100000 in
/-- The member `minBucketValue_` is the first bucket limit. -/
theorem minBucketValue_eq : minBucketValue_ = 1 := by decide

set_option maxRecDepth 100000 in
/-- The last bucket limit is a bucket limit. -/
theorem maxBucketValue_mem : 1000000000 ∈ bucketValues_ := by decide

set_option maxRecDepth 100000 in
/-- The limit of the last bucket. -/
theorem bucketValues_last : bucketValues_.getD 137 0 = 1000000000 := by decide

set_option maxRecDepth 100000 in
/-- The limit of the first bucket. -/
theorem bucketValues_first : bucketValues_.getD 0 0 = 1 := by decide

set_option maxRecDepth 100000 in
/-- Every bucket limit before the last is below it. -/
theorem bucketValues_before_last :
    ∀ j, j < 137 → bucketValues_.getD j 0 < 1000000000 := by decide

/-- Below the last bucket limit `lower_bound` is not `end()`. -/
theorem lower_bound_isSome (v : Nat) (hv : v < maxBucketValue_) :
    (lower_bound valueIndexMap_ v).isSome = true := by
  cases h : lower_bound valueIndexMap_ v with
  | some e => rfl
  | none =>
    rw [valueIndexMap_eq] at h
    have := lower_bound_none v bucketValues_ 0 h 1000000000 maxBucketValue_mem
    rw [maxBucketValue_eq] at hv
    omega

/-- `IndexForValue(v)` is the index of a bucket; up to the last bucket limit it is
the least index whose limit is at least `v`, above it the last index. -/
theorem IndexForValue_spec (v : Nat) :
    IndexForValue v < 138 ∧
    (v ≤ 1000000000 → v ≤ bucketValues_.getD (IndexForValue v) 0 ∧
      ∀ j, j < IndexForValue v → bucketValues_.getD j 0 < v) ∧
    (1000000000 ≤ v → IndexForValue v = 137) := by
  unfold IndexForValue
  rw [maxBucketValue_eq, minBucketValue_eq, bucketValues_length]
  by_cases h1 : v ≥ 1000000000
  · rw [if_pos h1]
    refine ⟨by norm_num, fun h2 => ?_, fun _ => rfl⟩
    have hv : v = 1000000000 := le_antisymm h2 h1
    subst hv
    refine ⟨by rw [bucketValues_last], fun j hj => ?_⟩
    exact bucketValues_before_last j hj
  · rw [if_neg h1]
    by_cases h2 : v ≥ 1
    · rw [if_pos h2]
      cases h : lower_bound valueIndexMap_ v with
      | none =>
        have := lower_bound_isSome v (by rw [maxBucketValue_eq]; omega)
        rw [h] at this
        simp at this
      | some e =>
        rw [valueIndexMap_eq] at h
        obtain ⟨_, h4, h5, h6, h7⟩ := lower_bound_enumFrom v bucketValues_ 0 e h
        rw [Nat.sub_zero] at h4 h5 h7
        rw [bucketValues_length] at h4
        refine ⟨h4, fun _ => ⟨by rw [h5]; exact h6, h7⟩, fun h8 => absurd h8 h1⟩
    · rw [if_neg h2]
      refine ⟨by norm_num, fun _ => ⟨by omega, fun j hj => by omega⟩, fun h8 => absurd h8 h1⟩

/-- `IndexForValue` is non-decreasing. -/
theorem IndexForValue_mono {v w : Nat} (hvw : v ≤ w) : IndexForValue v ≤ IndexForValue w := by
  obtain ⟨hv1, hv2, _⟩ := IndexForValue_spec v
  obtain ⟨_, hw2, hw3⟩ := IndexForValue_spec w
  by_cases hw : 1000000000 ≤ w
  · rw [hw3 hw]; omega
  · by_contra hlt
    have h1 := (hv2 (by omega)).2 _ (not_le.1 hlt)
    have h2 := (hw2 (by omega)).1
    omega

/-! ## Lemmas on the number of buckets -/

/-- `Add` keeps the number of buckets. -/
theorem Histogram.Add_length (a : Arith) (h : Histogram) (v : Nat) :
    (h.Add a v).buckets_.length = h.buckets_.length := by
  simp [Histogram.Add]

/-- A list of `Add`s keeps the number of buckets. -/
theorem Histogram.addAll_length (a : Arith) (values : List Nat) : ∀ h : Histogram,
    (h.addAll a values).buckets_.length = h.buckets_.length := by
  induction values with
  | nil => intro h; rfl
  | cons v rest ih =>
    intro h
    simp only [Histogram.addAll, List.foldl_cons]
    exact (ih (h.Add a v)).trans (h.Add_length a v)

/-- A new histogram has 138 buckets. -/
theorem Histogram.new_length (a : Arith) : (Histogram.new a).buckets_.length = 138 := by
  simp [Histogram.new, BucketCount_eq]

/-! ## Lemmas on `Clear` -/

/-- The call `v.resize(n, x)` gives a vector of `n` elements. -/
theorem resize_length (v : List Nat) (n x : Nat) : (resize v n x).length = n := by
  simp only [resize, List.length_append, List.length_take, List.length_replicate]
  omega

/-- The call `v.resize(v.size(), x)` leaves the vector as it is. -/
theorem resize_self (v : List Nat) (x : Nat) : resize v v.length x = v := by
  simp [resize]

/-- `Clear` leaves the bucket counts of a histogram with `BucketCount` buckets. -/
theorem Histogram.Clear_buckets (a : Arith) (h : Histogram)
    (hlen : h.buckets_.length = BucketCount) : (h.Clear a).buckets_ = h.buckets_ := by
  simp only [Histogram.Clear]
  rw [← hlen]
  exact resize_self _ 0

/-- The bucket counts after a list of `Add`s do not depend on the arithmetic. -/
theorem Histogram.addAll_buckets (a : Arith) (values : List Nat) : ∀ h : Histogram,
    (h.addAll a values).buckets_ =
      values.foldl (fun b v => b.set (IndexForValue v)
        (BlockCache.wrap64 (b.getD (IndexForValue v) 0 + 1))) h.buckets_ := by
  induction values with
  | nil => intro h; rfl
  | cons v rest ih =>
    intro h
    simp only [Histogram.addAll, List.foldl_cons]
    exact ih (h.Add a v)

/-- The five members of type `double` after a list of `Add`s depend on their values
before it only. -/
theorem Histogram.addAll_scalars (a : Arith) (values : List Nat) : ∀ h h2 : Histogram,
    h.min_ = h2.min_ → h.max_ = h2.max_ → h.num_ = h2.num_ → h.sum_ = h2.sum_ →
    h.sum_squares_ = h2.sum_squares_ →
      (h.addAll a values).min_ = (h2.addAll a values).min_ ∧
      (h.addAll a values).max_ = (h2.addAll a values).max_ ∧
      (h.addAll a values).num_ = (h2.addAll a values).num_ ∧
      (h.addAll a values).sum_ = (h2.addAll a values).sum_ ∧
      (h.addAll a values).sum_squares_ = (h2.addAll a values).sum_squares_ := by
  induction values with
  | nil => intro h h2 h1 h3 h4 h5 h6; exact ⟨h1, h3, h4, h5, h6⟩
  | cons v rest ih =>
    intro h h2 h1 h3 h4 h5 h6
    simp only [Histogram.addAll, List.foldl_cons]
    exact ih (h.Add a v) (h2.Add a v) (by simp only [Histogram.Add, h1])
      (by simp only [Histogram.Add, h3]) (by simp only [Histogram.Add, h4])
      (by simp only [Histogram.Add, h5]) (by simp only [Histogram.Add, h6])

/-- The number of values counted before a bucket grows with the bucket. -/
theorem Histogram.before_mono (h : Histogram) {i j : Nat} (hij : i ≤ j) :
    h.before i ≤ h.before j := by
  induction j with
  | zero => rw [Nat.le_zero.1 hij]
  | succ j ih =>
    rcases Nat.lt_or_ge i (j + 1) with hlt | hge
    · have := ih (by omega)
      rw [h.before_succ j]
      omega
    · rw [le_antisymm hij hge]

/-- When the counts before bucket `b` are below the threshold and those up to bucket
`b` reach it, the loop of `Percentile` returns from bucket `b`. -/
theorem Histogram.percentileLoop_at (a : Arith) (h : Histogram) (t : ℚ)
    (hx : a = Arith.exact ∨ h.buckets_.sum ≤ 2 ^ 53) (b : Nat) (hb : b < 138)
    (hlo : b = 0 ∨ (h.before b : ℚ) < t) (hhi : t ≤ (h.before (b + 1) : ℚ)) :
    ∀ (n s : Nat), s ≤ b → b < s + n →
      h.percentileLoop a t n s (h.before s) = h.clamp (h.interpolate a t b) := by
  intro n
  induction n with
  | zero => intro s h1 h2; omega
  | succ n ih =>
    intro s h1 h2
    rw [h.percentileLoop_step a t n s hx (by omega)]
    rcases Nat.lt_or_ge s b with hlt | hge
    · have h3 : ¬ t ≤ (h.before (s + 1) : ℚ) := by
        rcases hlo with h0 | hlo
        · omega
        · have : (h.before (s + 1) : ℚ) ≤ (h.before b : ℚ) := by
            exact_mod_cast h.before_mono (by omega : s + 1 ≤ b)
          intro h4
          linarith
      rw [if_neg h3]
      exact ih (s + 1) (by omega) (by omega)
    · have : s = b := le_antisymm h1 hge
      subst this
      rw [if_pos hhi]


/-! ## A histogram used again after `Clear` -/

/-- A `uint64_t` of at most 53 bits is converted to `double` without rounding. -/
theorem toDouble_small (a : Arith) (n : Nat) (hn : n ≤ 2 ^ 53) : toDouble a n = (n : ℚ) :=
  a.fl_natCast n (Or.inr hn)

/-- The members of type `double` after `Add(10)`, `Add(20)`, `Add(100)`, `Add(100)`
on a new histogram. -/
theorem Histogram.four_scalars (a : Arith) :
    ((Histogram.new a).addAll a [10, 20, 100, 100]).min_ = 10 ∧
    ((Histogram.new a).addAll a [10, 20, 100, 100]).max_ = 100 ∧
    ((Histogram.new a).addAll a [10, 20, 100, 100]).num_ = 4 := by
  have e10 : toDouble a 10 = 10 := by simpa using toDouble_small a 10 (by norm_num)
  have e20 : toDouble a 20 = 20 := by simpa using toDouble_small a 20 (by norm_num)
  have e100 : toDouble a 100 = 100 := by simpa using toDouble_small a 100 (by norm_num)
  have n2 : a.fl (1 + 1) = 2 := by
    have := a.fl_natCast 2 (Or.inr (by norm_num))
    norm_num at this ⊢; exact this
  have n3 : a.fl (2 + 1) = 3 := by
    have := a.fl_natCast 3 (Or.inr (by norm_num))
    norm_num at this ⊢; exact this
  have n4 : a.fl (3 + 1) = 4 := by
    have := a.fl_natCast 4 (Or.inr (by norm_num))
    norm_num at this ⊢; exact this
  simp only [Histogram.addAll, List.foldl_cons, List.foldl_nil, Histogram.Add, Histogram.new,
    e10, e20, e100, toDouble_LastValue, zero_add, a.fl_one, n2, n3, n4]
  norm_num

/-- The same members when the four values are added after `Add(1)` and `Clear()`. -/
theorem Histogram.four_scalars_after_Clear (a : Arith) :
    ((((Histogram.new a).addAll a [1]).Clear a).addAll a [10, 20, 100, 100]).min_ = 10 ∧
    ((((Histogram.new a).addAll a [1]).Clear a).addAll a [10, 20, 100, 100]).max_ = 100 ∧
    ((((Histogram.new a).addAll a [1]).Clear a).addAll a [10, 20, 100, 100]).num_ = 4 := by
  obtain ⟨h1, h2, h3, _, _⟩ := Histogram.addAll_scalars a [10, 20, 100, 100]
    (((Histogram.new a).addAll a [1]).Clear a) (Histogram.new a) rfl rfl rfl rfl rfl
  obtain ⟨k1, k2, k3⟩ := Histogram.four_scalars a
  exact ⟨h1.trans k1, h2.trans k2, h3.trans k3⟩

set_option maxRecDepth 100000 in
/-- The bucket counts after the four values on a new histogram: one value in each of
the buckets 9 and 14 and two in bucket 25. -/
theorem Histogram.four_buckets (a : Arith) :
    ((Histogram.new a).addAll a [10, 20, 100, 100]).buckets_ =
      ((((List.replicate 138 0).set 9 1).set 14 1).set 25 2) := by
  rw [Histogram.addAll_buckets]
  simp only [Histogram.new]
  decide

set_option maxRecDepth 100000 in
/-- The bucket counts when the four values are added after `Add(1)` and `Clear()`:
the count of bucket 0 is still there. -/
theorem Histogram.four_buckets_after_Clear (a : Arith) :
    ((((Histogram.new a).addAll a [1]).Clear a).addAll a [10, 20, 100, 100]).buckets_ =
      (((((List.replicate 138 0).set 0 1).set 9 1).set 14 1).set 25 2) := by
  rw [Histogram.addAll_buckets, Histogram.Clear_buckets a _
    (by rw [Histogram.addAll_length, Histogram.new_length, BucketCount_eq]),
    Histogram.addAll_buckets]
  simp only [Histogram.new]
  decide

/-- `Percentile(p)` when the threshold is reached in bucket `b`. -/
theorem Histogram.Percentile_at (a : Arith) (h : Histogram) (p t : ℚ) (b : Nat)
    (ht : a.fl (h.num_ * a.fl (p / 100)) = t)
    (hx : a = Arith.exact ∨ h.buckets_.sum ≤ 2 ^ 53) (hb : b < 138)
    (hlo : b = 0 ∨ (h.before b : ℚ) < t) (hhi : t ≤ (h.before (b + 1) : ℚ)) :
    h.Percentile a p = h.clamp (h.interpolate a t b) := by
  have := h.percentileLoop_at a t hx b hb hlo hhi 138 0 (Nat.zero_le b) (by omega)
  rw [h.before_zero] at this
  simp only [Histogram.Percentile, ht, BucketCount_eq]
  simpa using this

/-- A numeral of at most 53 bits is not rounded. -/
theorem Arith.fl_ofNat (a : Arith) (n : ℕ) [n.AtLeastTwo] (hn : n ≤ 2 ^ 53) :
    a.fl (OfNat.ofNat n) = OfNat.ofNat n := by
  have := a.fl_natCast n (Or.inr hn)
  simpa using this

set_option maxRecDepth 100000 in
/-- After `Add(1)`, `Clear()` and the four values, `Median()` is 10 and
`Percentile(100)` is 95. -/
theorem Histogram.stale_statistics (a : Arith) :
    ((((Histogram.new a).addAll a [1]).Clear a).addAll a [10, 20, 100, 100]).Median a = 10 ∧
    ((((Histogram.new a).addAll a [1]).Clear a).addAll a [10, 20, 100, 100]).Percentile a 100
      = 95 := by
  obtain ⟨hmin, hmax, hnum⟩ := Histogram.four_scalars_after_Clear a
  have hbk := Histogram.four_buckets_after_Clear a
  generalize ((((Histogram.new a).addAll a [1]).Clear a).addAll a [10, 20, 100, 100]) = h
    at hmin hmax hnum hbk
  have hx : a = Arith.exact ∨ h.buckets_.sum ≤ 2 ^ 53 := Or.inr (by rw [hbk]; decide)
  have b9 : h.before 9 = 1 := by rw [Histogram.before, hbk]; decide
  have b10 : h.before 10 = 2 := by rw [Histogram.before, hbk]; decide
  have c9 : h.count 9 = 1 := by rw [Histogram.count, hbk]; decide
  have b25 : h.before 25 = 3 := by rw [Histogram.before, hbk]; decide
  have b26 : h.before 26 = 5 := by rw [Histogram.before, hbk]; decide
  have c25 : h.count 25 = 2 := by rw [Histogram.count, hbk]; decide
  have l8 : BucketLimit 8 = 9 := by decide
  have l9 : BucketLimit 9 = 10 := by decide
  have l24 : BucketLimit 24 = 90 := by decide
  have l25 : BucketLimit 25 = 100 := by decide
  have f2 : a.fl 2 = 2 := a.fl_ofNat 2 (by norm_num)
  have f4 : a.fl 4 = 4 := a.fl_ofNat 4 (by norm_num)
  have f5 : a.fl 5 = 5 := a.fl_ofNat 5 (by norm_num)
  have f10 : a.fl 10 = 10 := a.fl_ofNat 10 (by norm_num)
  have f95 : a.fl 95 = 95 := a.fl_ofNat 95 (by norm_num)
  constructor
  · have ht : a.fl (h.num_ * a.fl (50 / 100)) = 2 := by
      rw [hnum, show (50 : ℚ) / 100 = 1 / 2 by norm_num, a.fl_half]
      norm_num
      exact f2
    rw [Histogram.Median, h.Percentile_at a 50 2 9 ht hx (by norm_num)
      (Or.inr (by rw [b9]; norm_num)) (by rw [b10]; norm_num)]
    simp only [Histogram.interpolate, Histogram.clamp, b9, c9, l8, l9, hmin, hmax]
    norm_num [a.fl_one, f10]
  · have ht : a.fl (h.num_ * a.fl (100 / 100)) = 4 := by
      rw [hnum, show (100 : ℚ) / 100 = 1 by norm_num, a.fl_one]
      norm_num
      exact f4
    rw [h.Percentile_at a 100 4 25 ht hx (by norm_num)
      (Or.inr (by rw [b25]; norm_num)) (by rw [b26]; norm_num)]
    simp only [Histogram.interpolate, Histogram.clamp, b25, c25, l24, l25, hmin, hmax]
    norm_num [a.fl_one, a.fl_half, f5, f95]

set_option maxRecDepth 100000 in
/-- After the four values on a new histogram, `Median()` is 20 and `Percentile(100)`
is 100. -/
theorem Histogram.fresh_statistics (a : Arith) :
    ((Histogram.new a).addAll a [10, 20, 100, 100]).Median a = 20 ∧
    ((Histogram.new a).addAll a [10, 20, 100, 100]).Percentile a 100 = 100 := by
  obtain ⟨hmin, hmax, hnum⟩ := Histogram.four_scalars a
  have hbk := Histogram.four_buckets a
  generalize ((Histogram.new a).addAll a [10, 20, 100, 100]) = h at hmin hmax hnum hbk
  have hx : a = Arith.exact ∨ h.buckets_.sum ≤ 2 ^ 53 := Or.inr (by rw [hbk]; decide)
  have b14 : h.before 14 = 1 := by rw [Histogram.before, hbk]; decide
  have b15 : h.before 15 = 2 := by rw [Histogram.before, hbk]; decide
  have c14 : h.count 14 = 1 := by rw [Histogram.count, hbk]; decide
  have b25 : h.before 25 = 2 := by rw [Histogram.before, hbk]; decide
  have b26 : h.before 26 = 4 := by rw [Histogram.before, hbk]; decide
  have c25 : h.count 25 = 2 := by rw [Histogram.count, hbk]; decide
  have l13 : BucketLimit 13 = 18 := by decide
  have l14 : BucketLimit 14 = 20 := by decide
  have l24 : BucketLimit 24 = 90 := by decide
  have l25 : BucketLimit 25 = 100 := by decide
  have f2 : a.fl 2 = 2 := a.fl_ofNat 2 (by norm_num)
  have f4 : a.fl 4 = 4 := a.fl_ofNat 4 (by norm_num)
  have f10 : a.fl 10 = 10 := a.fl_ofNat 10 (by norm_num)
  have f20 : a.fl 20 = 20 := a.fl_ofNat 20 (by norm_num)
  have f100 : a.fl 100 = 100 := a.fl_ofNat 100 (by norm_num)
  constructor
  · have ht : a.fl (h.num_ * a.fl (50 / 100)) = 2 := by
      rw [hnum, show (50 : ℚ) / 100 = 1 / 2 by norm_num, a.fl_half]
      norm_num
      exact f2
    rw [Histogram.Median, h.Percentile_at a 50 2 14 ht hx (by norm_num)
      (Or.inr (by rw [b14]; norm_num)) (by rw [b15]; norm_num)]
    simp only [Histogram.interpolate, Histogram.clamp, b14, c14, l13, l14, hmin, hmax]
    norm_num [a.fl_one, f2, f20]
  · have ht : a.fl (h.num_ * a.fl (100 / 100)) = 4 := by
      rw [hnum, show (100 : ℚ) / 100 = 1 by norm_num, a.fl_one]
      norm_num
      exact f4
    rw [h.Percentile_at a 100 4 25 ht hx (by norm_num)
      (Or.inr (by rw [b25]; norm_num)) (by rw [b26]; norm_num)]
    simp only [Histogram.interpolate, Histogram.clamp, b25, c25, l24, l25, hmin, hmax]
    norm_num [a.fl_one, f2, f10, f100]

/-! ## Claim on `IndexForValue` -/

/-- C21: the bucket mapping. The bucket limits are strictly increasing. For every
value `v`, those of 64 bits among them: when `v <= 1000000000`, `IndexForValue(v)` is
the least index whose bucket limit is at least `v`; when `v > 1000000000` it is the
last index. The result is below `BucketCount`, so below the size of `buckets_` in
`Add`: a new histogram has `BucketCount` buckets, and `Add` and `Clear` keep that
number. `IndexForValue` is non-decreasing, and where it calls `lower_bound`, from
the first bucket limit to below the last, the result is not `end()`, so that the
`return 0` after it is not reached. -/
theorem C21_bucket_mapping (v w : Nat) :
    bucketValues_.Pairwise (· < ·) ∧
    (v ≤ 1000000000 →
      v ≤ bucketValues_.getD (IndexForValue v) 0 ∧
      ∀ j, j < IndexForValue v → bucketValues_.getD j 0 < v) ∧
    (1000000000 < v → IndexForValue v = bucketValues_.length - 1) ∧
    IndexForValue v < BucketCount ∧
    (∀ a : Arith, (Histogram.new a).buckets_.length = BucketCount) ∧
    (∀ (a : Arith) (h : Histogram), h.buckets_.length = BucketCount →
      IndexForValue v < h.buckets_.length ∧
      (h.Add a v).buckets_.length = BucketCount ∧
      (h.Clear a).buckets_.length = BucketCount) ∧
    (v ≤ w → IndexForValue v ≤ IndexForValue w) ∧
    (minBucketValue_ ≤ v → v < maxBucketValue_ →
      (lower_bound valueIndexMap_ v).isSome = true) := by
  obtain ⟨h1, h2, h3⟩ := IndexForValue_spec v
  refine ⟨bucketValues_sorted, h2, fun hv => ?_, ?_, ?_, ?_, IndexForValue_mono,
    fun _ hv => lower_bound_isSome v hv⟩
  · rw [h3 (le_of_lt hv), bucketValues_length]
  · rw [BucketCount_eq]; exact h1
  · intro a
    rw [Histogram.new_length, BucketCount_eq]
  · intro a h hlen
    refine ⟨by rw [hlen, BucketCount_eq]; exact h1, by rw [h.Add_length a v, hlen], ?_⟩
    simp only [Histogram.Clear]
    exact resize_length _ _ _

/-! ## Claim on the use of a histogram after `Clear` -/

/-- C22 at its failing input. `Clear()` gives `min_`, `max_`, `num_`, `sum_` and
`sum_squares_` the values of the constructor, but `buckets_.resize(BucketCount, 0)`
leaves the `BucketCount` bucket counts as they are: after any list of `Add`s and
`Clear()` the bucket counts are those before `Clear()`, and after `Add(1)` and
`Clear()` the count of bucket 0 is 1. `Average()` after later `Add`s is that of a new
histogram with the same `Add`s, `Median()` and `Percentile(p)` are not: after
`Add(1)`, `Clear()`, `Add(10)`, `Add(20)`, `Add(100)`, `Add(100)`, in either
arithmetic, `Median()` is 10 and `Percentile(100)` is 95, where a new histogram with
the same four `Add`s has 20 and 100. -/
theorem C22_clear_keeps_bucket_counts (a : Arith) (values later : List Nat) :
    (((Histogram.new a).addAll a values).Clear a).min_ = (Histogram.new a).min_ ∧
    (((Histogram.new a).addAll a values).Clear a).max_ = (Histogram.new a).max_ ∧
    (((Histogram.new a).addAll a values).Clear a).num_ = (Histogram.new a).num_ ∧
    (((Histogram.new a).addAll a values).Clear a).sum_ = (Histogram.new a).sum_ ∧
    (((Histogram.new a).addAll a values).Clear a).sum_squares_ =
      (Histogram.new a).sum_squares_ ∧
    (((Histogram.new a).addAll a values).Clear a).buckets_ =
      ((Histogram.new a).addAll a values).buckets_ ∧
    (((Histogram.new a).addAll a [1]).Clear a).buckets_.getD 0 0 = 1 ∧
    ((((Histogram.new a).addAll a values).Clear a).addAll a later).Average a =
      ((Histogram.new a).addAll a later).Average a ∧
    ((((Histogram.new a).addAll a [1]).Clear a).addAll a [10, 20, 100, 100]).Median a = 10 ∧
    ((Histogram.new a).addAll a [10, 20, 100, 100]).Median a = 20 ∧
    ((((Histogram.new a).addAll a [1]).Clear a).addAll a [10, 20, 100, 100]).Percentile a 100
      = 95 ∧
    ((Histogram.new a).addAll a [10, 20, 100, 100]).Percentile a 100 = 100 := by
  have hlen : ∀ l : List Nat, ((Histogram.new a).addAll a l).buckets_.length = BucketCount :=
    fun l => by rw [Histogram.addAll_length, Histogram.new_length, BucketCount_eq]
  obtain ⟨_, _, h3, h4, _⟩ := Histogram.addAll_scalars a later
    (((Histogram.new a).addAll a values).Clear a) (Histogram.new a) rfl rfl rfl rfl rfl
  obtain ⟨s1, s2⟩ := Histogram.stale_statistics a
  obtain ⟨f1, f2⟩ := Histogram.fresh_statistics a
  refine ⟨rfl, rfl, rfl, rfl, rfl, Histogram.Clear_buckets a _ (hlen values), ?_, ?_,
    s1, f1, s2, f2⟩
  · rw [Histogram.Clear_buckets a _ (hlen [1]), Histogram.addAll_buckets]
    simp only [Histogram.new]
    set_option maxRecDepth 100000 in decide
  · simp only [Histogram.Average, h3, h4]

/-! ## Lemmas on the hexadecimal conversions -/

theorem hexDigitValue_upperHexDigit :
    ∀ v : Fin 16, hexDigitValue (upperHexDigit v.val) = some v.val := by
  decide

theorem upperHexDigit_mem : ∀ v : Fin 16, upperHexDigit v.val ∈ upperHexDigits := by
  decide

theorem sscanf_2X_snprintf (c : BlockCache.Byte) (rest : CString) :
    sscanf_2X (snprintf_02X c ++ rest) = some c.val := by
  have h1 := hexDigitValue_upperHexDigit ⟨c.val / 16, by omega⟩
  have h2 := hexDigitValue_upperHexDigit ⟨c.val % 16, by omega⟩
  simp only at h1 h2
  simp only [snprintf_02X, List.cons_append, List.nil_append, sscanf_2X, h1, h2]
  congr 1
  omega

theorem byteOf_val (c : BlockCache.Byte) : BlockCache.byteOf c.val = c := by
  apply Fin.ext
  simp only [BlockCache.byteOf]
  exact Nat.mod_eq_of_lt c.isLt

theorem LDBCommand.StringToHex_eq (str : CString) :
    LDBCommand.StringToHex str = [ascii '0', ascii 'x'] ++ (str.map snprintf_02X).flatten := by
  have : ∀ (s acc : CString),
      s.foldl (fun result c => result ++ snprintf_02X c) acc =
        acc ++ (s.map snprintf_02X).flatten := by
    intro s
    induction s with
    | nil => intro acc; simp
    | cons c cs ih => intro acc; simp [ih]
  exact this str _

theorem flatten_snprintf_length (str : CString) :
    (str.map snprintf_02X).flatten.length = 2 * str.length := by
  induction str with
  | nil => simp
  | cons c cs ih => simp [snprintf_02X, ih]; omega

theorem LDBCommand.StringToHex_length (str : CString) :
    (LDBCommand.StringToHex str).length = 2 + 2 * str.length := by
  rw [LDBCommand.StringToHex_eq, List.length_append, flatten_snprintf_length]
  rfl

theorem flatten_snprintf_digits (str : CString) :
    ∀ d ∈ (str.map snprintf_02X).flatten, d ∈ upperHexDigits := by
  intro d hd
  simp only [List.mem_flatten, List.mem_map] at hd
  obtain ⟨l, ⟨c, _, rfl⟩, hdl⟩ := hd
  simp only [snprintf_02X, List.mem_cons, List.mem_singleton, List.not_mem_nil, or_false] at hdl
  rcases hdl with rfl | rfl
  · exact upperHexDigit_mem ⟨c.val / 16, by omega⟩
  · exact upperHexDigit_mem ⟨c.val % 16, by omega⟩

/-- The characters of the hexadecimal form from the digits of byte `k` on. -/
theorem flatten_snprintf_drop (str : CString) : ∀ k : Nat,
    (str.map snprintf_02X).flatten.drop (2 * k) = ((str.drop k).map snprintf_02X).flatten := by
  induction str with
  | nil => intro k; simp
  | cons c cs ih =>
    intro k
    cases k with
    | zero => simp
    | succ k =>
      have := ih k
      simp only [List.map_cons, List.flatten_cons, List.drop_succ_cons, snprintf_02X,
        List.cons_append, List.nil_append, Nat.mul_succ] at this ⊢
      exact this

theorem LDBCommand.StringToHex_drop (str : CString) (k : Nat) :
    (LDBCommand.StringToHex str).drop (2 + 2 * k) =
      ((str.drop k).map snprintf_02X).flatten := by
  rw [LDBCommand.StringToHex_eq, ← flatten_snprintf_drop, Nat.add_comm]
  rfl

/-- The loop of `HexToString` on the hexadecimal form of a string whose index does
not wrap: from the digits of byte `k` on it appends the bytes from `k` on. -/
theorem LDBCommand.hexLoop_StringToHex (str : CString)
    (hlen : 2 + 2 * str.length < 2 ^ 32) :
    ∀ (m k fuel : Nat) (parsed : CString), k + m = str.length → m < fuel →
      LDBCommand.hexLoop (LDBCommand.StringToHex str) fuel (2 + 2 * k) parsed =
        Except.ok (parsed ++ str.drop k) := by
  intro m
  induction m with
  | zero =>
    intro k fuel parsed hk hf
    obtain ⟨n, rfl⟩ : ∃ n, fuel = n + 1 := ⟨fuel - 1, by omega⟩
    have hk2 : k = str.length := by omega
    subst hk2
    simp only [LDBCommand.hexLoop, LDBCommand.StringToHex_length, lt_self_iff_false, if_false,
      List.drop_length, List.append_nil]
  | succ m ih =>
    intro k fuel parsed hk hf
    obtain ⟨n, rfl⟩ : ∃ n, fuel = n + 1 := ⟨fuel - 1, by omega⟩
    have hlt : 2 + 2 * k < (LDBCommand.StringToHex str).length := by
      rw [LDBCommand.StringToHex_length]; omega
    have hk1 : k < str.length := by omega
    have hdrop : str.drop k = str[k] :: str.drop (k + 1) := List.drop_eq_getElem_cons hk1
    have hs : sscanf_2X ((LDBCommand.StringToHex str).drop (2 + 2 * k)) = some (str[k]).val := by
      rw [LDBCommand.StringToHex_drop, hdrop, List.map_cons, List.flatten_cons]
      exact sscanf_2X_snprintf _ _
    have hw : BlockCache.wrap32 (2 + 2 * k + 2) = 2 + 2 * (k + 1) := by
      unfold BlockCache.wrap32
      rw [Nat.mod_eq_of_lt (by omega)]
      omega
    rw [LDBCommand.hexLoop, if_pos hlt, hs]
    simp only
    rw [hw, ih (k + 1) n _ (by omega) (by omega), byteOf_val, hdrop]
    simp

/-- On a string of `2 ^ 32` or more characters the index of the loop of `HexToString`
never reaches the length, so the loop does not return. -/
theorem LDBCommand.hexLoop_never (str : CString) (hlen : 2 ^ 32 ≤ str.length) :
    ∀ (fuel i : Nat) (parsed r : CString), i < 2 ^ 32 →
      LDBCommand.hexLoop str fuel i parsed ≠ Except.ok r := by
  intro fuel
  induction fuel with
  | zero => intro i parsed r _ h; simp [LDBCommand.hexLoop] at h
  | succ n ih =>
    intro i parsed r hi h
    rw [LDBCommand.hexLoop, if_pos (by omega)] at h
    cases hs : sscanf_2X (str.drop i) with
    | none => rw [hs] at h; simp at h
    | some c =>
      rw [hs] at h
      simp only at h
      exact ih _ _ r (by unfold BlockCache.wrap32; exact Nat.mod_lt _ (by norm_num)) h

/-- `HexToString` does not return on a string of `2 ^ 32` or more characters. -/
theorem LDBCommand.HexToString_never (str : CString) (hlen : 2 ^ 32 ≤ str.length)
    (fuel : Nat) (r : CString) : LDBCommand.HexToString fuel str ≠ Except.ok r := by
  intro h
  unfold LDBCommand.HexToString at h
  split at h
  · simp at h
  · exact LDBCommand.hexLoop_never str hlen fuel 2 [] r (by norm_num) h

/-! ## The hexadecimal round trip and its limit -/

/-- C20 at its failing input. The loop of `HexToString` indexes the string with an
`unsigned int i` and compares it with `str.length()`, a `size_t`, where
`StringToHex` uses a `size_t i`: the hexadecimal form that `StringToHex` gives for
2147483647 zero bytes has `2 ^ 32` characters, `i` wraps to 0 before it reaches that
length, and `HexToString` never returns the string, however many turns its loop
takes. -/
theorem C20_hex_index_wraps :
    (LDBCommand.StringToHex (List.replicate 2147483647 0)).length = 2 ^ 32 ∧
    (∀ (fuel : Nat) (r : CString),
      LDBCommand.HexToString fuel (LDBCommand.StringToHex (List.replicate 2147483647 0))
        ≠ Except.ok r) ∧
    ¬ ∃ fuel, LDBCommand.HexToString fuel (LDBCommand.StringToHex (List.replicate 2147483647 0))
        = Except.ok (List.replicate 2147483647 0) := by
  have hl : (LDBCommand.StringToHex (List.replicate 2147483647 0)).length = 2 ^ 32 := by
    rw [LDBCommand.StringToHex_length, List.length_replicate]
    norm_num
  exact ⟨hl, fun fuel r => LDBCommand.HexToString_never _ (le_of_eq hl.symm) fuel r,
    fun ⟨fuel, h⟩ => LDBCommand.HexToString_never _ (le_of_eq hl.symm) fuel _ h⟩

/-- The hexadecimal round trip of strings of fewer than `2 ^ 31 - 1` bytes, whose
hexadecimal form is indexed without a wrap. For every such byte string `str`,
`StringToHex(str)` is `0x` followed by two upper-case hexadecimal digits for every
byte of `str`, and `HexToString` gives `str` back from it, without its `throw` and
with every byte stored by `sscanf`; its loop takes one turn for every byte. -/
theorem LDBCommand.HexToString_StringToHex (str : CString) (hlen : str.length < 2 ^ 31 - 1) :
    (LDBCommand.StringToHex str).take 2 = [ascii '0', ascii 'x'] ∧
    (LDBCommand.StringToHex str).drop 2 = (str.map snprintf_02X).flatten ∧
    ((LDBCommand.StringToHex str).drop 2).length = 2 * str.length ∧
    (∀ d ∈ (LDBCommand.StringToHex str).drop 2, d ∈ upperHexDigits) ∧
    ∀ fuel, str.length < fuel →
      LDBCommand.HexToString fuel (LDBCommand.StringToHex str) = Except.ok str := by
  have h := LDBCommand.StringToHex_eq str
  have ht : (LDBCommand.StringToHex str).take 2 = [ascii '0', ascii 'x'] := by
    rw [h]; rfl
  have hd : (LDBCommand.StringToHex str).drop 2 = (str.map snprintf_02X).flatten := by
    rw [h]; rfl
  refine ⟨ht, hd, ?_, ?_, ?_⟩
  · rw [hd]; exact flatten_snprintf_length str
  · rw [hd]; exact flatten_snprintf_digits str
  · intro fuel hf
    have := LDBCommand.hexLoop_StringToHex str (by omega) str.length 0 fuel []
      (by omega) hf
    simp only [LDBCommand.HexToString, ht, ne_eq, not_true_eq_false, if_false]
    simpa using this

/-- The round trip of the four bytes `00 FF AB 10`. -/
theorem LDBCommand.HexToString_StringToHex_sample :
    ([0, 255, 171, 16] : CString).length < 2 ^ 31 - 1 ∧
    LDBCommand.StringToHex [0, 255, 171, 16] = "0x00FFAB10".toList.map ascii ∧
    LDBCommand.HexToString 5 (LDBCommand.StringToHex [0, 255, 171, 16]) =
      Except.ok [0, 255, 171, 16] :=
  ⟨by decide, by decide,
    (LDBCommand.HexToString_StringToHex [0, 255, 171, 16] (by decide)).2.2.2.2 5
      (by decide)⟩

end leveldb
